import Mathlib

/-!
A verification development for the riegeli segmented byte buffer (`Chain`)
and its reference-counted blocks (`RawBlock`), the `CopyAllImpl`
reader-to-writer composition, and the C ABI record-reader shim.

Definitions are shallow embeddings of the C++ sources (`chain.cc`,
`copy_all.cc`, the shim translation units).  Parts of the repository that
exist only in headers absent from the provided sources (numeric constants,
`RawBlock::is_mutable`, `Chain::Wasteful`, the trim helpers
`TryClear`/`TryRemoveSuffix`/`TryRemovePrefix`, and the thin inline
wrappers `Chain::Clear`/`Chain::Flatten`/`Chain::Initialize(string_view)`)
are modelled from the spec and marked as such in their doc comments.

Byte contents are `List Nat`.  Sizes are unbounded naturals: the source's
`size_t`-overflow guards (`RIEGELI_CHECK_LE(..., SIZE_MAX - size_)` and
the corresponding `UnsignedMin(..., SIZE_MAX - size_)` clamps) concern
machine-width overflow only and are not modelled.
-/

namespace Riegeli

/-- Byte strings are lists of naturals. -/
abbrev Bytes := List Nat

/-- Modelled from the spec: short data is stored inline while
`size ≤ kMaxShortDataSize` (the spec says "typically ≤ 15 bytes");
the constant itself lives in `chain.h`, which is not among the sources. -/
def kMaxShortDataSize : Nat := 15

/-- Modelled from the spec: the minimum-block threshold below which a block
is tiny (`chain.h` constant, not among the sources). -/
def kDefaultMinBlockSize : Nat := 64

/-- Modelled from the spec: the default new-block ceiling (`chain.h`
constant, not among the sources). -/
def kDefaultMaxBlockSize : Nat := 65536

/-- Modelled from the spec: the fixed allocation overhead used by the
wasteful test (`chain.h` constant, not among the sources). -/
def kAllocationCost : Nat := 256

/-- Modelled from the spec: an internal block is one aligned allocation of
`sizeof(header) + capacity` bytes; this models the header size
`kInternalAllocatedOffset()` (`chain.h`, not among the sources). -/
def kInternalAllocatedOffset : Nat := 32

/-- Modelled from the spec: the size cap of a single block
(`RawBlock::kMaxCapacity`, `chain.h`, not among the sources). -/
def kMaxCapacity : Nat := 2 ^ 63

/-- Modelled from the spec: the threshold below which bytes are copied
rather than wrapped as an external block ("when small", `buffering.h`,
not among the sources). -/
def kMaxBytesToCopy : Nat := 255

/-- Modelled from the spec: `wasteful ⇔ total allocation ≥
2·(size+extra) + kAllocationCost` (`Chain::Wasteful`, `chain.h`, not
among the sources). -/
def Wasteful (total used : Nat) : Bool := 2 * used + kAllocationCost ≤ total

/-- A `Chain::RawBlock`: either internal (owning an arena
`[allocated_begin, allocated_end)` with the live region
`[data, data+size)` inside it) or external (borrowing bytes from a
type-erased payload).  `spaceBefore`/`spaceAfter` are the free arena bytes
on each side of the live region; `shared` records whether the reference
count exceeds one (`!ref_count.HasUniqueOwner()`). -/
inductive RawBlock : Type
  | internal (spaceBefore : Nat) (data : Bytes) (spaceAfter : Nat) (shared : Bool)
  | external (data : Bytes) (shared : Bool)
deriving DecidableEq, Repr

instance : Inhabited RawBlock := ⟨RawBlock.external [] false⟩

/-- The live bytes of a block. -/
def RawBlock.data : RawBlock → Bytes
  | .internal _ d _ _ => d
  | .external d _ => d

/-- `RawBlock::size()`: number of live bytes. -/
def RawBlock.size (b : RawBlock) : Nat := b.data.length

/-- `RawBlock::is_internal()`. -/
def RawBlock.isInternal : RawBlock → Bool
  | .internal _ _ _ _ => true
  | .external _ _ => false

/-- Whether the reference count exceeds one. -/
def RawBlock.isShared : RawBlock → Bool
  | .internal _ _ _ sh => sh
  | .external _ sh => sh

/-- `RawBlock::empty()`. -/
def RawBlock.isEmpty (b : RawBlock) : Bool := b.size = 0

/-- `RawBlock::capacity()`: the arena size for internal blocks; for
external blocks capacity equals size. -/
def RawBlock.capacity : RawBlock → Nat
  | .internal sb d sa _ => sb + d.length + sa
  | .external d _ => d.length

/-- `RawBlock::space_before()` (source asserts the block is internal;
external blocks have no arena, modelled as 0). -/
def RawBlock.spaceBefore : RawBlock → Nat
  | .internal sb _ _ _ => sb
  | .external _ _ => 0

/-- `RawBlock::space_after()` (source asserts the block is internal;
external blocks have no arena, modelled as 0). -/
def RawBlock.spaceAfter : RawBlock → Nat
  | .internal _ _ sa _ => sa
  | .external _ _ => 0

/-- Modelled from the spec: a block is mutable iff it is internal and has
a unique owner (`RawBlock::is_mutable`, `chain.h`, not among the
sources). -/
def RawBlock.isMutable (b : RawBlock) : Bool := b.isInternal && !b.isShared

/-- `RawBlock::tiny(extra_size)`: `size + extra_size < kDefaultMinBlockSize`. -/
def RawBlock.tiny (b : RawBlock) (extraSize : Nat := 0) : Bool :=
  b.size + extraSize < kDefaultMinBlockSize

/-- `RawBlock::wasteful(extra_size)`: external blocks are never wasteful;
internal blocks apply `Wasteful` to the whole allocation. -/
def RawBlock.wasteful (b : RawBlock) (extraSize : Nat := 0) : Bool :=
  match b with
  | .internal _ _ _ _ =>
      Wasteful (kInternalAllocatedOffset + b.capacity) (b.size + extraSize)
  | .external _ _ => false

/-- `RawBlock::can_append(length)`. -/
def RawBlock.canAppend (b : RawBlock) (length : Nat) : Bool :=
  b.isMutable && (if b.isEmpty then b.capacity else b.spaceAfter) ≥ length

/-- `RawBlock::can_prepend(length)`. -/
def RawBlock.canPrepend (b : RawBlock) (length : Nat) : Bool :=
  b.isMutable && (if b.isEmpty then b.capacity else b.spaceBefore) ≥ length

/-- `RawBlock::NewInternal(min_capacity)`: a fresh internal block with an
arena of exactly the requested capacity (the spec: "a single allocation
sized `sizeof(header) + requested_capacity`"). -/
def RawBlock.newInternal (minCapacity : Nat) : RawBlock :=
  .internal 0 [] minCapacity false

/-- `RawBlock::Append(src, space_before = 0)` /
`AppendWithExplicitSizeToCopy`: if the block is empty the live region is
reset to `allocated_begin_ + space_before`; then bytes are copied after
the live region (callers establish `can_append(src.size)`). -/
def RawBlock.appendBytes (b : RawBlock) (src : Bytes) (spaceBefore : Nat := 0) :
    RawBlock :=
  match b with
  | .internal sb d sa sh =>
      if d.isEmpty then
        .internal spaceBefore src (sb + sa - spaceBefore - src.length) sh
      else
        .internal sb (d ++ src) (sa - src.length) sh
  | .external d sh => .external (d ++ src) sh

/-- `RawBlock::Prepend(src, space_after = 0)`: if the block is empty the
live region is reset to `allocated_end_ - space_after`; then bytes are
copied before the live region (callers establish
`can_prepend(src.size)`). -/
def RawBlock.prependBytes (b : RawBlock) (src : Bytes) (spaceAfter : Nat := 0) :
    RawBlock :=
  match b with
  | .internal sb d sa sh =>
      if d.isEmpty then
        .internal (sb + sa - spaceAfter - src.length) src spaceAfter sh
      else
        .internal (sb - src.length) (src ++ d) sa sh
  | .external d sh => .external (src ++ d) sh

/-- `RawBlock::Copy()`: allocate an internal block of capacity `size()`
and append the live region to it. -/
def RawBlock.copy (b : RawBlock) : RawBlock :=
  (RawBlock.newInternal b.size).appendBytes b.data

/-- The first `n` bytes of the caller-visible buffer once the caller has
written `fill` into it: the written bytes, padded with zeros for the part
of the span the caller left untouched (the C++ span always has the full
returned length). -/
def takePad (n : Nat) (l : Bytes) : Bytes :=
  l.take n ++ List.replicate (n - l.length) 0

/-- The last `n` bytes of the caller-visible buffer for the prepend side:
zeros for the untouched part, then the suffix of `fill`. -/
def dropPad (n : Nat) (l : Bytes) : Bytes :=
  List.replicate (n - l.length) 0 ++ l.drop (l.length - n)

/-- `RawBlock::AppendBuffer(max_length)`: if empty, reset the live region
to the arena start; extend the live region by
`min(space_after, max_length)` bytes whose contents the caller writes
(`fill` models the caller's bytes).  Returns the block and the buffer
length.  The source asserts `is_mutable()`. -/
def RawBlock.appendBufferOp (b : RawBlock) (maxLength : Nat) (fill : Bytes) :
    RawBlock × Nat :=
  match b with
  | .internal sb d sa sh =>
      if d.isEmpty then
        let len := min (sb + sa) maxLength
        (.internal 0 (takePad len fill) (sb + sa - len) sh, len)
      else
        let len := min sa maxLength
        (.internal sb (d ++ takePad len fill) (sa - len) sh, len)
  | .external d sh => (.external d sh, 0)

/-- `RawBlock::PrependBuffer(max_length)`: if empty, reset the live region
to the arena end; extend the live region downward by
`min(space_before, max_length)` bytes whose contents the caller writes
(`fill` models the caller's bytes, written at the end of `fill`). -/
def RawBlock.prependBufferOp (b : RawBlock) (maxLength : Nat) (fill : Bytes) :
    RawBlock × Nat :=
  match b with
  | .internal sb d sa sh =>
      if d.isEmpty then
        let len := min (sb + sa) maxLength
        (.internal (sb + sa - len) (dropPad len fill) 0 sh, len)
      else
        let len := min sb maxLength
        (.internal (sb - len) (dropPad len fill ++ d) sa sh, len)
  | .external d sh => (.external d sh, 0)

/-- Modelled from the spec: `RawBlock::TryClear` (`chain.h`, not among the
sources): when the block is mutable, set `size_ = 0` keeping the arena;
report whether it succeeded. -/
def RawBlock.tryClear (b : RawBlock) : RawBlock × Bool :=
  match b with
  | .internal sb d sa sh =>
      if b.isMutable then (.internal sb [] (d.length + sa) sh, true)
      else (b, false)
  | .external _ _ => (b, false)

/-- Modelled from the spec: `RawBlock::TryRemoveSuffix(length)`
(`chain.h`, not among the sources): trim without copy by shrinking
`size_` when the trimmed region is observed by no one else (the block is
mutable). -/
def RawBlock.tryRemoveSuffix (b : RawBlock) (length : Nat) : RawBlock × Bool :=
  match b with
  | .internal sb d sa sh =>
      if b.isMutable then
        (.internal sb (d.take (d.length - length)) (sa + length) sh, true)
      else (b, false)
  | .external _ _ => (b, false)

/-- Modelled from the spec: `RawBlock::TryRemovePrefix(length)`
(`chain.h`, not among the sources): trim without copy by advancing
`data_` when the block is mutable. -/
def RawBlock.tryRemovePrefixOp (b : RawBlock) (length : Nat) : RawBlock × Bool :=
  match b with
  | .internal sb d sa sh =>
      if b.isMutable then (.internal (sb + length) (d.drop length) sa sh, true)
      else (b, false)
  | .external _ _ => (b, false)

/-- Mark a block as shared (its reference count was bumped by a second
owner). -/
def RawBlock.setShared : RawBlock → RawBlock
  | .internal sb d sa _ => .internal sb d sa true
  | .external d _ => .external d true

/-- `Chain::Options`: `size_hint`, `min_block_size`, `max_block_size`. -/
structure Options where
  sizeHint : Option Nat := none
  minBlockSize : Nat := kDefaultMinBlockSize
  maxBlockSize : Nat := kDefaultMaxBlockSize
deriving Repr, DecidableEq

instance : Inhabited Options := ⟨{}⟩

/-- Modelled from the spec: `ApplySizeHint` (`buffering.h`, not among the
sources): clamp the base length upward so that one block can hold the
hinted remainder, when a size hint is present and not yet reached. -/
def applySizeHint (baseLength : Nat) (sizeHint : Option Nat) (pos : Nat) : Nat :=
  match sizeHint with
  | some hint => if pos < hint then max baseLength (hint - pos) else baseLength
  | none => baseLength

/-- Modelled from the spec: `ApplyBufferConstraints` (`buffering.h`, not
among the sources): clamp into `[min_length, max_length]` with the lower
bound taking precedence.  The spec describes no effect of
`recommended_length` on the result, so it is accepted and unused. -/
def applyBufferConstraints (baseLength minLength _recommendedLength
    maxLength : Nat) : Nat :=
  max minLength (min baseLength maxLength)

/-- `Chain::NewBlockCapacity(replaced_length, min_length,
recommended_length, options)` for a chain of size `csize`. -/
def newBlockCapacity (csize replacedLength minLength recommendedLength : Nat)
    (options : Options) : Nat :=
  replacedLength +
    applyBufferConstraints
      (applySizeHint
        (max csize (options.minBlockSize - replacedLength))
        options.sizeHint csize)
      minLength recommendedLength
      (options.maxBlockSize - replacedLength)

end Riegeli

namespace Riegeli

/-- A `Chain`: total logical size `csize` (`size_`), the inline short-data
buffer (`block_ptrs_.short_data`, live only while no blocks are attached),
and the attached blocks (`[begin_, end_)`).  `bs = []` models
`begin_ == end_`. -/
structure Chain where
  csize : Nat
  shortData : Bytes
  bs : List RawBlock
deriving Repr, DecidableEq

instance : Inhabited Chain := ⟨⟨0, [], []⟩⟩

/-- `Chain::short_data()`: the live `size_` bytes of the inline buffer. -/
def Chain.shortBytes (c : Chain) : Bytes := c.shortData.take c.csize

/-- `Chain::back()`. -/
def backB (bs : List RawBlock) : RawBlock := bs.getLast?.getD default

/-- `Chain::front()`. -/
def frontB (bs : List RawBlock) : RawBlock := bs.head?.getD default

/-- `Chain::SetBack`. -/
def setBackL (bs : List RawBlock) (b : RawBlock) : List RawBlock :=
  bs.dropLast ++ [b]

/-- The logical byte string a chain represents: the short data when no
blocks are attached, otherwise the concatenation of the blocks'
contents.  `Chain::ToString` produces exactly these bytes (it sizes the
result by `size_`, which the chain invariant keeps equal to the sum of
block sizes). -/
def Chain.content (c : Chain) : Bytes :=
  if c.bs.isEmpty then c.shortBytes else (c.bs.map RawBlock.data).flatten

/-- `Chain::ToString` / `Chain::operator string`. -/
def Chain.toStr (c : Chain) : Bytes := c.content

/-- `Chain::AppendBuffer(min_length, recommended_length, max_length,
options)`.  `fill` models the bytes the caller writes into the returned
span; the returned number is the span length.  The source's
`UnsignedMin(max_length, SIZE_MAX - size_)` clamp is the identity for
unbounded sizes. -/
def Chain.appendBufferCh (c : Chain) (minLength recommendedLength
    maxLength : Nat) (options : Options) (fill : Bytes) : Chain × Nat :=
  match c.bs with
  | [] =>
    if minLength ≤ kMaxShortDataSize - c.csize &&
        (recommendedLength ≤ kMaxShortDataSize - c.csize &&
          (match options.sizeHint with
           | none => true
           | some hint => hint ≤ kMaxShortDataSize)) then
      -- Append the new space to short data.
      let len := min maxLength (kMaxShortDataSize - c.csize)
      (⟨c.csize + len, c.shortBytes ++ takePad len fill, []⟩, len)
    else if minLength ≤ kMaxShortDataSize - c.csize && minLength = 0 then
      (c, 0)
    else
      -- Merge short data with the new space to a new block.
      let bs1 : List RawBlock :=
        if kMaxCapacity - c.csize < minLength then
          [(RawBlock.newInternal kMaxShortDataSize).appendBytes c.shortBytes,
           RawBlock.newInternal
             (newBlockCapacity c.csize 0 minLength recommendedLength options)]
        else
          [(RawBlock.newInternal
              (newBlockCapacity c.csize c.csize
                (max minLength (kMaxShortDataSize - c.csize))
                recommendedLength options)).appendBytes c.shortBytes]
      let p := (backB bs1).appendBufferOp maxLength fill
      (⟨c.csize + p.2, c.shortData, setBackL bs1 p.1⟩, p.2)
  | _ :: _ =>
    let bk := backB c.bs
    let step : Option (List RawBlock) :=
      if bk.canAppend minLength then some c.bs
      else if minLength = 0 then none
      else if bk.tiny && minLength ≤ kMaxCapacity - bk.size then
        -- The last block must be rewritten: merge it with the new space.
        some (setBackL c.bs
          ((RawBlock.newInternal
              (newBlockCapacity c.csize bk.size minLength recommendedLength
                options)).appendBytes bk.data))
      else
        -- Possibly rewrite a wasteful last block, then push a new block.
        let reuse : Option RawBlock :=
          if bk.wasteful then
            let t := bk.tryClear
            if t.2 && t.1.canAppend minLength then some t.1 else none
          else none
        let bs1 := if bk.wasteful then setBackL c.bs bk.copy else c.bs
        let newb :=
          match reuse with
          | some bl => bl
          | none =>
              RawBlock.newInternal
                (newBlockCapacity c.csize 0 minLength recommendedLength
                  options)
        some (bs1 ++ [newb])
    match step with
    | none => (c, 0)
    | some bs1 =>
      let p := (backB bs1).appendBufferOp maxLength fill
      (⟨c.csize + p.2, c.shortData, setBackL bs1 p.1⟩, p.2)

/-- `Chain::PrependBuffer(min_length, recommended_length, max_length,
options)`.  `fill` models the caller's bytes, taken from the end of
`fill`. -/
def Chain.prependBufferCh (c : Chain) (minLength recommendedLength
    maxLength : Nat) (options : Options) (fill : Bytes) : Chain × Nat :=
  match c.bs with
  | [] =>
    if minLength ≤ kMaxShortDataSize - c.csize &&
        (recommendedLength ≤ kMaxShortDataSize - c.csize &&
          (match options.sizeHint with
           | none => true
           | some hint => hint ≤ kMaxShortDataSize)) then
      -- Prepend the new space to short data (memmove right, write front).
      let len := min maxLength (kMaxShortDataSize - c.csize)
      (⟨c.csize + len, dropPad len fill ++ c.shortBytes, []⟩, len)
    else if minLength ≤ kMaxShortDataSize - c.csize && minLength = 0 then
      (c, 0)
    else
      let bs1 : List RawBlock :=
        if kMaxCapacity - c.csize < minLength then
          [RawBlock.newInternal
             (newBlockCapacity c.csize 0 minLength recommendedLength options),
           (RawBlock.newInternal kMaxShortDataSize).appendBytes c.shortBytes]
        else
          [(RawBlock.newInternal
              (newBlockCapacity c.csize c.csize minLength recommendedLength
                options)).prependBytes c.shortBytes]
      let p := (frontB bs1).prependBufferOp maxLength fill
      (⟨c.csize + p.2, c.shortData, p.1 :: bs1.tail⟩, p.2)
  | _ :: _ =>
    let fr := frontB c.bs
    let step : Option (List RawBlock) :=
      if fr.canPrepend minLength then some c.bs
      else if minLength = 0 then none
      else if fr.tiny && minLength ≤ kMaxCapacity - fr.size then
        some (((RawBlock.newInternal
            (newBlockCapacity c.csize fr.size minLength recommendedLength
              options)).prependBytes fr.data) :: c.bs.tail)
      else
        let reuse : Option RawBlock :=
          if fr.wasteful then
            let t := fr.tryClear
            if t.2 && t.1.canPrepend minLength then some t.1 else none
          else none
        let bs1 := if fr.wasteful then fr.copy :: c.bs.tail else c.bs
        let newb :=
          match reuse with
          | some bl => bl
          | none =>
              RawBlock.newInternal
                (newBlockCapacity c.csize 0 minLength recommendedLength
                  options)
        some (newb :: bs1)
    match step with
    | none => (c, 0)
    | some bs1 =>
      let p := (frontB bs1).prependBufferOp maxLength fill
      (⟨c.csize + p.2, c.shortData, p.1 :: bs1.tail⟩, p.2)

/-- `Chain::Append(absl::string_view, options)`: repeatedly request an
append buffer of at least one byte and copy the next part of `src` into
it.  The fuel equals the remaining length; each successful iteration
consumes at least one byte (`RIEGELI_ASSERT_GE(buffer.size(),
min_length)`), which `appendBuffer_progress` proves, so the fuel never
runs out on chains satisfying the invariant. -/
def Chain.appendSVGo (options : Options) : Nat → Chain → Bytes → Chain
  | _, c, [] => c
  | 0, c, _ => c
  | Nat.succ fuel, c, src =>
      let p := c.appendBufferCh 1 src.length src.length options src
      if p.2 = 0 then p.1
      else Chain.appendSVGo options fuel p.1 (src.drop p.2)

/-- `Chain::Append(absl::string_view, options)`. -/
def Chain.appendSV (c : Chain) (src : Bytes) (options : Options) : Chain :=
  Chain.appendSVGo options src.length c src

/-- `Chain::Prepend(absl::string_view, options)`: mirror image of
`appendSV`; each iteration copies a suffix of the remaining bytes. -/
def Chain.prependSVGo (options : Options) : Nat → Chain → Bytes → Chain
  | _, c, [] => c
  | 0, c, _ => c
  | Nat.succ fuel, c, src =>
      let p := c.prependBufferCh 1 src.length src.length options src
      if p.2 = 0 then p.1
      else Chain.prependSVGo options fuel p.1 (src.take (src.length - p.2))

/-- `Chain::Prepend(absl::string_view, options)`. -/
def Chain.prependSV (c : Chain) (src : Bytes) (options : Options) : Chain :=
  Chain.prependSVGo options src.length c src

/-- `Chain::AppendRawBlock(block, options)`. -/
def Chain.appendRawBlockCh (c : Chain) (block : RawBlock) (options : Options) :
    Chain :=
  match c.bs with
  | [] =>
    if !c.shortBytes.isEmpty then
      if block.tiny then
        -- Merge short data with the tiny block to a new block.
        let capacity := newBlockCapacity c.csize c.csize
          (max block.size (kMaxShortDataSize - c.csize)) 0 options
        let merged := ((RawBlock.newInternal capacity).appendBytes
          c.shortBytes).appendBytes block.data
        ⟨c.csize + block.size, c.shortData, [merged]⟩
      else
        -- Copy short data to a real block, then attach.
        let real := (RawBlock.newInternal kMaxShortDataSize).appendBytes
          c.shortBytes
        ⟨c.csize + block.size, c.shortData, [real, block]⟩
    else ⟨c.csize + block.size, c.shortData, [block]⟩
  | _ :: _ =>
    let bk := backB c.bs
    if bk.tiny && block.tiny then
      if bk.canAppend block.size then
        ⟨c.csize + block.size, c.shortData,
          setBackL c.bs (bk.appendBytes block.data)⟩
      else
        let merged := ((RawBlock.newInternal
          (newBlockCapacity c.csize bk.size block.size 0
            options)).appendBytes bk.data).appendBytes block.data
        ⟨c.csize + block.size, c.shortData, setBackL c.bs merged⟩
    else if bk.isEmpty then
      ⟨c.csize + block.size, c.shortData, setBackL c.bs block⟩
    else if bk.wasteful then
      if bk.canAppend block.size &&
          block.size ≤ kAllocationCost + bk.size then
        ⟨c.csize + block.size, c.shortData,
          setBackL c.bs (bk.appendBytes block.data)⟩
      else
        ⟨c.csize + block.size, c.shortData, setBackL c.bs bk.copy ++ [block]⟩
    else ⟨c.csize + block.size, c.shortData, c.bs ++ [block]⟩

/-- `Chain::PrependRawBlock(block, options)`. -/
def Chain.prependRawBlockCh (c : Chain) (block : RawBlock)
    (options : Options) : Chain :=
  match c.bs with
  | [] =>
    if !c.shortBytes.isEmpty then
      if block.tiny then
        let capacity := newBlockCapacity c.csize c.csize block.size 0 options
        let merged := ((RawBlock.newInternal capacity).prependBytes
          c.shortBytes).prependBytes block.data
        ⟨c.csize + block.size, c.shortData, [merged]⟩
      else
        let real := (RawBlock.newInternal kMaxShortDataSize).appendBytes
          c.shortBytes
        ⟨c.csize + block.size, c.shortData, [block, real]⟩
    else ⟨c.csize + block.size, c.shortData, [block]⟩
  | _ :: _ =>
    let fr := frontB c.bs
    if fr.tiny && block.tiny then
      if fr.canPrepend block.size then
        ⟨c.csize + block.size, c.shortData,
          fr.prependBytes block.data :: c.bs.tail⟩
      else
        let merged := ((RawBlock.newInternal
          (newBlockCapacity c.csize fr.size block.size 0
            options)).prependBytes fr.data).prependBytes block.data
        ⟨c.csize + block.size, c.shortData, merged :: c.bs.tail⟩
    else if fr.isEmpty then
      ⟨c.csize + block.size, c.shortData, block :: c.bs.tail⟩
    else if fr.wasteful then
      if fr.canPrepend block.size &&
          block.size ≤ kAllocationCost + fr.size then
        ⟨c.csize + block.size, c.shortData,
          fr.prependBytes block.data :: c.bs.tail⟩
      else
        ⟨c.csize + block.size, c.shortData, block :: fr.copy :: c.bs.tail⟩
    else ⟨c.csize + block.size, c.shortData, block :: c.bs⟩

end Riegeli

namespace Riegeli

/-- `Chain::AppendChain(src, options)` (both the sharing and the stealing
instantiation; `share` records whether the attached blocks of `src` get
their reference counts bumped). -/
def Chain.appendChainOp (c : Chain) (src : Chain) (share : Bool)
    (options : Options) : Chain :=
  match src.bs with
  | [] => c.appendSV src.shortBytes options
  | sfront :: srest =>
    let srcSingle := srest.isEmpty
    let step : Chain × Bool :=
      match c.bs with
      | [] =>
        if sfront.tiny || (!srcSingle && sfront.wasteful) then
          -- The first block of `src` must be rewritten; merge short data
          -- with it to a new block.
          if !c.shortBytes.isEmpty || !sfront.isEmpty then
            let capacity :=
              if srcSingle then
                newBlockCapacity c.csize c.csize
                  (max sfront.size (kMaxShortDataSize - c.csize)) 0
                  options
              else max (c.csize + sfront.size) kMaxShortDataSize
            let merged := ((RawBlock.newInternal capacity).appendBytes
              c.shortBytes).appendBytes sfront.data
            (⟨c.csize, c.shortData, [merged]⟩, true)
          else (c, true)
        else if c.csize ≠ 0 then
          -- Copy short data to a real block.
          (⟨c.csize, c.shortData,
            [(RawBlock.newInternal kMaxShortDataSize).appendBytes
              c.shortBytes]⟩, false)
        else (c, false)
      | _ :: _ =>
        let bk := backB c.bs
        -- The `merge:` label of the source.
        let mergeCase : Chain × Bool :=
          if bk.isEmpty && sfront.isEmpty then
            (⟨c.csize, c.shortData, c.bs.dropLast⟩, true)
          else if bk.canAppend sfront.size &&
              (srcSingle || !bk.wasteful sfront.size) then
            (⟨c.csize, c.shortData,
              setBackL c.bs (bk.appendBytes sfront.data)⟩, true)
          else
            let capacity :=
              if srcSingle then
                newBlockCapacity c.csize bk.size sfront.size 0 options
              else bk.size + sfront.size
            let merged := ((RawBlock.newInternal capacity).appendBytes
              bk.data).appendBytes sfront.data
            (⟨c.csize, c.shortData, setBackL c.bs merged⟩, true)
        if bk.tiny && sfront.tiny then mergeCase
        else if bk.isEmpty then
          if !srcSingle && sfront.wasteful then mergeCase
          else (⟨c.csize, c.shortData, c.bs.dropLast⟩, false)
        else if bk.wasteful then
          if !srcSingle && (sfront.isEmpty || sfront.wasteful) then mergeCase
          else if bk.canAppend sfront.size &&
              (srcSingle || !bk.wasteful sfront.size) &&
              sfront.size ≤ kAllocationCost + bk.size then
            (⟨c.csize, c.shortData,
              setBackL c.bs (bk.appendBytes sfront.data)⟩, true)
          else (⟨c.csize, c.shortData, setBackL c.bs bk.copy⟩, false)
        else if !srcSingle then
          if sfront.isEmpty then (c, true)
          else if sfront.wasteful then
            if bk.canAppend sfront.size && !bk.wasteful sfront.size then
              (⟨c.csize, c.shortData,
                setBackL c.bs (bk.appendBytes sfront.data)⟩, true)
            else (⟨c.csize, c.shortData, c.bs ++ [sfront.copy]⟩, true)
          else (c, false)
        else (c, false)
    let rest := if step.2 then srest else sfront :: srest
    let rest := if share then rest.map RawBlock.setShared else rest
    ⟨step.1.csize + src.csize, step.1.shortData, step.1.bs ++ rest⟩

/-- `Chain::PrependChain(src, options)` (both ownership instantiations). -/
def Chain.prependChainOp (c : Chain) (src : Chain) (share : Bool)
    (options : Options) : Chain :=
  match src.bs with
  | [] => c.prependSV src.shortBytes options
  | _ :: _ =>
    let sback := backB src.bs
    let srcSingle := src.bs.length = 1
    let step : Chain × Bool :=
      match c.bs with
      | [] =>
        if sback.tiny || (!srcSingle && sback.wasteful) then
          if !c.shortBytes.isEmpty || !sback.isEmpty then
            let capacity :=
              if srcSingle then
                newBlockCapacity c.csize c.csize sback.size 0 options
              else c.csize + sback.size
            let merged := ((RawBlock.newInternal capacity).prependBytes
              c.shortBytes).prependBytes sback.data
            (⟨c.csize, c.shortData, [merged]⟩, true)
          else (c, true)
        else if c.csize ≠ 0 then
          (⟨c.csize, c.shortData,
            [(RawBlock.newInternal kMaxShortDataSize).appendBytes
              c.shortBytes]⟩, false)
        else (c, false)
      | _ :: _ =>
        let fr := frontB c.bs
        let mergeCase : Chain × Bool :=
          if sback.isEmpty && fr.isEmpty then
            (⟨c.csize, c.shortData, c.bs.tail⟩, true)
          else if fr.canPrepend sback.size &&
              (srcSingle || !fr.wasteful sback.size) then
            (⟨c.csize, c.shortData,
              fr.prependBytes sback.data :: c.bs.tail⟩, true)
          else
            let capacity :=
              if srcSingle then
                newBlockCapacity c.csize fr.size sback.size 0 options
              else fr.size + sback.size
            let merged := ((RawBlock.newInternal capacity).prependBytes
              fr.data).prependBytes sback.data
            (⟨c.csize, c.shortData, merged :: c.bs.tail⟩, true)
        if fr.tiny && sback.tiny then mergeCase
        else if fr.isEmpty then
          if !srcSingle && sback.wasteful then mergeCase
          else (⟨c.csize, c.shortData, c.bs.tail⟩, false)
        else if fr.wasteful then
          if !srcSingle && (sback.isEmpty || sback.wasteful) then mergeCase
          else if fr.canPrepend sback.size &&
              (srcSingle || !fr.wasteful sback.size) &&
              sback.size ≤ kAllocationCost + fr.size then
            (⟨c.csize, c.shortData,
              fr.prependBytes sback.data :: c.bs.tail⟩, true)
          else (⟨c.csize, c.shortData, fr.copy :: c.bs.tail⟩, false)
        else if !srcSingle then
          if sback.isEmpty then (c, true)
          else if sback.wasteful then
            if fr.canPrepend sback.size && !fr.wasteful sback.size then
              (⟨c.csize, c.shortData,
                fr.prependBytes sback.data :: c.bs.tail⟩, true)
            else (⟨c.csize, c.shortData, sback.copy :: c.bs⟩, true)
          else (c, false)
        else (c, false)
    let rest := if step.2 then src.bs.dropLast else src.bs
    let rest := if share then rest.map RawBlock.setShared else rest
    ⟨step.1.csize + src.csize, step.1.shortData, rest ++ step.1.bs⟩

/-- The block-popping loop of `Chain::RemovePrefix` /
`Chain::RemoveSuffix`: `while (length > front()->size()) ...` applied to
a list whose head is the boundary block. -/
def popWhileGT : Nat → List RawBlock → Nat × List RawBlock
  | n, [] => (n, [])
  | n, b :: rest =>
      if b.size < n then popWhileGT (n - b.size) rest else (n, b :: rest)

/-- `Chain::RemoveSuffix(length, options)`.  `none` models the fatal
`RIEGELI_CHECK_LE(length, size())`, which terminates the process instead
of reporting a recoverable error. -/
def Chain.removeSuffixCh (c : Chain) (length : Nat) (options : Options) :
    Option Chain :=
  if length = 0 then some c
  else if c.csize < length then none
  else some <|
    let sz := c.csize - length
    match c.bs with
    | [] => ⟨sz, c.shortData, []⟩
    | _ :: _ =>
      let pr := popWhileGT length c.bs.reverse
      let len1 := pr.1
      let bs1 := pr.2.reverse
      let bk := backB bs1
      let t := bk.tryRemoveSuffix len1
      if t.2 then
        let bs2 := setBackL bs1 t.1
        if 1 < bs2.length && (backB bs2).tiny &&
            (backB bs2.dropLast).tiny then
          -- Last two blocks must be merged.
          let lastb := backB bs2
          let bs3 := bs2.dropLast
          if !lastb.isEmpty then
            let prev := backB bs3
            let merged := ((RawBlock.newInternal
              (newBlockCapacity sz (prev.size + lastb.size) 0 0
                options)).appendBytes prev.data).appendBytes lastb.data
            ⟨sz, c.shortData, setBackL bs3 merged⟩
          else ⟨sz, c.shortData, bs3⟩
        else ⟨sz, c.shortData, bs2⟩
      else
        let bs2 := bs1.dropLast
        if len1 = bk.size then ⟨sz, c.shortData, bs2⟩
        else
          let dat := bk.data.take (bk.size - len1)
          let cMid : Chain := ⟨sz - dat.length, c.shortData, bs2⟩
          if dat.length ≤ kMaxBytesToCopy then cMid.appendSV dat options
          else cMid.appendRawBlockCh (.external dat false) options

/-- `Chain::RemovePrefix(length, options)`.  `none` models the fatal
`RIEGELI_CHECK_LE(length, size())`. -/
def Chain.removePrefixCh (c : Chain) (length : Nat) (options : Options) :
    Option Chain :=
  if length = 0 then some c
  else if c.csize < length then none
  else some <|
    let sz := c.csize - length
    match c.bs with
    | [] => ⟨sz, c.shortBytes.drop length, []⟩
    | _ :: _ =>
      let pr := popWhileGT length c.bs
      let len1 := pr.1
      let bs1 := pr.2
      let fr := frontB bs1
      let t := fr.tryRemovePrefixOp len1
      if t.2 then
        let bs2 := t.1 :: bs1.tail
        if 1 < bs2.length && (frontB bs2).tiny &&
            (frontB bs2.tail).tiny then
          -- First two blocks must be merged.
          let firstb := frontB bs2
          let bs3 := bs2.tail
          if !firstb.isEmpty then
            let nxt := frontB bs3
            let merged := ((RawBlock.newInternal
              (newBlockCapacity sz (firstb.size + nxt.size) 0 0
                options)).prependBytes nxt.data).prependBytes firstb.data
            ⟨sz, c.shortData, merged :: bs3.tail⟩
          else ⟨sz, c.shortData, bs3⟩
        else ⟨sz, c.shortData, bs2⟩
      else
        let bs2 := bs1.tail
        if len1 = fr.size then ⟨sz, c.shortData, bs2⟩
        else
          let dat := fr.data.drop len1
          let cMid : Chain := ⟨sz - dat.length, c.shortData, bs2⟩
          if dat.length ≤ kMaxBytesToCopy then cMid.prependSV dat options
          else cMid.prependRawBlockCh (.external dat false) options

/-- `Chain::Flatten`: modelled from the spec for the at-most-one-block
fast path (the inline wrapper lives in `chain.h`); the multi-block case
is `Chain::FlattenSlow` from the source: allocate one internal block of
capacity `NewBlockCapacity(0, size_, size_, Options())`, append every
block's contents, and replace all blocks with it. -/
def Chain.flattenCh (c : Chain) : Chain :=
  if c.bs.length ≤ 1 then c
  else
    let cap := newBlockCapacity c.csize 0 c.csize c.csize {}
    let block := c.bs.foldl (fun b blk => b.appendBytes blk.data)
      (RawBlock.newInternal cap)
    ⟨c.csize, c.shortData, [block]⟩

/-- `Chain::Clear`: modelled from the spec for the inline wrapper
(`size_ = 0`, then `ClearSlow()` when blocks exist); `ClearSlow` is from
the source: keep the first block cleared in place when it is mutable,
drop all blocks otherwise. -/
def Chain.clearCh (c : Chain) : Chain :=
  match c.bs with
  | [] => ⟨0, c.shortData, []⟩
  | f :: _ =>
    let t := f.tryClear
    if t.2 then ⟨0, c.shortData, [t.1]⟩ else ⟨0, c.shortData, []⟩

/-- `Chain::Initialize(const Chain&)` (the copy constructor): the copy
shares every block, bumping reference counts; both the copy and the
original end up with all blocks shared. -/
def Chain.shareAll (c : Chain) : Chain :=
  ⟨c.csize, c.shortData, c.bs.map RawBlock.setShared⟩

/-- `Chain::Chain(absl::string_view)': modelled from the spec for the
inline short-data fast path (`chain.h`); the long case is
`Chain::InitializeSlow` from the source: one internal block of capacity
`min(size, kDefaultMaxBlockSize)` filled via `AppendBuffer`, then
`Append` of the remainder with `size_hint = size`. -/
def Chain.fromBytes (src : Bytes) : Chain :=
  if src.length ≤ kMaxShortDataSize then ⟨src.length, src, []⟩
  else
    let cap := min src.length kDefaultMaxBlockSize
    let len := min cap src.length
    let c0 : Chain := ⟨len, [], [RawBlock.internal 0 (src.take len)
      (cap - len) false]⟩
    c0.appendSV (src.drop len) { sizeHint := some src.length }

end Riegeli

namespace Riegeli

/-- An interior block must be neither empty nor wasteful
(`Chain::VerifyInvariants`). -/
def goodB (b : RawBlock) : Bool := !b.isEmpty && !b.wasteful

/-- Every element except the last satisfies `goodB`. -/
def midGoodB : List RawBlock → Bool
  | [] => true
  | [_] => true
  | b :: rest => goodB b && midGoodB rest

/-- Every interior element (neither first nor last) satisfies `goodB`. -/
def interiorOkB : List RawBlock → Bool
  | [] => true
  | _ :: rest => midGoodB rest

/-- No two adjacent blocks are both tiny (`Chain::VerifyInvariants`). -/
def noTwoTinyB : List RawBlock → Bool
  | [] => true
  | [_] => true
  | a :: b :: rest => !(a.tiny && b.tiny) && noTwoTinyB (b :: rest)

/-- Sum of the attached blocks' sizes. -/
def blocksSize (bs : List RawBlock) : Nat := (bs.map RawBlock.size).sum

/-- `Chain::VerifyInvariants`: with no blocks attached the chain is in
short-data mode with `size ≤ kMaxShortDataSize` (and the inline buffer
holds at least `size` bytes); with blocks attached, `size_` equals the
sum of block sizes, no two adjacent blocks are both tiny, and interior
blocks are neither empty nor wasteful. -/
def Chain.okb (c : Chain) : Bool :=
  match c.bs with
  | [] => c.csize ≤ kMaxShortDataSize && c.csize ≤ c.shortData.length
  | _ :: _ =>
      c.csize = blocksSize c.bs && noTwoTinyB c.bs && interiorOkB c.bs

/-- The chains reachable through sequences of public `Chain` operations:
construction (default, from a byte string), append and prepend (of byte
strings, of whole chains with either ownership, of external blocks),
`AppendBuffer`/`PrependBuffer` with caller-written contents,
`RemovePrefix`/`RemoveSuffix` (their non-aborting outcomes), `Flatten`,
`Clear`, and copy (sharing every block; a move transfers the value
unchanged and leaves a default-constructed chain behind, both covered).
The buffer rules carry the source's caller contract
`min_length ≤ max_length` and a bound keeping `min_length` below
`RawBlock::kMaxCapacity` by at least `kDefaultMinBlockSize`. -/
inductive Reachable : Chain → Prop
  | emptyCtor : Reachable ⟨0, [], []⟩
  | stringCtor (src : Bytes) : Reachable (Chain.fromBytes src)
  | appendString (c : Chain) (src : Bytes) (options : Options) :
      Reachable c → Reachable (c.appendSV src options)
  | prependString (c : Chain) (src : Bytes) (options : Options) :
      Reachable c → Reachable (c.prependSV src options)
  | appendChainR (c src : Chain) (share : Bool) (options : Options) :
      Reachable c → src.okb = true →
      Reachable (c.appendChainOp src share options)
  | prependChainR (c src : Chain) (share : Bool) (options : Options) :
      Reachable c → src.okb = true →
      Reachable (c.prependChainOp src share options)
  | appendBlock (c : Chain) (d : Bytes) (options : Options) :
      Reachable c →
      Reachable (c.appendRawBlockCh (.external d false) options)
  | prependBlock (c : Chain) (d : Bytes) (options : Options) :
      Reachable c →
      Reachable (c.prependRawBlockCh (.external d false) options)
  | appendBufferR (c : Chain) (minL recL maxL : Nat) (options : Options)
      (fill : Bytes) : Reachable c → minL ≤ maxL →
      minL + kDefaultMinBlockSize ≤ kMaxCapacity →
      Reachable (c.appendBufferCh minL recL maxL options fill).1
  | prependBufferR (c : Chain) (minL recL maxL : Nat) (options : Options)
      (fill : Bytes) : Reachable c → minL ≤ maxL →
      minL + kDefaultMinBlockSize ≤ kMaxCapacity →
      Reachable (c.prependBufferCh minL recL maxL options fill).1
  | removeSuffixR (c : Chain) (n : Nat) (options : Options) (res : Chain) :
      Reachable c → c.removeSuffixCh n options = some res → Reachable res
  | removePrefixR (c : Chain) (n : Nat) (options : Options) (res : Chain) :
      Reachable c → c.removePrefixCh n options = some res → Reachable res
  | flattenR (c : Chain) : Reachable c → Reachable c.flattenCh
  | clearR (c : Chain) : Reachable c → Reachable c.clearCh
  | shareR (c : Chain) : Reachable c → Reachable c.shareAll

end Riegeli

namespace Riegeli

/-- The spec's description of `new_block_capacity`: start from
`max(size, min_block_size − replaced_length)`; clamp upward by
`size_hint` if present; clamp into
`[min_length, max_block_size − replaced_length]` with the lower bound
taking precedence; add `replaced_length` back. -/
def specNewBlockCapacity (csize replacedLength minLength : Nat)
    (options : Options) : Nat :=
  let base := max csize (options.minBlockSize - replacedLength)
  let hinted :=
    match options.sizeHint with
    | some hint => if csize < hint then max base (hint - csize) else base
    | none => base
  replacedLength +
    max minLength (min hinted (options.maxBlockSize - replacedLength))

/-- C7: `new_block_capacity` returns `replaced_length` plus a base length
obtained by starting from `max(size, min_block_size − replaced_length)`,
clamping upward by `size_hint` when present, and clamping into
`[min_length, max_block_size − replaced_length]` with the lower bound
taking precedence; `recommended_length` plays no role the spec
describes. -/
theorem newBlockCapacity_matches_spec :
    ∀ (csize replacedLength minLength recommendedLength : Nat)
      (options : Options),
      newBlockCapacity csize replacedLength minLength recommendedLength
          options =
        specNewBlockCapacity csize replacedLength minLength options := by
  intro csize repl minL recL options
  simp only [newBlockCapacity, specNewBlockCapacity, applyBufferConstraints,
    applySizeHint]

/-- C4: `can_append(n)` holds iff the block is mutable (internal with a
unique owner) and has `n` bytes of trailing free space, the whole
capacity counting when the block is empty; `can_prepend(n)` is the
mirror image with leading free space; both are always false for external
blocks and for shared blocks. -/
theorem canAppend_canPrepend_spec :
    (∀ (b : RawBlock) (n : Nat),
      b.canAppend n = true ↔
        b.isInternal = true ∧ b.isShared = false ∧
          n ≤ (if b.size = 0 then b.capacity else b.spaceAfter)) ∧
    (∀ (b : RawBlock) (n : Nat),
      b.canPrepend n = true ↔
        b.isInternal = true ∧ b.isShared = false ∧
          n ≤ (if b.size = 0 then b.capacity else b.spaceBefore)) ∧
    (∀ (d : Bytes) (sh : Bool) (n : Nat),
      (RawBlock.external d sh).canAppend n = false ∧
      (RawBlock.external d sh).canPrepend n = false) ∧
    (∀ (sb : Nat) (d : Bytes) (sa : Nat) (n : Nat),
      (RawBlock.internal sb d sa true).canAppend n = false ∧
      (RawBlock.internal sb d sa true).canPrepend n = false) := by
  refine ⟨?_, ?_, ?_, ?_⟩
  · intro b n
    cases b with
    | internal sb d sa sh =>
        cases sh <;>
          simp [RawBlock.canAppend, RawBlock.isMutable, RawBlock.isInternal,
            RawBlock.isShared, RawBlock.isEmpty, RawBlock.size, RawBlock.data,
            RawBlock.capacity, RawBlock.spaceAfter, List.length_eq_zero]
    | external d sh =>
        simp [RawBlock.canAppend, RawBlock.isMutable, RawBlock.isInternal,
          RawBlock.isShared]
  · intro b n
    cases b with
    | internal sb d sa sh =>
        cases sh <;>
          simp [RawBlock.canPrepend, RawBlock.isMutable, RawBlock.isInternal,
            RawBlock.isShared, RawBlock.isEmpty, RawBlock.size, RawBlock.data,
            RawBlock.capacity, RawBlock.spaceBefore, List.length_eq_zero]
    | external d sh =>
        simp [RawBlock.canPrepend, RawBlock.isMutable, RawBlock.isInternal,
          RawBlock.isShared]
  · intro d sh n
    constructor <;>
      simp [RawBlock.canAppend, RawBlock.canPrepend, RawBlock.isMutable,
        RawBlock.isInternal, RawBlock.isShared]
  · intro sb d sa n
    constructor <;>
      simp [RawBlock.canAppend, RawBlock.canPrepend, RawBlock.isMutable,
        RawBlock.isInternal, RawBlock.isShared]

/-- C5: `copy()` returns a fresh internal block whose contents equal the
source's live region, whose capacity is exactly the source's size, and
which is never wasteful. -/
theorem copy_fresh_compact (b : RawBlock) :
    (b.copy).data = b.data ∧ (b.copy).isInternal = true ∧
    (b.copy).isShared = false ∧ (b.copy).capacity = b.size ∧
    (b.copy).wasteful = false := by
  have hd : b.copy = RawBlock.internal 0 b.data 0 false := by
    simp [RawBlock.copy, RawBlock.newInternal, RawBlock.appendBytes,
      RawBlock.size]
  rw [hd]
  refine ⟨rfl, rfl, rfl, ?_, ?_⟩
  · simp [RawBlock.capacity, RawBlock.size, RawBlock.data]
  · simp only [RawBlock.wasteful, Wasteful, RawBlock.capacity, RawBlock.size,
      RawBlock.data, kInternalAllocatedOffset, kAllocationCost,
      decide_eq_false_iff_not]
    try omega

end Riegeli

namespace Riegeli

/-- Status codes of the absl status taxonomy used here. -/
inductive StatusCode
  | ok
  | resourceExhausted
  | unknown
deriving DecidableEq, Repr

/-- An `absl::Status`: a code and a message. -/
structure Status where
  code : StatusCode
  message : String
deriving DecidableEq, Repr

/-- `absl::OkStatus()`. -/
def okStatus : Status := ⟨.ok, ""⟩

/-- The state of the C ABI shim: whether the two global pointers
(`file_reader`, `reader`) are set, whether each constructed object is
healthy, the remaining records of the open file, and the text written to
the standard error stream. -/
structure ShimState where
  fileReaderInst : Bool
  readerInst : Bool
  readerOk : Bool
  records : List Bytes
  stderrOut : List String
deriving DecidableEq, Repr

/-- The initial shim state: both globals are null. -/
def shimInit : ShimState :=
  ⟨false, false, false, [], []⟩

/-- `riegeli_init(file_path)`.  The environment is summarised by whether
opening the file succeeds (`openOk`, the health of the constructed
`FdReader`), whether the `RecordReader` construction succeeds (`ctorOk`),
and the records the file holds. -/
def riegeliInit (st : ShimState) (openOk ctorOk : Bool)
    (records : List Bytes) : ShimState × Int :=
  if st.fileReaderInst then
    ({ st with stderrOut := st.stderrOut ++
        ["RecordReader can be instanciated once only!"] }, -1)
  else
    let st1 := { st with fileReaderInst := true }
    if !openOk then
      ({ st1 with stderrOut := st1.stderrOut ++ ["Error opening file"] }, -2)
    else
      let st2 := { st1 with
        readerInst := true
        readerOk := ctorOk
        records := records }
      if !ctorOk then
        ({ st2 with stderrOut := st2.stderrOut ++
            ["Error creating reader"] }, -3)
      else (st2, 0)

/-- Modelled from the spec: `RecordReader::ReadRecord` (the record codec
is an external collaborator): yields the next record sequentially, or
nothing at end of stream or when the reader is unhealthy. -/
def readRecordOp (st : ShimState) : Option (Bytes × ShimState) :=
  if st.readerOk then
    match st.records with
    | r :: rest => some (r, { st with records := rest })
    | [] => none
  else none

/-- `riegeli_read_record(len)`.  `mallocOk` models whether the `malloc`
call succeeds; `lenIn` is the value `*len` held before the call.  The
result is the new state, the returned pointer (`none` is null), and the
value `*len` holds after the call. -/
def riegeliReadRecord (st : ShimState) (mallocOk : Bool) (lenIn : Nat) :
    ShimState × Option Bytes × Nat :=
  if !st.fileReaderInst then
    ({ st with stderrOut := st.stderrOut ++
        ["RecordReader is not instanciated!"] }, none, lenIn)
  else
    match readRecordOp st with
    | some (rec, st') =>
        -- `*len = record.size();` happens before the allocation attempt.
        if mallocOk then (st', some rec, rec.length)
        else (st', none, rec.length)
    | none => (st, none, lenIn)

/-- C9: `riegeli_init` returns 0 on success, -1 when a reader already
exists, -2 when opening the file fails, -3 when constructing the record
reader fails, and writes a diagnostic line to the standard error stream
in each failure case. -/
theorem riegeliInit_returns :
    ∀ (st : ShimState) (openOk ctorOk : Bool) (records : List Bytes),
      (riegeliInit st openOk ctorOk records).2 =
        (if st.fileReaderInst then -1
         else if !openOk then -2
         else if !ctorOk then -3
         else 0) ∧
      ((riegeliInit st openOk ctorOk records).1.stderrOut =
        if (riegeliInit st openOk ctorOk records).2 = 0 then st.stderrOut
        else st.stderrOut ++
          [if st.fileReaderInst then
            "RecordReader can be instanciated once only!"
           else if !openOk then "Error opening file"
           else "Error creating reader"]) := by
  intro st openOk ctorOk records
  cases h1 : st.fileReaderInst <;> cases openOk <;> cases ctorOk <;>
    simp [riegeliInit, h1]

/-- C10: on a successful read, `*len` receives the record length before
the allocation is attempted, so when the allocation fails the function
still returns null while `*len` already holds the record's size and the
reader has advanced past the record; null is likewise returned on clean
end of stream and on a failed reader, so a null return does not
distinguish the three cases, and on allocation failure the record's
bytes are lost to the caller. -/
theorem readRecord_null_ambiguous :
    ∀ (rec : Bytes) (rest : List Bytes) (stderrOut : List String)
      (lenIn : Nat),
      -- allocation failure: null returned, `*len` set, reader advanced
      (riegeliReadRecord ⟨true, true, true, rec :: rest, stderrOut⟩ false
          lenIn) =
        (⟨true, true, true, rest, stderrOut⟩, none, rec.length) ∧
      -- clean end of stream: null returned, `*len` untouched
      (riegeliReadRecord ⟨true, true, true, [], stderrOut⟩ true lenIn) =
        (⟨true, true, true, [], stderrOut⟩, none, lenIn) ∧
      -- failed reader: null returned, `*len` untouched
      (riegeliReadRecord ⟨true, true, false, rec :: rest, stderrOut⟩ true
          lenIn) =
        (⟨true, true, false, rec :: rest, stderrOut⟩, none, lenIn) ∧
      -- successful read with successful allocation, for contrast
      (riegeliReadRecord ⟨true, true, true, rec :: rest, stderrOut⟩ true
          lenIn) =
        (⟨true, true, true, rest, stderrOut⟩, some rec, rec.length) := by
  intro rec rest stderrOut lenIn
  refine ⟨?_, ?_, ?_, ?_⟩ <;> simp [riegeliReadRecord, readRecordOp]

end Riegeli

namespace Riegeli

/-- A `Reader` over an in-memory byte sequence: the underlying bytes, the
logical position `pos()`, the end of the currently buffered window (for
`available()`/`Pull()`), health (`ok()`), the stored status, and the
supports-size capability flag. -/
structure Reader where
  rdata : Bytes
  pos : Nat
  limitPos : Nat
  rhealthy : Bool
  rstatus : Status
  rsupportsSize : Bool
deriving DecidableEq, Repr

/-- A `Writer`: the bytes written so far, health, stored status, and the
last `SetWriteSizeHint` value. -/
structure Writer where
  written : Bytes
  whealthy : Bool
  wstatus : Status
  writeSizeHint : Option Nat
deriving DecidableEq, Repr

/-- Modelled from the spec: `Reader::Size()` (an optional capability):
the total size when the reader is healthy, otherwise nothing. -/
def Reader.sizeOp (r : Reader) : Option Nat :=
  if r.rhealthy then some r.rdata.length else none

/-- `Reader::available()`. -/
def Reader.available (r : Reader) : Nat := r.limitPos - r.pos

/-- Modelled from the spec: `Reader::Pull()`: ensure at least one byte is
buffered, refilling the window; returns false at end of stream or on
failure. -/
def Reader.pull (r : Reader) : Reader × Bool :=
  if r.pos < r.limitPos then (r, true)
  else if r.rhealthy && r.pos < r.rdata.length then
    ({ r with limitPos := r.rdata.length }, true)
  else (r, false)

/-- Modelled from the spec: `Reader::Copy(length, dest)`: read up to
`length` bytes advancing `pos` and write them to `dest`; true iff the
full `length` was copied and the destination is healthy. -/
def Reader.copyTo (r : Reader) (length : Nat) (w : Writer) :
    Reader × Writer × Bool :=
  if r.rhealthy = false then (r, w, false)
  else if w.whealthy = false then (r, w, false)
  else
    let m := min length (r.rdata.length - r.pos)
    (⟨r.rdata, r.pos + m, max r.limitPos (r.pos + m), r.rhealthy,
        r.rstatus, r.rsupportsSize⟩,
      { w with written := w.written ++ (r.rdata.drop r.pos).take m },
      m = length)

/-- `Writer::SetWriteSizeHint`. -/
def Writer.setHint (w : Writer) (hint : Nat) : Writer :=
  { w with writeSizeHint := some hint }

/-- Modelled from the spec: `Reader::AnnotateStatus` leaves the status of
the `copy_all` contract unchanged (the annotation machinery lives in
`reader.cc`, which is not among the sources). -/
def Reader.annotateStatus (_ : Reader) (st : Status) : Status := st

/-- `MaxLengthExceeded(src, max_length)` from `copy_all.cc`:
`ResourceExhausted` with message
`StrCat("Maximum length exceeded: ", max_length)`, annotated by the
reader. -/
def maxLengthExceededSt (src : Reader) (maxLength : Nat) : Status :=
  src.annotateStatus
    ⟨.resourceExhausted, "Maximum length exceeded: " ++ toString maxLength⟩

/-- The `do ... while (src.Pull())` loop of `CopyAllImpl` for sources
without the size capability; `fuel` bounds the iterations (each
iteration consumes the available window, so `rdata.length + 2` always
suffices). -/
def copyAllLoop : Nat → Reader → Writer → Nat → Nat →
    Reader × Writer × Status
  | 0, src, dest, _, _ => (src, dest, okStatus)
  | fuel + 1, src, dest, remainingMaxLength, maxLength =>
      if remainingMaxLength < src.available then
        let t := src.copyTo remainingMaxLength dest
        if t.2.2 = false && t.2.1.whealthy = false then
          (t.1, t.2.1, t.2.1.wstatus)
        else (t.1, t.2.1, maxLengthExceededSt t.1 maxLength)
      else
        let avail := src.available
        let t := src.copyTo avail dest
        if t.2.2 = false && t.2.1.whealthy = false then
          (t.1, t.2.1, t.2.1.wstatus)
        else
          let p := t.1.pull
          if p.2 then
            copyAllLoop fuel p.1 t.2.1 (remainingMaxLength - avail) maxLength
          else if p.1.rhealthy = false then (p.1, t.2.1, p.1.rstatus)
          else (p.1, t.2.1, okStatus)

/-- `CopyAllImpl(src, dest, max_length, set_write_size_hint)` from
`copy_all.cc` (the `Writer` overload). -/
def copyAllImpl (src : Reader) (dest : Writer) (maxLength : Nat)
    (setWriteSizeHint : Bool) : Reader × Writer × Status :=
  if src.rsupportsSize then
    match src.sizeOp with
    | none => (src, dest, src.rstatus)
    | some size =>
        let remaining := size - src.pos
        if maxLength < remaining then
          let dest1 := if setWriteSizeHint then dest.setHint maxLength
            else dest
          let t := src.copyTo maxLength dest1
          if t.2.2 = false then
            if t.2.1.whealthy = false then (t.1, t.2.1, t.2.1.wstatus)
            else if t.1.rhealthy = false then (t.1, t.2.1, t.1.rstatus)
            else (t.1, t.2.1, okStatus)
          else (t.1, t.2.1, maxLengthExceededSt t.1 maxLength)
        else
          let dest1 := if setWriteSizeHint then dest.setHint remaining
            else dest
          let t := src.copyTo remaining dest1
          if t.2.2 = false then
            if t.2.1.whealthy = false then (t.1, t.2.1, t.2.1.wstatus)
            else if t.1.rhealthy = false then (t.1, t.2.1, t.1.rstatus)
            else (t.1, t.2.1, okStatus)
          else (t.1, t.2.1, okStatus)
  else
    copyAllLoop (src.rdata.length + 2) src dest maxLength maxLength

set_option maxRecDepth 10000 in
/-- C3 counterexample: for a healthy 200-byte source and
`max_length = 100`, the returned status is `ResourceExhausted`, but its
message is `"Maximum length exceeded: 100"` — not the bare
`"Maximum length exceeded"` the claim states. -/
theorem copyAll_message_counterexample :
    (copyAllImpl ⟨List.range 200, 0, 0, true, okStatus, true⟩
        ⟨[], true, okStatus, none⟩ 100 false).2.2.code =
      StatusCode.resourceExhausted ∧
    (copyAllImpl ⟨List.range 200, 0, 0, true, okStatus, true⟩
        ⟨[], true, okStatus, none⟩ 100 false).2.2.message ≠
      "Maximum length exceeded" := by
  constructor
  · rfl
  · intro h
    have : "Maximum length exceeded: 100" = "Maximum length exceeded" := h
    simp at this

/-- C3 (amended): when the source supports size, the remaining bytes
exceed `max_length`, and both sides are healthy, `CopyAllImpl` copies
exactly `max_length` bytes to the destination, advances the source's
position by exactly `max_length`, and returns `ResourceExhausted` whose
message is `"Maximum length exceeded: "` followed by the limit. -/
theorem copyAll_maxLength_exceeded (src : Reader) (dest : Writer)
    (maxLength : Nat) (setWriteSizeHint : Bool)
    (hsup : src.rsupportsSize = true) (hok : src.rhealthy = true)
    (hwok : dest.whealthy = true)
    (hrem : maxLength < src.rdata.length - src.pos) :
    (copyAllImpl src dest maxLength setWriteSizeHint).2.2 =
      ⟨.resourceExhausted,
        "Maximum length exceeded: " ++ toString maxLength⟩ ∧
    (copyAllImpl src dest maxLength setWriteSizeHint).2.1.written =
      dest.written ++ (src.rdata.drop src.pos).take maxLength ∧
    (copyAllImpl src dest maxLength setWriteSizeHint).1.pos =
      src.pos + maxLength := by
  have hm : min maxLength (src.rdata.length - src.pos) = maxLength :=
    min_eq_left (Nat.le_of_lt hrem)
  cases setWriteSizeHint <;>
    simp [copyAllImpl, hsup, Reader.sizeOp, hok, hrem, Reader.copyTo, hwok,
      Writer.setHint, hm, maxLengthExceededSt, Reader.annotateStatus]

set_option maxRecDepth 10000 in
/-- Witness for `copyAll_maxLength_exceeded` at a concrete 200-byte
source and `max_length = 100`. -/
theorem copyAll_maxLength_exceeded_witness :
    (copyAllImpl ⟨List.range 200, 0, 0, true, okStatus, true⟩
        ⟨[], true, okStatus, none⟩ 100 true).2.2 =
      ⟨.resourceExhausted, "Maximum length exceeded: " ++ toString 100⟩ ∧
    (copyAllImpl ⟨List.range 200, 0, 0, true, okStatus, true⟩
        ⟨[], true, okStatus, none⟩ 100 true).2.1.written =
      [] ++ ((List.range 200).drop 0).take 100 ∧
    (copyAllImpl ⟨List.range 200, 0, 0, true, okStatus, true⟩
        ⟨[], true, okStatus, none⟩ 100 true).1.pos = 0 + 100 :=
  copyAll_maxLength_exceeded _ _ 100 true rfl rfl rfl (by decide)

end Riegeli

namespace Riegeli

/-- The per-block views `Chain::blocks()` yields: one pseudo-block of
short data when no blocks are attached and the chain is non-empty,
otherwise the attached blocks' contents. -/
def Chain.blocksView (c : Chain) : List Bytes :=
  if c.bs.isEmpty then (if c.csize = 0 then [] else [c.shortBytes])
  else c.bs.map RawBlock.data

/-- Which representation the block-pointer array uses: the two-slot
in-object "here" form, or the heap-allocated form with its parallel
cumulative-offset array (one entry per slot; entry `j` holds the byte
offset of block `j` relative to the offset recorded for block 0). -/
inductive RepForm
  | here
  | allocated (offsets : List Nat)

/-- The allocated form's offset table is consistent: one entry per block,
and entry `j` equals the base entry plus the total size of the blocks
before block `j` (`Chain::VerifyInvariants` checks exactly this). -/
def OffsetsWf (os : List Nat) (bs : List RawBlock) : Prop :=
  os.length = bs.length ∧
  ∀ j, j < bs.length → os.getD j 0 = os.headD 0 + blocksSize (bs.take j)

/-- The `std::upper_bound(begin_ + block_offsets() + 1, ...) - 1` lookup:
the number of offset entries after the first whose offset relative to
the base does not exceed `i`. -/
def upperBoundCount (os : List Nat) (base i : Nat) : Nat :=
  ((os.drop 1).filter (fun o => o - base ≤ i)).length

/-- `Chain::BlockAndCharIndex(char_index_in_chain)`: the block iterator
(as an index into `blocksView`; the view's length is the end iterator)
and the offset within that block.  Case split as in the source: end
position, short data, two-slot here form, allocated form with the
upper-bound search over the offset table. -/
def Chain.blockAndCharIndex (c : Chain) (form : RepForm) (i : Nat) :
    Nat × Nat :=
  if i = c.csize then (c.blocksView.length, 0)
  else if c.bs.isEmpty then (0, i)
  else
    match form with
    | .here =>
        let b0 := frontB c.bs
        if b0.size ≤ i then (1, i - b0.size) else (0, i)
    | .allocated os =>
        let base := os.headD 0
        let f := upperBoundCount os base i
        (f, i - (os.getD f 0 - base))

end Riegeli

namespace Riegeli

/-- The block index holding logical position `i`: skip whole blocks while
`i` is past them. -/
def findBlock : List RawBlock → Nat → Nat
  | [], _ => 0
  | b :: rest, i => if i < b.size then 0 else findBlock rest (i - b.size) + 1

theorem blocksSize_cons (b : RawBlock) (rest : List RawBlock) :
    blocksSize (b :: rest) = b.size + blocksSize rest := by
  simp [blocksSize]

theorem blocksSize_take_succ_cons (b : RawBlock) (rest : List RawBlock)
    (j : Nat) :
    blocksSize ((b :: rest).take (j + 1)) =
      b.size + blocksSize (rest.take j) := by
  simp [blocksSize]

theorem findBlock_spec (bs : List RawBlock) (i : Nat)
    (h : i < blocksSize bs) :
    findBlock bs i < bs.length ∧
    i - blocksSize (bs.take (findBlock bs i)) <
      (bs.getD (findBlock bs i) default).size ∧
    ((bs.map RawBlock.data).flatten).getD i 0 =
      ((bs.getD (findBlock bs i) default).data).getD
        (i - blocksSize (bs.take (findBlock bs i))) 0 := by
  induction bs generalizing i with
  | nil => simp [blocksSize] at h
  | cons b rest ih =>
      by_cases hib : i < b.size
      · have hfb : findBlock (b :: rest) i = 0 := by simp [findBlock, hib]
        rw [hfb]
        refine ⟨by simp, ?_, ?_⟩
        · simpa [blocksSize] using hib
        · rw [List.map_cons, List.flatten_cons,
            List.getD_append _ _ _ _ (by simpa [RawBlock.size] using hib)]
          simp [blocksSize]
      · have hsz : i - b.size < blocksSize rest := by
          rw [blocksSize_cons] at h; omega
        obtain ⟨ih1, ih2, ih3⟩ := ih (i - b.size) hsz
        have hfb : findBlock (b :: rest) i =
            findBlock rest (i - b.size) + 1 := by
          simp [findBlock, hib]
        rw [hfb]
        have hlen : b.data.length ≤ i := by
          simpa [RawBlock.size] using Nat.le_of_not_lt hib
        have harith : i - blocksSize ((b :: rest).take
              (findBlock rest (i - b.size) + 1)) =
            i - b.size - blocksSize (rest.take (findBlock rest (i - b.size))) := by
          rw [blocksSize_take_succ_cons]; omega
        refine ⟨by simpa using ih1, ?_, ?_⟩
        · rw [harith]
          simpa using ih2
        · rw [List.map_cons, List.flatten_cons,
            List.getD_append_right _ _ _ _ hlen, harith]
          have : i - b.data.length = i - b.size := by simp [RawBlock.size]
          rw [this]
          simpa using ih3

end Riegeli

namespace Riegeli

/-- The canonical offset table for blocks `bs` with base entry `base`. -/
def offList (base : Nat) (bs : List RawBlock) : List Nat :=
  (List.range bs.length).map (fun j => base + blocksSize (bs.take j))

theorem offList_cons (base : Nat) (b : RawBlock) (rest : List RawBlock) :
    offList base (b :: rest) = base :: offList (base + b.size) rest := by
  unfold offList
  rw [List.length_cons, List.range_succ_eq_map, List.map_cons, List.map_map]
  refine congrArg₂ _ (by simp [blocksSize]) ?_
  apply List.map_congr_left
  intro j _
  simp only [Function.comp_apply, blocksSize_take_succ_cons]
  omega

theorem offsetsWf_eq_offList (os : List Nat) (bs : List RawBlock)
    (hwf : OffsetsWf os bs) : os = offList (os.headD 0) bs := by
  obtain ⟨hlen, hval⟩ := hwf
  apply List.ext_getElem
  · simp [offList, hlen]
  · intro j h1 h2
    have hgd := hval j (by omega)
    have e1 : os.getD j 0 = os[j] := List.getD_eq_getElem os 0 h1
    have e2 : (offList (os.headD 0) bs)[j] =
        os.headD 0 + blocksSize (bs.take j) := by
      simp [offList]
    rw [e2, ← e1]
    exact hgd

theorem countP_range_prefixes (bs : List RawBlock) (i : Nat)
    (h : i < blocksSize bs) :
    (List.range bs.length).countP
        (fun j => decide (blocksSize (bs.take j) ≤ i)) =
      findBlock bs i + 1 := by
  induction bs generalizing i with
  | nil => simp [blocksSize] at h
  | cons b rest ih =>
      rw [List.length_cons, List.range_succ_eq_map, List.countP_cons,
        List.countP_map]
      have hcomp : ((fun j => decide (blocksSize ((b :: rest).take j) ≤ i)) ∘
          Nat.succ) = fun j => decide (blocksSize ((b :: rest).take (j + 1)) ≤ i) := by
        funext j
        rfl
      rw [hcomp]
      by_cases hib : i < b.size
      · have hz : (List.range rest.length).countP
            (fun j => decide (blocksSize ((b :: rest).take (j + 1)) ≤ i)) = 0 := by
          apply List.countP_eq_zero.mpr
          intro j _
          rw [blocksSize_take_succ_cons]
          simp only [decide_eq_true_eq]
          omega
        rw [hz]
        simp [findBlock, hib, blocksSize]
      · have hsz : i - b.size < blocksSize rest := by
          rw [blocksSize_cons] at h; omega
        have hcongr : (List.range rest.length).countP
              (fun j => decide (blocksSize ((b :: rest).take (j + 1)) ≤ i)) =
            (List.range rest.length).countP
              (fun j => decide (blocksSize (rest.take j) ≤ i - b.size)) := by
          apply List.countP_congr
          intro j _
          show decide (blocksSize ((b :: rest).take (j + 1)) ≤ i) = true ↔
            decide (blocksSize (rest.take j) ≤ i - b.size) = true
          rw [blocksSize_take_succ_cons]
          simp only [decide_eq_true_eq]
          omega
        rw [hcongr, ih _ hsz]
        simp [findBlock, hib, blocksSize]

theorem upperBoundCount_eq_findBlock (bs : List RawBlock) (base i : Nat)
    (h : i < blocksSize bs) :
    upperBoundCount (offList base bs) base i = findBlock bs i := by
  cases bs with
  | nil => simp [blocksSize] at h
  | cons b rest =>
      rw [offList_cons]
      unfold upperBoundCount
      simp only [List.drop_succ_cons, List.drop_zero]
      rw [offList, List.filter_map, List.length_map,
        ← List.countP_eq_length_filter]
      have hcomp : ((fun o => decide (o - base ≤ i)) ∘
          fun j => base + b.size + blocksSize (rest.take j)) =
          fun j => decide (b.size + blocksSize (rest.take j) ≤ i) := by
        funext j
        simp only [Function.comp_apply, decide_eq_decide]
        omega
      rw [hcomp]
      by_cases hib : i < b.size
      · have hz : (List.range rest.length).countP
            (fun j => decide (b.size + blocksSize (rest.take j) ≤ i)) = 0 := by
          apply List.countP_eq_zero.mpr
          intro j _
          simp only [decide_eq_true_eq]
          omega
        rw [hz]
        simp [findBlock, hib]
      · have hsz : i - b.size < blocksSize rest := by
          rw [blocksSize_cons] at h; omega
        have hcongr : (List.range rest.length).countP
              (fun j => decide (b.size + blocksSize (rest.take j) ≤ i)) =
            (List.range rest.length).countP
              (fun j => decide (blocksSize (rest.take j) ≤ i - b.size)) := by
          apply List.countP_congr
          intro j _
          show decide (b.size + blocksSize (rest.take j) ≤ i) = true ↔
            decide (blocksSize (rest.take j) ≤ i - b.size) = true
          simp only [decide_eq_true_eq]
          omega
        rw [hcongr, countP_range_prefixes rest _ hsz]
        simp [findBlock, hib]

end Riegeli

namespace Riegeli

theorem offList_getD (base : Nat) (bs : List RawBlock) (j : Nat)
    (h : j < bs.length) :
    (offList base bs).getD j 0 = base + blocksSize (bs.take j) := by
  have hlen : j < (offList base bs).length := by simp [offList]; omega
  have e1 : (offList base bs).getD j 0 = (offList base bs)[j] :=
    List.getD_eq_getElem (offList base bs) 0 hlen
  rw [e1]
  simp [offList]

theorem offList_headD (base : Nat) (b : RawBlock) (rest : List RawBlock) :
    (offList base (b :: rest)).headD 0 = base := by
  rw [offList_cons]
  rfl

theorem okb_blocks (c : Chain) (b : RawBlock) (r : List RawBlock)
    (hok : c.okb = true) (hbs : c.bs = b :: r) :
    c.csize = blocksSize c.bs ∧ noTwoTinyB c.bs = true ∧
      interiorOkB c.bs = true := by
  unfold Chain.okb at hok
  rw [hbs] at hok ⊢
  simp only [Bool.and_eq_true, decide_eq_true_eq] at hok
  exact ⟨hok.1.1, hok.1.2, hok.2⟩

theorem okb_short (c : Chain) (hok : c.okb = true) (hbs : c.bs = []) :
    c.csize ≤ kMaxShortDataSize ∧ c.shortBytes.length = c.csize := by
  unfold Chain.okb at hok
  rw [hbs] at hok
  simp only [Bool.and_eq_true, decide_eq_true_eq] at hok
  refine ⟨hok.1, ?_⟩
  simp [Chain.shortBytes]
  omega

/-- C8: `block_and_char(i)` returns a block iterator and an intra-block
offset locating the logical byte at position `i`, and the end iterator
at `i = size`; this holds in short-data mode, in the two-slot here form,
and in the allocated form whose lookup is an upper bound over the
cumulative prefix-offset table. -/
theorem blockAndCharIndex_locates (c : Chain) (form : RepForm) (i : Nat)
    (hok : c.okb = true) (hi : i ≤ c.csize)
    (hform : match form with
      | RepForm.here => c.bs.length ≤ 2
      | RepForm.allocated os => OffsetsWf os c.bs) :
    (i = c.csize →
      c.blockAndCharIndex form i = (c.blocksView.length, 0)) ∧
    (i < c.csize →
      (c.blockAndCharIndex form i).1 < c.blocksView.length ∧
      (c.blockAndCharIndex form i).2 <
        (c.blocksView.getD (c.blockAndCharIndex form i).1 []).length ∧
      (c.blocksView.getD (c.blockAndCharIndex form i).1 []).getD
        (c.blockAndCharIndex form i).2 0 = c.content.getD i 0) := by
  constructor
  · intro h
    simp [Chain.blockAndCharIndex, h]
  · intro hlt
    have hne : ¬(i = c.csize) := by omega
    cases hbs : c.bs with
    | nil =>
        obtain ⟨hle, hsb⟩ := okb_short c hok hbs
        have hres : c.blockAndCharIndex form i = (0, i) := by
          simp [Chain.blockAndCharIndex, hne, hbs]
        have hview : c.blocksView = [c.shortBytes] := by
          have : ¬(c.csize = 0) := by omega
          simp [Chain.blocksView, hbs, this]
        have hcont : c.content = c.shortBytes := by
          simp [Chain.content, hbs]
        rw [hres, hview, hcont]
        simp only [List.length_cons, List.length_nil, List.getD_cons_zero]
        exact ⟨Nat.zero_lt_one, by omega, trivial⟩
    | cons b r =>
        obtain ⟨hsz, _, _⟩ := okb_blocks c b r hok hbs
        have hisz : i < blocksSize c.bs := by omega
        have hview : c.blocksView = c.bs.map RawBlock.data := by
          simp [Chain.blocksView, hbs]
        have hcont : c.content = (c.bs.map RawBlock.data).flatten := by
          simp [Chain.content, hbs]
        have hgd : ∀ f : Nat, (c.bs.map RawBlock.data).getD f [] =
            (c.bs.getD f default).data := by
          intro f
          exact List.getD_map c.bs default RawBlock.data
        have main : ∀ res : Nat × Nat,
            res = (findBlock c.bs i,
              i - blocksSize (c.bs.take (findBlock c.bs i))) →
            res.1 < c.blocksView.length ∧
            res.2 < (c.blocksView.getD res.1 []).length ∧
            (c.blocksView.getD res.1 []).getD res.2 0 =
              c.content.getD i 0 := by
          intro res hres
          obtain ⟨f1, f2, f3⟩ := findBlock_spec c.bs i hisz
          subst hres
          rw [hview, hcont]
          refine ⟨by simpa using f1, ?_, ?_⟩
          · rw [hgd]
            exact f2
          · rw [hgd]
            exact f3.symm
        cases form with
        | here =>
            have hlen2 : c.bs.length ≤ 2 := hform
            apply main
            rw [hbs] at hlen2 ⊢
            rw [hbs] at hisz
            cases r with
            | nil =>
                have hib : i < b.size := by
                  simpa [blocksSize] using hisz
                simp [Chain.blockAndCharIndex, hne, hbs, frontB, findBlock,
                  hib, Nat.not_le.mpr hib, blocksSize]
            | cons b2 r2 =>
                cases r2 with
                | nil =>
                    by_cases hib : i < b.size
                    · simp [Chain.blockAndCharIndex, hne, hbs, frontB,
                        findBlock, hib, Nat.not_le.mpr hib, blocksSize]
                    · have hib2 : i - b.size < b2.size := by
                        simp [blocksSize] at hisz
                        omega
                      simp [Chain.blockAndCharIndex, hne, hbs, frontB,
                        findBlock, hib, Nat.le_of_not_lt hib, hib2,
                        blocksSize]
                | cons b3 r3 => simp at hlen2
        | allocated os =>
            have hwf : OffsetsWf os c.bs := hform
            have hos : os = offList (os.headD 0) c.bs :=
              offsetsWf_eq_offList os c.bs hwf
            apply main
            obtain ⟨fb1, _, _⟩ := findBlock_spec c.bs i hisz
            have hUB : upperBoundCount os (os.headD 0) i =
                findBlock c.bs i := by
              conv_lhs => rw [hos]
              rw [hbs, offList_headD, ← hbs]
              exact upperBoundCount_eq_findBlock c.bs (os.headD 0) i hisz
            have hOff : os.getD (findBlock c.bs i) 0 =
                os.headD 0 + blocksSize (c.bs.take (findBlock c.bs i)) := by
              conv_lhs => rw [hos]
              exact offList_getD (os.headD 0) c.bs (findBlock c.bs i) fb1
            have hemp : c.bs.isEmpty = false := by rw [hbs]; rfl
            simp only [Chain.blockAndCharIndex, hne, if_false, hemp,
              Bool.false_eq_true, if_neg, hUB, hOff]
            simp

end Riegeli

namespace Riegeli

/-- A concrete three-block chain in allocated form used as the locate
witness: block sizes 100, 64 and 36, offset table based at 5. -/
def chainW : Chain :=
  ⟨200, [],
    [.internal 0 (List.replicate 100 7) 0 false,
     .internal 0 (List.replicate 64 8) 0 false,
     .external (List.replicate 36 9) true]⟩

set_option maxRecDepth 10000 in
/-- Witness for `blockAndCharIndex_locates`: the allocated-form lookup at
position 150 of a three-block chain with offset table `[5, 105, 169]`. -/
theorem blockAndCharIndex_locates_witness :
    (150 = chainW.csize →
      chainW.blockAndCharIndex (RepForm.allocated [5, 105, 169]) 150 =
        (chainW.blocksView.length, 0)) ∧
    (150 < chainW.csize →
      (chainW.blockAndCharIndex (RepForm.allocated [5, 105, 169]) 150).1 <
        chainW.blocksView.length ∧
      (chainW.blockAndCharIndex (RepForm.allocated [5, 105, 169]) 150).2 <
        (chainW.blocksView.getD
          (chainW.blockAndCharIndex
            (RepForm.allocated [5, 105, 169]) 150).1 []).length ∧
      (chainW.blocksView.getD
          (chainW.blockAndCharIndex
            (RepForm.allocated [5, 105, 169]) 150).1 []).getD
          (chainW.blockAndCharIndex
            (RepForm.allocated [5, 105, 169]) 150).2 0 =
        chainW.content.getD 150 0) :=
  blockAndCharIndex_locates chainW (RepForm.allocated [5, 105, 169]) 150
    (by decide) (by decide)
    (by
      refine ⟨by decide, ?_⟩
      intro j hj
      have hj3 : j < 3 := by simpa [chainW] using hj
      match j, hj3 with
      | 0, _ => decide
      | 1, _ => decide
      | 2, _ => decide)

end Riegeli

namespace Riegeli

/-- The propositional reading of `Chain.okb`. -/
def ChainOk (c : Chain) : Prop :=
  match c.bs with
  | [] => c.csize ≤ kMaxShortDataSize ∧ c.csize ≤ c.shortData.length
  | _ :: _ =>
      c.csize = blocksSize c.bs ∧ noTwoTinyB c.bs = true ∧
        interiorOkB c.bs = true

theorem okb_iff_chainOk (c : Chain) : c.okb = true ↔ ChainOk c := by
  unfold Chain.okb ChainOk
  cases c.bs <;> simp [and_assoc]

theorem blocksSize_append (xs ys : List RawBlock) :
    blocksSize (xs ++ ys) = blocksSize xs + blocksSize ys := by
  simp [blocksSize]

theorem blocksSize_nil : blocksSize [] = 0 := rfl

theorem blocksSize_singleton (b : RawBlock) : blocksSize [b] = b.size := by
  simp [blocksSize]

theorem backB_append_singleton (xs : List RawBlock) (b : RawBlock) :
    backB (xs ++ [b]) = b := by
  simp [backB]

theorem backB_cons_cons (a b : RawBlock) (l : List RawBlock) :
    backB (a :: b :: l) = backB (b :: l) := by
  simp [backB]

theorem frontB_cons (a : RawBlock) (l : List RawBlock) :
    frontB (a :: l) = a := rfl

theorem bs_eq_dropLast_back (l : List RawBlock) (h : l ≠ []) :
    l = l.dropLast ++ [backB l] := by
  have hb : backB l = l.getLast h := by
    simp [backB, List.getLast?_eq_getLast_of_ne_nil h]
  rw [hb, List.dropLast_append_getLast h]

theorem midGoodB_nil : midGoodB [] = true := rfl

theorem midGoodB_single (b : RawBlock) : midGoodB [b] = true := rfl

theorem midGoodB_cons2 (a b : RawBlock) (l : List RawBlock) :
    midGoodB (a :: b :: l) = (goodB a && midGoodB (b :: l)) := rfl

theorem noTwoTinyB_nil : noTwoTinyB [] = true := rfl

theorem noTwoTinyB_single (b : RawBlock) : noTwoTinyB [b] = true := rfl

theorem noTwoTinyB_cons2 (a b : RawBlock) (l : List RawBlock) :
    noTwoTinyB (a :: b :: l) =
      (!(a.tiny && b.tiny) && noTwoTinyB (b :: l)) := rfl

/-- Every element satisfies `goodB`. -/
def allGoodB (l : List RawBlock) : Bool := l.all goodB

theorem midGoodB_append_singleton (xs : List RawBlock) (b : RawBlock) :
    midGoodB (xs ++ [b]) = allGoodB xs := by
  induction xs with
  | nil => simp [midGoodB, allGoodB]
  | cons x t ih =>
      cases t with
      | nil => simp [midGoodB_single, midGoodB_cons2, allGoodB, goodB]
      | cons y u =>
          rw [List.cons_append, List.cons_append, midGoodB_cons2,
            ← List.cons_append, ih]
          simp [allGoodB]

theorem midGoodB_append (xs ys : List RawBlock) (h : ys ≠ []) :
    midGoodB (xs ++ ys) = (allGoodB xs && midGoodB ys) := by
  induction xs with
  | nil => simp [allGoodB]
  | cons x t ih =>
      cases t with
      | nil =>
          cases ys with
          | nil => exact absurd rfl h
          | cons y u => simp [midGoodB_cons2, allGoodB]
      | cons y u =>
          rw [List.cons_append, List.cons_append, midGoodB_cons2,
            ← List.cons_append, ih]
          simp [allGoodB, Bool.and_assoc]

theorem noTwoTinyB_append_singleton (xs : List RawBlock) (b : RawBlock) :
    noTwoTinyB (xs ++ [b]) =
      (noTwoTinyB xs &&
        (xs.isEmpty || !((backB xs).tiny && b.tiny))) := by
  induction xs with
  | nil => simp [noTwoTinyB]
  | cons x t ih =>
      cases t with
      | nil => simp [noTwoTinyB_cons2, noTwoTinyB_single, backB]
      | cons y u =>
          rw [List.cons_append, List.cons_append, noTwoTinyB_cons2,
            ← List.cons_append, ih, noTwoTinyB_cons2, backB_cons_cons]
          simp [Bool.and_assoc, List.isEmpty]

theorem noTwoTinyB_append (xs ys : List RawBlock) :
    noTwoTinyB (xs ++ ys) =
      (noTwoTinyB xs && noTwoTinyB ys &&
        (xs.isEmpty || ys.isEmpty ||
          !((backB xs).tiny && (frontB ys).tiny))) := by
  induction xs with
  | nil => simp [noTwoTinyB]
  | cons x t ih =>
      cases t with
      | nil =>
          cases ys with
          | nil => simp [noTwoTinyB_single, noTwoTinyB_nil]
          | cons y u =>
              rw [List.singleton_append, noTwoTinyB_cons2, noTwoTinyB_single]
              simp [backB, frontB, List.isEmpty, Bool.and_comm]
      | cons y u =>
          rw [List.cons_append, List.cons_append, noTwoTinyB_cons2,
            ← List.cons_append, ih, noTwoTinyB_cons2, backB_cons_cons]
          cases ys with
          | nil => simp [Bool.and_assoc, List.isEmpty]
          | cons z w => simp [Bool.and_assoc, List.isEmpty]

end Riegeli

namespace Riegeli

theorem appendBytes_data (b : RawBlock) (src : Bytes) (sb : Nat) :
    (b.appendBytes src sb).data = b.data ++ src := by
  cases b with
  | internal s d a sh =>
      by_cases hd : d.isEmpty
      · simp only [RawBlock.appendBytes, hd, if_pos, RawBlock.data]
        rw [List.isEmpty_iff.mp hd]
        rfl
      · simp [RawBlock.appendBytes, hd, RawBlock.data]
  | external d sh => simp [RawBlock.appendBytes, RawBlock.data]

theorem appendBytes_size (b : RawBlock) (src : Bytes) (sb : Nat) :
    (b.appendBytes src sb).size = b.size + src.length := by
  simp [RawBlock.size, appendBytes_data]

theorem appendBytes_isInternal (b : RawBlock) (src : Bytes) (sb : Nat) :
    (b.appendBytes src sb).isInternal = b.isInternal := by
  cases b with
  | internal s d a sh =>
      by_cases hd : d.isEmpty <;> simp [RawBlock.appendBytes, hd, RawBlock.isInternal]
  | external d sh => simp [RawBlock.appendBytes, RawBlock.isInternal]

theorem appendBytes_tiny (b : RawBlock) (src : Bytes) (sb : Nat)
    (extra : Nat) :
    (b.appendBytes src sb).tiny extra = b.tiny (src.length + extra) := by
  simp [RawBlock.tiny, appendBytes_size]
  constructor <;> intro <;> omega

theorem prependBytes_data (b : RawBlock) (src : Bytes) (sa : Nat) :
    (b.prependBytes src sa).data = src ++ b.data := by
  cases b with
  | internal s d a sh =>
      by_cases hd : d.isEmpty
      · simp only [RawBlock.prependBytes, hd, if_pos, RawBlock.data]
        rw [List.isEmpty_iff.mp hd]
        simp
      · simp [RawBlock.prependBytes, hd, RawBlock.data]
  | external d sh => simp [RawBlock.prependBytes, RawBlock.data]

theorem prependBytes_size (b : RawBlock) (src : Bytes) (sa : Nat) :
    (b.prependBytes src sa).size = src.length + b.size := by
  simp [RawBlock.size, prependBytes_data]

theorem prependBytes_tiny (b : RawBlock) (src : Bytes) (sa : Nat)
    (extra : Nat) :
    (b.prependBytes src sa).tiny extra = b.tiny (src.length + extra) := by
  simp [RawBlock.tiny, prependBytes_size]
  constructor <;> intro <;> omega

theorem newInternal_appendBytes (cap : Nat) (d : Bytes) :
    (RawBlock.newInternal cap).appendBytes d =
      .internal 0 d (cap - d.length) false := by
  simp [RawBlock.newInternal, RawBlock.appendBytes]

theorem newInternal_appendBytes2 (cap : Nat) (d1 d2 : Bytes) :
    ((RawBlock.newInternal cap).appendBytes d1).appendBytes d2 =
      .internal 0 (d1 ++ d2) (cap - d1.length - d2.length) false := by
  rw [newInternal_appendBytes]
  cases d1 with
  | nil => simp [RawBlock.appendBytes]
  | cons x t => simp [RawBlock.appendBytes]

theorem newInternal_prependBytes (cap : Nat) (d : Bytes) :
    (RawBlock.newInternal cap).prependBytes d =
      .internal (cap - d.length) d 0 false := by
  simp [RawBlock.newInternal, RawBlock.prependBytes]

theorem newInternal_prependBytes2 (cap : Nat) (d1 d2 : Bytes) :
    ((RawBlock.newInternal cap).prependBytes d1).prependBytes d2 =
      .internal (cap - d1.length - d2.length) (d2 ++ d1) 0 false := by
  rw [newInternal_prependBytes]
  cases d1 with
  | nil => simp [RawBlock.prependBytes]
  | cons x t => simp [RawBlock.prependBytes]

theorem copy_eq (b : RawBlock) : b.copy = .internal 0 b.data 0 false := by
  rw [RawBlock.copy, newInternal_appendBytes]
  simp [RawBlock.size]

theorem copy_good (b : RawBlock) (hne : b.isEmpty = false) :
    goodB b.copy = true := by
  rw [copy_eq]
  simp only [goodB, RawBlock.isEmpty, RawBlock.size, RawBlock.data,
    RawBlock.wasteful, Wasteful, RawBlock.capacity, Bool.and_eq_true,
    Bool.not_eq_true']
  constructor
  · simp only [RawBlock.isEmpty, RawBlock.size, decide_eq_false_iff_not] at hne ⊢
    exact hne
  · simp only [decide_eq_false_iff_not, kAllocationCost,
      kInternalAllocatedOffset]
    omega

theorem copy_tiny (b : RawBlock) (extra : Nat) :
    b.copy.tiny extra = b.tiny extra := by
  rw [copy_eq]
  simp [RawBlock.tiny, RawBlock.size, RawBlock.data]

theorem copy_size (b : RawBlock) : b.copy.size = b.size := by
  rw [copy_eq]
  simp [RawBlock.size, RawBlock.data]

theorem copy_isEmpty (b : RawBlock) : b.copy.isEmpty = b.isEmpty := by
  simp [RawBlock.isEmpty, copy_size]

/-- A fresh two-part merge block is never wasteful when its capacity is
exactly the content size. -/
theorem internal_exact_not_wasteful (d : Bytes) (extra : Nat) :
    (RawBlock.internal 0 d 0 false).wasteful extra =
      Wasteful (kInternalAllocatedOffset + d.length) (d.length + extra) := by
  simp [RawBlock.wasteful, RawBlock.capacity, RawBlock.size, RawBlock.data]

theorem wasteful_exact_false (d : Bytes) :
    (RawBlock.internal 0 d 0 false).wasteful = false := by
  rw [internal_exact_not_wasteful]
  simp only [Wasteful, kAllocationCost, kInternalAllocatedOffset,
    decide_eq_false_iff_not]
  omega

/-- `can_append` transfers: appending within the free space keeps the
capacity, so the wasteful measure with the appended bytes counted as
extra is unchanged. -/
theorem appendBytes_capacity_of_canAppend (b : RawBlock) (src : Bytes)
    (hca : b.canAppend src.length = true) :
    (b.appendBytes src).capacity = b.capacity := by
  cases b with
  | external d sh =>
      simp [RawBlock.canAppend, RawBlock.isMutable, RawBlock.isInternal]
        at hca
  | internal s d a sh =>
      simp only [RawBlock.canAppend, RawBlock.isMutable, RawBlock.isInternal,
        RawBlock.isShared, RawBlock.isEmpty, RawBlock.size, RawBlock.data,
        RawBlock.capacity, RawBlock.spaceAfter, Bool.and_eq_true,
        Bool.not_eq_true', decide_eq_true_eq, ge_iff_le] at hca
      cases d with
      | nil =>
          simp at hca
          simp [RawBlock.appendBytes, RawBlock.capacity]
          omega
      | cons x t =>
          simp only [List.length_cons] at hca
          have hsp : src.length ≤ a := by
            rcases hca with ⟨_, h2⟩
            simpa using h2
          simp [RawBlock.appendBytes, RawBlock.capacity]
          omega

theorem appendBytes_wasteful_of_canAppend (b : RawBlock) (src : Bytes)
    (extra : Nat) (hca : b.canAppend src.length = true) :
    (b.appendBytes src).wasteful extra = b.wasteful (src.length + extra) := by
  have hc := appendBytes_capacity_of_canAppend b src hca
  have hs := appendBytes_size b src 0
  have hint : b.isInternal = true := by
    cases b with
    | internal _ _ _ _ => rfl
    | external d sh =>
        simp [RawBlock.canAppend, RawBlock.isMutable, RawBlock.isInternal]
          at hca
  have wderiv : ∀ bb : RawBlock, bb.isInternal = true → ∀ e : Nat,
      bb.wasteful e =
        Wasteful (kInternalAllocatedOffset + bb.capacity) (bb.size + e) := by
    intro bb hbb e
    cases bb with
    | internal _ _ _ _ => rfl
    | external _ _ => simp [RawBlock.isInternal] at hbb
  rw [wderiv _ (by rw [appendBytes_isInternal]; exact hint) extra,
    wderiv _ hint (src.length + extra), hc, hs]
  congr 1
  omega

end Riegeli

namespace Riegeli

theorem takePad_length (n : Nat) (l : Bytes) : (takePad n l).length = n := by
  simp [takePad]
  omega

theorem dropPad_length (n : Nat) (l : Bytes) : (dropPad n l).length = n := by
  simp [dropPad]
  omega

theorem takePad_of_le (n : Nat) (l : Bytes) (h : n ≤ l.length) :
    takePad n l = l.take n := by
  simp [takePad, Nat.sub_eq_zero_of_le h]

theorem newBlockCapacity_ge (csize repl minL recL : Nat) (opts : Options) :
    repl + minL ≤ newBlockCapacity csize repl minL recL opts := by
  unfold newBlockCapacity applyBufferConstraints
  exact Nat.add_le_add_left (le_max_left _ _) _

theorem appendBufferOp_data (b : RawBlock) (maxL : Nat) (fill : Bytes) :
    (b.appendBufferOp maxL fill).1.data =
      b.data ++ takePad (b.appendBufferOp maxL fill).2 fill := by
  cases b with
  | internal s d a sh =>
      by_cases hd : d.isEmpty
      · simp only [RawBlock.appendBufferOp, hd, if_pos, RawBlock.data]
        rw [List.isEmpty_iff.mp hd]
        simp
      · simp [RawBlock.appendBufferOp, hd, RawBlock.data]
  | external d sh => simp [RawBlock.appendBufferOp, RawBlock.data, takePad]

theorem appendBufferOp_size (b : RawBlock) (maxL : Nat) (fill : Bytes) :
    (b.appendBufferOp maxL fill).1.size =
      b.size + (b.appendBufferOp maxL fill).2 := by
  rw [RawBlock.size, appendBufferOp_data]
  simp [RawBlock.size, takePad_length]

theorem appendBufferOp_len_le (b : RawBlock) (maxL : Nat) (fill : Bytes) :
    (b.appendBufferOp maxL fill).2 ≤ maxL := by
  cases b with
  | internal s d a sh =>
      by_cases hd : d.isEmpty <;>
        simp [RawBlock.appendBufferOp, hd, Nat.min_le_right]
  | external d sh => simp [RawBlock.appendBufferOp]

theorem appendBufferOp_capacity (b : RawBlock) (maxL : Nat) (fill : Bytes)
    (hint : b.isInternal = true) :
    (b.appendBufferOp maxL fill).1.capacity = b.capacity := by
  cases b with
  | internal s d a sh =>
      by_cases hd : d.isEmpty
      · simp only [RawBlock.appendBufferOp, hd, if_pos, RawBlock.capacity]
        rw [List.isEmpty_iff.mp hd]
        simp [takePad_length]
      · simp [RawBlock.appendBufferOp, hd, RawBlock.capacity, takePad_length]
        omega
  | external d sh => simp [RawBlock.isInternal] at hint

theorem appendBufferOp_len_ge (b : RawBlock) (maxL minL : Nat) (fill : Bytes)
    (hca : b.canAppend minL = true) (hm : minL ≤ maxL) :
    minL ≤ (b.appendBufferOp maxL fill).2 := by
  cases b with
  | internal s d a sh =>
      simp only [RawBlock.canAppend, RawBlock.isMutable, RawBlock.isInternal,
        RawBlock.isShared, RawBlock.isEmpty, RawBlock.size, RawBlock.data,
        RawBlock.capacity, RawBlock.spaceAfter, Bool.and_eq_true,
        Bool.not_eq_true', decide_eq_true_eq, ge_iff_le] at hca
      cases d with
      | nil =>
          simp only [RawBlock.appendBufferOp, List.isEmpty_nil, if_pos]
          simp at hca ⊢
          omega
      | cons x t =>
          have hsp : minL ≤ a := by
            rcases hca with ⟨_, h2⟩
            simpa using h2
          simp [RawBlock.appendBufferOp]
          omega
  | external d sh =>
      simp [RawBlock.canAppend, RawBlock.isMutable, RawBlock.isInternal]
        at hca

theorem appendBufferOp_isInternal (b : RawBlock) (maxL : Nat) (fill : Bytes) :
    (b.appendBufferOp maxL fill).1.isInternal = b.isInternal := by
  cases b with
  | internal s d a sh =>
      by_cases hd : d.isEmpty <;>
        simp [RawBlock.appendBufferOp, hd, RawBlock.isInternal]
  | external d sh => simp [RawBlock.appendBufferOp]

theorem appendBufferOp_wasteful (b : RawBlock) (maxL : Nat) (fill : Bytes)
    (hint : b.isInternal = true) (extra : Nat) :
    (b.appendBufferOp maxL fill).1.wasteful extra =
      b.wasteful ((b.appendBufferOp maxL fill).2 + extra) := by
  have hc := appendBufferOp_capacity b maxL fill hint
  have hs := appendBufferOp_size b maxL fill
  have wderiv : ∀ bb : RawBlock, bb.isInternal = true → ∀ e : Nat,
      bb.wasteful e =
        Wasteful (kInternalAllocatedOffset + bb.capacity) (bb.size + e) := by
    intro bb hbb e
    cases bb with
    | internal _ _ _ _ => rfl
    | external _ _ => simp [RawBlock.isInternal] at hbb
  rw [wderiv _ (by rw [appendBufferOp_isInternal]; exact hint) extra,
    wderiv _ hint _, hc, hs]
  congr 1
  omega

end Riegeli

namespace Riegeli

theorem takePad_zero (l : Bytes) : takePad 0 l = [] := by
  simp [takePad]

theorem noTwoTinyB_replaceLast (init : List RawBlock) (a b : RawBlock)
    (h : noTwoTinyB (init ++ [a]) = true) (hsize : a.size ≤ b.size) :
    noTwoTinyB (init ++ [b]) = true := by
  rw [noTwoTinyB_append_singleton] at h ⊢
  simp only [Bool.and_eq_true, Bool.or_eq_true] at h ⊢
  refine ⟨h.1, ?_⟩
  rcases h.2 with h2 | h2
  · exact Or.inl h2
  · right
    simp only [Bool.not_eq_true', Bool.and_eq_false_iff] at h2 ⊢
    rcases h2 with h2 | h2
    · exact Or.inl h2
    · right
      simp only [RawBlock.tiny, decide_eq_false_iff_not] at h2 ⊢
      omega

theorem interiorOkB_replaceLast (init : List RawBlock) (a b : RawBlock) :
    interiorOkB (init ++ [a]) = interiorOkB (init ++ [b]) := by
  cases init with
  | nil => rfl
  | cons x t =>
      simp only [List.cons_append, interiorOkB]
      rw [midGoodB_append_singleton, midGoodB_append_singleton]

theorem interiorOkB_push (xs : List RawBlock) (y : RawBlock) :
    interiorOkB (xs ++ [y]) = true ↔
      interiorOkB xs = true ∧ (2 ≤ xs.length → goodB (backB xs) = true) := by
  cases xs with
  | nil => simp [interiorOkB, midGoodB]
  | cons x t =>
      cases t with
      | nil => simp [interiorOkB, midGoodB]
      | cons z u =>
          have e1 : (x :: z :: u) ++ [y] = x :: ((z :: u) ++ [y]) := by simp
          rw [e1]
          show midGoodB ((z :: u) ++ [y]) = true ↔
            midGoodB (z :: u) = true ∧
              (2 ≤ (x :: z :: u).length → goodB (backB (x :: z :: u)) = true)
          rw [midGoodB_append_singleton, backB_cons_cons]
          have hz : z :: u = (z :: u).dropLast ++ [backB (z :: u)] :=
            bs_eq_dropLast_back (z :: u) (by simp)
          constructor
          · intro hall
            have hall2 := hall
            rw [hz, allGoodB, List.all_append] at hall2
            simp only [Bool.and_eq_true, List.all_cons, List.all_nil,
              Bool.and_true] at hall2
            constructor
            · conv_lhs => rw [hz]
              rw [midGoodB_append_singleton]
              exact hall2.1
            · intro _
              exact hall2.2
          · rintro ⟨hmid, hgood⟩
            conv_lhs => rw [hz]
            rw [allGoodB, List.all_append]
            simp only [Bool.and_eq_true, List.all_cons, List.all_nil,
              Bool.and_true]
            constructor
            · rw [hz, midGoodB_append_singleton] at hmid
              exact hmid
            · exact hgood (by simp)

theorem chainOk_short (cs : Nat) (sd : Bytes) (h1 : cs ≤ kMaxShortDataSize)
    (h2 : cs ≤ sd.length) : ChainOk ⟨cs, sd, []⟩ :=
  ⟨h1, h2⟩

theorem chainOk_blocks (cs : Nat) (sd : Bytes) (bs : List RawBlock)
    (hne : bs ≠ []) (h1 : cs = blocksSize bs) (h2 : noTwoTinyB bs = true)
    (h3 : interiorOkB bs = true) : ChainOk ⟨cs, sd, bs⟩ := by
  cases bs with
  | nil => exact absurd rfl hne
  | cons x t => exact ⟨h1, h2, h3⟩

theorem chainOk_dest_blocks (c : Chain) (hok : ChainOk c) (hne : c.bs ≠ []) :
    c.csize = blocksSize c.bs ∧ noTwoTinyB c.bs = true ∧
      interiorOkB c.bs = true := by
  unfold ChainOk at hok
  cases hbs : c.bs with
  | nil => exact absurd hbs hne
  | cons x t => rw [hbs] at hok; exact hok

theorem chainOk_dest_short (c : Chain) (hok : ChainOk c) (hbs : c.bs = []) :
    c.csize ≤ kMaxShortDataSize ∧ c.csize ≤ c.shortData.length := by
  unfold ChainOk at hok
  rw [hbs] at hok
  exact hok

theorem shortBytes_length (c : Chain) (h : c.csize ≤ c.shortData.length) :
    c.shortBytes.length = c.csize := by
  simp [Chain.shortBytes]
  omega

theorem content_blocks (cs : Nat) (sd : Bytes) (bs : List RawBlock)
    (hne : bs ≠ []) :
    (Chain.mk cs sd bs).content = (bs.map RawBlock.data).flatten := by
  cases bs with
  | nil => exact absurd rfl hne
  | cons x t => simp [Chain.content]

theorem flatten_map_append_singleton (xs : List RawBlock) (y : RawBlock) :
    ((xs ++ [y]).map RawBlock.data).flatten =
      (xs.map RawBlock.data).flatten ++ y.data := by
  simp

theorem canAppend_mk (s : Nat) (d : Bytes) (a m : Nat)
    (hsp : m ≤ (if d.length = 0 then s + d.length + a else a)) :
    (RawBlock.internal s d a false).canAppend m = true := by
  simp only [RawBlock.canAppend, RawBlock.isMutable, RawBlock.isInternal,
    RawBlock.isShared, RawBlock.isEmpty, RawBlock.size, RawBlock.data,
    RawBlock.capacity, RawBlock.spaceAfter, Bool.not_false, Bool.true_and,
    ge_iff_le, decide_eq_true_eq]
  by_cases hd : d.length = 0
  · simp only [hd, if_pos] at hsp ⊢
    simpa using hsp
  · simp only [hd, if_neg] at hsp ⊢
    simp [hd] at hsp ⊢
    exact hsp

end Riegeli

namespace Riegeli

/-- What `Chain::AppendBuffer` guarantees: the invariant is preserved,
`size_` grows by the span length, the content grows by the caller's
bytes, and the span length lands in `[min_length, max_length]`. -/
def ABSpec (c : Chain) (minL maxL : Nat) (fill : Bytes) (p : Chain × Nat) :
    Prop :=
  ChainOk p.1 ∧ p.1.csize = c.csize + p.2 ∧
    p.1.content = c.content ++ takePad p.2 fill ∧ minL ≤ p.2 ∧ p.2 ≤ maxL

theorem content_short (cs : Nat) (sd : Bytes) :
    (Chain.mk cs sd []).content = (Chain.mk cs sd []).shortBytes := by
  simp [Chain.content]

theorem appendBufferCh_ok_short (cs : Nat) (sd : Bytes)
    (minL recL maxL : Nat) (opts : Options) (fill : Bytes)
    (hok : ChainOk ⟨cs, sd, []⟩) (hmm : minL ≤ maxL)
    (hcap : minL + kDefaultMinBlockSize ≤ kMaxCapacity) :
    ABSpec ⟨cs, sd, []⟩ minL maxL fill
      ((Chain.mk cs sd []).appendBufferCh minL recL maxL opts fill) := by
  obtain ⟨h15, hsd⟩ := chainOk_dest_short _ hok rfl
  simp only [Chain.csize] at h15
  have hsb : (Chain.mk cs sd []).shortBytes.length = cs :=
    shortBytes_length _ hsd
  unfold Chain.appendBufferCh
  split
  case h_2 hA => simp at hA
  case h_1 hA =>
    clear hA
    split
    · -- inline short-data branch
      next hc1 =>
        dsimp only at hc1 ⊢
        simp only [Bool.and_eq_true, decide_eq_true_eq] at hc1
        refine ⟨?_, rfl, ?_, ?_, ?_⟩
        · apply chainOk_short
          · simp only [kMaxShortDataSize] at *
            have := Nat.min_le_right maxL (15 - cs)
            omega
          · rw [List.length_append, hsb, takePad_length]
        · rw [content_short]
          show (Chain.mk _ _ []).content = _
          simp only [Chain.content, List.isEmpty_nil, if_pos,
            Chain.shortBytes, Chain.shortData, Chain.csize]
          apply List.take_of_length_le
          rw [List.length_append, takePad_length]
          show (Chain.mk cs sd []).shortBytes.length + _ ≤ _
          rw [hsb]
        · exact le_min hmm hc1.1
        · exact min_le_left _ _
    · next hc1 =>
        split
        · -- min_length == 0 early return
          next hc2 =>
            simp only [Bool.and_eq_true, decide_eq_true_eq] at hc2
            refine ⟨hok, ?_, ?_, ?_, ?_⟩ <;> simp [takePad_zero, hc2.2]
        · -- merge short data with the new space into a new block
          next hc2 =>
            have hrare : ¬(kMaxCapacity - cs < minL) := by
              simp only [kMaxCapacity, kDefaultMinBlockSize,
                kMaxShortDataSize] at hcap h15 ⊢
              omega
            rw [if_neg hrare]
            have hCAPge := newBlockCapacity_ge cs cs
              (minL ⊔ (kMaxShortDataSize - cs)) recL opts
            set CAP := newBlockCapacity cs cs
              (minL ⊔ (kMaxShortDataSize - cs)) recL opts with hCAP
            have hblk : (RawBlock.newInternal CAP).appendBytes
                (Chain.mk cs sd []).shortBytes =
                .internal 0 (Chain.mk cs sd []).shortBytes
                  (CAP - cs) false := by
              rw [newInternal_appendBytes, hsb]
            dsimp only
            rw [hblk]
            set blk : RawBlock :=
              .internal 0 (Chain.mk cs sd []).shortBytes (CAP - cs) false
              with hblk2
            have hbk : backB [blk] = blk := rfl
            rw [hbk]
            have hca : blk.canAppend minL = true := by
              apply canAppend_mk
              have hmx := le_max_left minL (kMaxShortDataSize - cs)
              split
              · next hlen0 =>
                  rw [hsb] at hlen0
                  rw [hsb]
                  omega
              · omega
            have hdata := appendBufferOp_data blk maxL fill
            have hsize := appendBufferOp_size blk maxL fill
            have hge := appendBufferOp_len_ge blk maxL minL fill hca hmm
            have hle := appendBufferOp_len_le blk maxL fill
            set p := blk.appendBufferOp maxL fill with hp
            have hsetb : setBackL [blk] p.1 = [p.1] := rfl
            rw [hsetb]
            refine ⟨?_, rfl, ?_, hge, hle⟩
            · apply chainOk_blocks _ _ _ (by simp)
              · rw [blocksSize_singleton, hsize]
                show _ + _ = RawBlock.size blk + _
                have : RawBlock.size blk = cs := by
                  rw [hblk2]
                  show (Chain.mk cs sd []).shortBytes.length = cs
                  exact hsb
                omega
              · exact noTwoTinyB_single _
              · rfl
            · rw [content_blocks _ _ _ (by simp), content_short]
              simp only [List.map_cons, List.map_nil, List.flatten_cons,
                List.flatten_nil, List.append_nil]
              rw [hdata]
              rfl

end Riegeli

namespace Riegeli

theorem ab_finish (c : Chain) (init : List RawBlock) (nb : RawBlock)
    (minL maxL : Nat) (fill : Bytes)
    (hsum : blocksSize init + nb.size = c.csize)
    (hntt : noTwoTinyB (init ++ [nb]) = true)
    (hint : interiorOkB (init ++ [nb]) = true)
    (hca : nb.canAppend minL = true) (hmm : minL ≤ maxL)
    (hcont : (init.map RawBlock.data).flatten ++ nb.data = c.content) :
    ABSpec c minL maxL fill
      (⟨c.csize + ((backB (init ++ [nb])).appendBufferOp maxL fill).2,
          c.shortData,
          setBackL (init ++ [nb])
            ((backB (init ++ [nb])).appendBufferOp maxL fill).1⟩,
        ((backB (init ++ [nb])).appendBufferOp maxL fill).2) := by
  rw [backB_append_singleton]
  have hdata := appendBufferOp_data nb maxL fill
  have hsize := appendBufferOp_size nb maxL fill
  have hge := appendBufferOp_len_ge nb maxL minL fill hca hmm
  have hle := appendBufferOp_len_le nb maxL fill
  set p := nb.appendBufferOp maxL fill with hp
  have hsetb : setBackL (init ++ [nb]) p.1 = init ++ [p.1] := by
    unfold setBackL
    rw [List.dropLast_concat]
  rw [hsetb]
  refine ⟨?_, rfl, ?_, hge, hle⟩
  · apply chainOk_blocks _ _ _ (by simp)
    · rw [blocksSize_append, blocksSize_singleton, hsize]
      omega
    · exact noTwoTinyB_replaceLast init nb p.1 hntt (by omega)
    · rw [← interiorOkB_replaceLast init nb p.1]
      exact hint
  · dsimp only
    rw [content_blocks _ _ _ (by simp), flatten_map_append_singleton, hdata,
      ← List.append_assoc, hcont]

end Riegeli

namespace Riegeli

/-- If `TryClear` reports success, the resulting block holds no data. -/
theorem tryClear_snd_data (b : RawBlock) (h : (b.tryClear).2 = true) :
    (b.tryClear).1.data = [] := by
  cases b with
  | internal s d a sh =>
      by_cases hm : (RawBlock.internal s d a sh).isMutable = true
      · simp [RawBlock.tryClear, hm, RawBlock.data]
      · simp [RawBlock.tryClear, hm] at h
  | external d sh => simp [RawBlock.tryClear] at h

theorem abspec_zero (c : Chain) (maxL : Nat) (fill : Bytes)
    (hok : ChainOk c) : ABSpec c 0 maxL fill (c, 0) :=
  ⟨hok, by simp, by simp [takePad_zero], Nat.le_refl 0, Nat.zero_le _⟩

theorem appendBufferCh_ok_blocks (cs : Nat) (sd : Bytes) (b0 : RawBlock)
    (br : List RawBlock) (minL recL maxL : Nat) (opts : Options)
    (fill : Bytes)
    (hok : ChainOk ⟨cs, sd, b0 :: br⟩) (hmm : minL ≤ maxL)
    (hcap : minL + kDefaultMinBlockSize ≤ kMaxCapacity) :
    ABSpec ⟨cs, sd, b0 :: br⟩ minL maxL fill
      ((Chain.mk cs sd (b0 :: br)).appendBufferCh minL recL maxL opts
        fill) := by
  obtain ⟨hsz, hntt, hint⟩ := chainOk_dest_blocks _ hok (by simp)
  simp only [Chain.csize, Chain.bs] at hsz hntt hint
  have hsplit : b0 :: br = (b0 :: br).dropLast ++ [backB (b0 :: br)] :=
    bs_eq_dropLast_back _ (by simp)
  set bk := backB (b0 :: br) with hbk
  set init := (b0 :: br).dropLast with hinit
  have hsum : blocksSize init + bk.size = cs := by
    rw [hsplit, blocksSize_append, blocksSize_singleton] at hsz
    omega
  have hntt2 : noTwoTinyB (init ++ [bk]) = true := by rw [← hsplit]; exact hntt
  have hint2 : interiorOkB (init ++ [bk]) = true := by
    rw [← hsplit]; exact hint
  have hcont : ∀ nb : RawBlock, nb.data = bk.data →
      ((init.map RawBlock.data).flatten ++ nb.data =
        (Chain.mk cs sd (init ++ [bk])).content) := by
    intro nb hnd
    rw [hnd, content_blocks _ _ _ (by simp), flatten_map_append_singleton]
  by_cases h1 : bk.canAppend minL = true
  · have heq : (Chain.mk cs sd (b0 :: br)).appendBufferCh minL recL maxL opts
        fill =
        (⟨cs + (bk.appendBufferOp maxL fill).2, sd,
            setBackL (b0 :: br) (bk.appendBufferOp maxL fill).1⟩,
          (bk.appendBufferOp maxL fill).2) := by
      simp only [Chain.appendBufferCh, hbk, h1, if_pos]
    rw [heq]
    rw [show (Chain.mk cs sd (b0 :: br) : Chain) =
      Chain.mk cs sd (init ++ [bk]) from by rw [← hsplit]]
    rw [show setBackL (b0 :: br) (bk.appendBufferOp maxL fill).1 =
      setBackL (init ++ [bk]) (bk.appendBufferOp maxL fill).1 from by
        rw [← hsplit]]
    rw [show bk.appendBufferOp maxL fill =
      (backB (init ++ [bk])).appendBufferOp maxL fill from by
        rw [backB_append_singleton]]
    exact ab_finish _ init bk minL maxL fill hsum hntt2 hint2 h1 hmm
      (hcont bk rfl)
  · have h1f : bk.canAppend minL = false := by simpa using h1
    by_cases h2 : minL = 0
    · subst h2
      have heq : (Chain.mk cs sd (b0 :: br)).appendBufferCh 0 recL maxL opts
          fill = (⟨cs, sd, b0 :: br⟩, 0) := by
        simp only [Chain.appendBufferCh, hbk, h1f, Bool.false_eq_true,
          if_false, if_pos]
      rw [heq]
      exact abspec_zero _ maxL fill hok
    · by_cases h3 : (bk.tiny && decide (minL ≤ kMaxCapacity - bk.size)) = true
      · -- rewrite the tiny last block together with the new space
        have hCAPge := newBlockCapacity_ge cs bk.size minL recL opts
        set CAP := newBlockCapacity cs bk.size minL recL opts with hCAP
        have hnb : (RawBlock.newInternal CAP).appendBytes bk.data =
            .internal 0 bk.data (CAP - bk.size) false := by
          rw [newInternal_appendBytes]
          rfl
        set nb : RawBlock := .internal 0 bk.data (CAP - bk.size) false
          with hnb2
        have heq : (Chain.mk cs sd (b0 :: br)).appendBufferCh minL recL maxL
            opts fill =
            (⟨cs + ((backB (init ++ [nb])).appendBufferOp maxL fill).2, sd,
                setBackL (init ++ [nb])
                  ((backB (init ++ [nb])).appendBufferOp maxL fill).1⟩,
              ((backB (init ++ [nb])).appendBufferOp maxL fill).2) := by
          simp only [Chain.appendBufferCh, hbk, h1f, Bool.false_eq_true,
            if_false, h2, if_pos, h3, Chain.csize, Chain.bs]
          rw [hnb]
          have hsb : setBackL (b0 :: br) nb = init ++ [nb] := rfl
          rw [hsb, backB_append_singleton]
        rw [heq]
        rw [show (Chain.mk cs sd (b0 :: br) : Chain) =
          Chain.mk cs sd (init ++ [bk]) from by rw [← hsplit]]
        have hnbsize : nb.size = bk.size := rfl
        have hnbca : nb.canAppend minL = true := by
          apply canAppend_mk
          split
          · next h0 =>
              show minL ≤ 0 + bk.data.length + (CAP - bk.size)
              have : bk.size = bk.data.length := rfl
              omega
          · show minL ≤ CAP - bk.size
            omega
        exact ab_finish ⟨cs, sd, init ++ [bk]⟩ init nb minL maxL fill
          (by rw [hnbsize]; exact hsum)
          (noTwoTinyB_replaceLast init bk nb hntt2 (by rw [hnbsize]))
          (by rw [← interiorOkB_replaceLast init bk nb]; exact hint2)
          hnbca hmm (hcont nb rfl)
      · -- the last block is not tiny: possibly rewrite a wasteful last
        -- block, then push a fresh (or reclaimed) block
        have h3f : (bk.tiny && decide (minL ≤ kMaxCapacity - bk.size)) =
            false := by simpa using h3
        have hbtiny : bk.tiny = false := by
          by_contra hbt
          have hbt2 : bk.tiny = true := by simpa using hbt
          have hlt : bk.size < kDefaultMinBlockSize := by
            simpa [RawBlock.tiny] using hbt2
          have hle2 : minL ≤ kMaxCapacity - bk.size := by
            simp only [kDefaultMinBlockSize] at hlt hcap
            simp only [kMaxCapacity] at hcap ⊢
            omega
          rw [hbt2] at h3f
          simp [hle2] at h3f
        have hbne : bk.isEmpty = false := by
          simp only [RawBlock.tiny, decide_eq_false_iff_not,
            kDefaultMinBlockSize] at hbtiny
          simp only [RawBlock.isEmpty, decide_eq_false_iff_not]
          omega
        have hCAPge := newBlockCapacity_ge cs 0 minL recL opts
        set CAP3 := newBlockCapacity cs 0 minL recL opts with hCAP3
        have hfreshca : (RawBlock.newInternal CAP3).canAppend minL = true := by
          refine canAppend_mk 0 [] CAP3 minL ?_
          simp
          omega
        by_cases hw : bk.wasteful = true
        · set t := bk.tryClear with ht
          have hcopy : setBackL (b0 :: br) bk.copy = init ++ [bk.copy] := rfl
          have hntt3 : noTwoTinyB (init ++ [bk.copy]) = true :=
            noTwoTinyB_replaceLast init bk bk.copy hntt2
              (by rw [copy_size])
          have hint3 : interiorOkB (init ++ [bk.copy]) = true := by
            rw [← interiorOkB_replaceLast init bk bk.copy]
            exact hint2
          have hnttp : ∀ nb : RawBlock,
              noTwoTinyB ((init ++ [bk.copy]) ++ [nb]) = true := by
            intro nb
            rw [noTwoTinyB_append_singleton, hntt3, backB_append_singleton]
            have : (bk.copy).tiny = false := by rw [copy_tiny]; exact hbtiny
            simp [this]
          have hintp : ∀ nb : RawBlock,
              interiorOkB ((init ++ [bk.copy]) ++ [nb]) = true := by
            intro nb
            rw [interiorOkB_push]
            exact ⟨hint3, fun _ => by
              rw [backB_append_singleton]; exact copy_good bk hbne⟩
          have hsump : ∀ nb : RawBlock, nb.size = 0 →
              blocksSize (init ++ [bk.copy]) + nb.size = cs := by
            intro nb h0
            rw [blocksSize_append, blocksSize_singleton, copy_size, h0]
            omega
          have hcontp : ∀ nb : RawBlock, nb.data = [] →
              ((init ++ [bk.copy]).map RawBlock.data).flatten ++ nb.data =
                (Chain.mk cs sd (init ++ [bk])).content := by
            intro nb h0
            rw [h0, flatten_map_append_singleton, List.append_nil]
            have := hcont bk rfl
            rw [← this]
            rw [copy_eq]
            rfl
          by_cases hg : (t.2 && t.1.canAppend minL) = true
          · have hgdata : t.1.data = [] := by
              rw [ht]
              refine tryClear_snd_data bk ?_
              rw [← ht]
              simp only [Bool.and_eq_true] at hg
              exact hg.1
            have heq : (Chain.mk cs sd (b0 :: br)).appendBufferCh minL recL
                maxL opts fill =
                (⟨cs + ((backB ((init ++ [bk.copy]) ++ [t.1])).appendBufferOp
                      maxL fill).2, sd,
                    setBackL ((init ++ [bk.copy]) ++ [t.1])
                      ((backB ((init ++ [bk.copy]) ++ [t.1])).appendBufferOp
                        maxL fill).1⟩,
                  ((backB ((init ++ [bk.copy]) ++ [t.1])).appendBufferOp maxL
                    fill).2) := by
              simp only [Chain.appendBufferCh, hbk, h1f, Bool.false_eq_true,
                if_false, h2, if_pos, h3f, hw, if_true, ← ht, hg,
                Chain.csize, Chain.bs, hcopy]
            rw [heq]
            rw [show (Chain.mk cs sd (b0 :: br) : Chain) =
              Chain.mk cs sd (init ++ [bk]) from by rw [← hsplit]]
            exact ab_finish ⟨cs, sd, init ++ [bk]⟩ (init ++ [bk.copy]) t.1
              minL maxL fill
              (hsump t.1 (by simp [RawBlock.size, hgdata]))
              (hnttp t.1) (hintp t.1)
              (by
                simp only [Bool.and_eq_true] at hg
                exact hg.2) hmm
              (hcontp t.1 hgdata)
          · have hgf : (t.2 && t.1.canAppend minL) = false := by simpa using hg
            have heq : (Chain.mk cs sd (b0 :: br)).appendBufferCh minL recL
                maxL opts fill =
                (⟨cs + ((backB ((init ++ [bk.copy]) ++
                      [RawBlock.newInternal CAP3])).appendBufferOp
                      maxL fill).2, sd,
                    setBackL ((init ++ [bk.copy]) ++
                        [RawBlock.newInternal CAP3])
                      ((backB ((init ++ [bk.copy]) ++
                          [RawBlock.newInternal CAP3])).appendBufferOp
                        maxL fill).1⟩,
                  ((backB ((init ++ [bk.copy]) ++
                      [RawBlock.newInternal CAP3])).appendBufferOp maxL
                    fill).2) := by
              simp only [Chain.appendBufferCh, hbk, h1f, Bool.false_eq_true,
                if_false, h2, if_pos, h3f, hw, if_true, ← ht, hgf,
                Chain.csize, Chain.bs, hcopy, hCAP3]
            rw [heq]
            rw [show (Chain.mk cs sd (b0 :: br) : Chain) =
              Chain.mk cs sd (init ++ [bk]) from by rw [← hsplit]]
            exact ab_finish ⟨cs, sd, init ++ [bk]⟩ (init ++ [bk.copy])
              (RawBlock.newInternal CAP3) minL maxL fill
              (hsump _ rfl) (hnttp _) (hintp _) hfreshca hmm (hcontp _ rfl)
        · have hwf : bk.wasteful = false := by simpa using hw
          have heq : (Chain.mk cs sd (b0 :: br)).appendBufferCh minL recL
              maxL opts fill =
              (⟨cs + ((backB ((init ++ [bk]) ++
                    [RawBlock.newInternal CAP3])).appendBufferOp
                    maxL fill).2, sd,
                  setBackL ((init ++ [bk]) ++ [RawBlock.newInternal CAP3])
                    ((backB ((init ++ [bk]) ++
                        [RawBlock.newInternal CAP3])).appendBufferOp
                      maxL fill).1⟩,
                ((backB ((init ++ [bk]) ++
                    [RawBlock.newInternal CAP3])).appendBufferOp maxL
                  fill).2) := by
            simp only [Chain.appendBufferCh, hbk, h1f, Bool.false_eq_true,
              if_false, h2, if_pos, h3f, hwf, Chain.csize, Chain.bs, hCAP3]
            rw [← hsplit]
          rw [heq]
          rw [show (Chain.mk cs sd (b0 :: br) : Chain) =
            Chain.mk cs sd (init ++ [bk]) from by rw [← hsplit]]
          have hnttp2 : noTwoTinyB ((init ++ [bk]) ++
              [RawBlock.newInternal CAP3]) = true := by
            rw [noTwoTinyB_append_singleton, hntt2, backB_append_singleton]
            simp [hbtiny]
          have hintp2 : interiorOkB ((init ++ [bk]) ++
              [RawBlock.newInternal CAP3]) = true := by
            rw [interiorOkB_push]
            refine ⟨hint2, fun _ => ?_⟩
            rw [backB_append_singleton]
            simp [goodB, hbne, hwf]
          exact ab_finish ⟨cs, sd, init ++ [bk]⟩ (init ++ [bk])
            (RawBlock.newInternal CAP3) minL maxL fill
            (by
              show blocksSize (init ++ [bk]) +
                (RawBlock.newInternal CAP3).size = cs
              rw [blocksSize_append, blocksSize_singleton]
              have h0 : (RawBlock.newInternal CAP3).size = 0 := rfl
              rw [h0]
              omega)
            hnttp2 hintp2 hfreshca hmm
            (by
              rw [flatten_map_append_singleton]
              show _ ++ _ ++ [] = _
              rw [List.append_nil]
              exact hcont bk rfl)

end Riegeli

namespace Riegeli

/-- `Chain::AppendBuffer` preserves the invariant and grows the chain by
between `min_length` and `max_length` bytes (combined short-data and
blocks cases). -/
theorem appendBufferCh_ok (c : Chain) (minL recL maxL : Nat)
    (opts : Options) (fill : Bytes) (hok : ChainOk c) (hmm : minL ≤ maxL)
    (hcap : minL + kDefaultMinBlockSize ≤ kMaxCapacity) :
    ABSpec c minL maxL fill (c.appendBufferCh minL recL maxL opts fill) := by
  obtain ⟨cs, sd, bs⟩ := c
  cases bs with
  | nil =>
      exact appendBufferCh_ok_short cs sd minL recL maxL opts fill hok hmm
        hcap
  | cons b0 br =>
      exact appendBufferCh_ok_blocks cs sd b0 br minL recL maxL opts fill
        hok hmm hcap

theorem one_plus_min_le_cap : 1 + kDefaultMinBlockSize ≤ kMaxCapacity := by
  norm_num [kDefaultMinBlockSize, kMaxCapacity]

/-- One-byte-minimum append buffers make progress, so the fuelled
`Append(string_view)` loop copies the whole source. -/
theorem appendSVGo_ok (opts : Options) (fuel : Nat) :
    ∀ (c : Chain) (src : Bytes), ChainOk c → src.length ≤ fuel →
    ChainOk (Chain.appendSVGo opts fuel c src) ∧
    (Chain.appendSVGo opts fuel c src).csize = c.csize + src.length ∧
    (Chain.appendSVGo opts fuel c src).content = c.content ++ src := by
  induction fuel with
  | zero =>
      intro c src hok hle
      have hsrc : src = [] := List.length_eq_zero.mp (Nat.le_zero.mp hle)
      subst hsrc
      simp [Chain.appendSVGo, hok]
  | succ fuel ih =>
      intro c src hok hle
      match src with
      | [] => simpa [Chain.appendSVGo] using hok
      | a :: rest =>
        have habs := appendBufferCh_ok c 1 (a :: rest).length
          (a :: rest).length opts (a :: rest) hok (by simp)
          one_plus_min_le_cap
        obtain ⟨hok2, hsz2, hcont2, hge2, hle2⟩ := habs
        set p := c.appendBufferCh 1 (a :: rest).length (a :: rest).length
          opts (a :: rest) with hp
        have hne : ¬p.2 = 0 := by omega
        have hunf : Chain.appendSVGo opts (fuel + 1) c (a :: rest) =
            Chain.appendSVGo opts fuel p.1 ((a :: rest).drop p.2) := by
          simp only [Chain.appendSVGo, ← hp]
          rw [if_neg hne]
        rw [hunf]
        have hlen : ((a :: rest).drop p.2).length ≤ fuel := by
          simp only [List.length_drop]
          simp only [List.length_cons] at hle hle2 ⊢
          omega
        obtain ⟨hok3, hsz3, hcont3⟩ := ih p.1 ((a :: rest).drop p.2) hok2
          hlen
        refine ⟨hok3, ?_, ?_⟩
        · rw [hsz3, hsz2]
          simp only [List.length_drop]
          simp only [List.length_cons] at hle2 ⊢
          omega
        · rw [hcont3, hcont2, takePad_of_le _ _ hle2, List.append_assoc,
            List.take_append_drop]

/-- `Chain::Append(absl::string_view)` preserves the invariant, adds the
source's length to the size, and appends the source to the content. -/
theorem appendSV_ok (c : Chain) (src : Bytes) (opts : Options)
    (hok : ChainOk c) :
    ChainOk (c.appendSV src opts) ∧
    (c.appendSV src opts).csize = c.csize + src.length ∧
    (c.appendSV src opts).content = c.content ++ src :=
  appendSVGo_ok opts src.length c src hok (Nat.le_refl _)

end Riegeli

namespace Riegeli

theorem dropPad_zero (l : Bytes) : dropPad 0 l = [] := by
  simp [dropPad]

theorem dropPad_of_le (n : Nat) (l : Bytes) (h : n ≤ l.length) :
    dropPad n l = l.drop (l.length - n) := by
  simp [dropPad, Nat.sub_eq_zero_of_le h]

theorem prependBufferOp_data (b : RawBlock) (maxL : Nat) (fill : Bytes) :
    (b.prependBufferOp maxL fill).1.data =
      dropPad (b.prependBufferOp maxL fill).2 fill ++ b.data := by
  cases b with
  | internal s d a sh =>
      by_cases hd : d.isEmpty
      · simp only [RawBlock.prependBufferOp, hd, if_pos, RawBlock.data]
        rw [List.isEmpty_iff.mp hd]
        simp
      · simp [RawBlock.prependBufferOp, hd, RawBlock.data]
  | external d sh => simp [RawBlock.prependBufferOp, RawBlock.data, dropPad]

theorem prependBufferOp_size (b : RawBlock) (maxL : Nat) (fill : Bytes) :
    (b.prependBufferOp maxL fill).1.size =
      b.size + (b.prependBufferOp maxL fill).2 := by
  rw [RawBlock.size, prependBufferOp_data]
  simp [RawBlock.size, dropPad_length]
  omega

theorem prependBufferOp_len_le (b : RawBlock) (maxL : Nat) (fill : Bytes) :
    (b.prependBufferOp maxL fill).2 ≤ maxL := by
  cases b with
  | internal s d a sh =>
      by_cases hd : d.isEmpty <;>
        simp [RawBlock.prependBufferOp, hd, Nat.min_le_right]
  | external d sh => simp [RawBlock.prependBufferOp]

theorem prependBufferOp_len_ge (b : RawBlock) (maxL minL : Nat)
    (fill : Bytes) (hca : b.canPrepend minL = true) (hm : minL ≤ maxL) :
    minL ≤ (b.prependBufferOp maxL fill).2 := by
  cases b with
  | internal s d a sh =>
      simp only [RawBlock.canPrepend, RawBlock.isMutable,
        RawBlock.isInternal, RawBlock.isShared, RawBlock.isEmpty,
        RawBlock.size, RawBlock.data, RawBlock.capacity,
        RawBlock.spaceBefore, Bool.and_eq_true, Bool.not_eq_true',
        decide_eq_true_eq, ge_iff_le] at hca
      cases d with
      | nil =>
          simp only [RawBlock.prependBufferOp, List.isEmpty_nil, if_pos]
          simp at hca ⊢
          omega
      | cons x t =>
          have hsp : minL ≤ s := by
            rcases hca with ⟨_, h2⟩
            simpa using h2
          simp [RawBlock.prependBufferOp]
          omega
  | external d sh =>
      simp [RawBlock.canPrepend, RawBlock.isMutable, RawBlock.isInternal]
        at hca

theorem canPrepend_mk (s : Nat) (d : Bytes) (a m : Nat)
    (hsp : m ≤ (if d.length = 0 then s + d.length + a else s)) :
    (RawBlock.internal s d a false).canPrepend m = true := by
  simp only [RawBlock.canPrepend, RawBlock.isMutable, RawBlock.isInternal,
    RawBlock.isShared, RawBlock.isEmpty, RawBlock.size, RawBlock.data,
    RawBlock.capacity, RawBlock.spaceBefore, Bool.not_false, Bool.true_and,
    ge_iff_le, decide_eq_true_eq]
  by_cases hd : d.length = 0
  · simp only [hd, if_pos] at hsp ⊢
    simpa using hsp
  · simp only [hd, if_neg] at hsp ⊢
    simp [hd] at hsp ⊢
    exact hsp

theorem noTwoTinyB_replaceFirst (a b : RawBlock) (t : List RawBlock)
    (h : noTwoTinyB (a :: t) = true) (hsize : a.size ≤ b.size) :
    noTwoTinyB (b :: t) = true := by
  cases t with
  | nil => exact noTwoTinyB_single b
  | cons x xs =>
      rw [noTwoTinyB_cons2] at h ⊢
      simp only [Bool.and_eq_true, Bool.not_eq_true'] at h ⊢
      refine ⟨?_, h.2⟩
      by_cases hb : b.tiny = true
      · have ha : a.tiny = true := by
          simp only [RawBlock.tiny, decide_eq_true_eq] at hb ⊢
          omega
        rw [ha] at h
        simpa [hb] using h.1
      · simp [Bool.eq_false_iff.mpr hb]

theorem interiorOkB_cons (x : RawBlock) (t : List RawBlock) :
    interiorOkB (x :: t) = midGoodB t := rfl

theorem midGoodB_cons_of (a : RawBlock) (t : List RawBlock)
    (hg : goodB a = true) (h : midGoodB t = true) :
    midGoodB (a :: t) = true := by
  cases t with
  | nil => exact midGoodB_single a
  | cons x xs =>
      rw [midGoodB_cons2, hg, h]
      rfl

/-- Packaging of `Chain::PrependBuffer`'s guarantees: invariant
preserved, size grows by the buffer length, content grows at the front
by the written bytes, and `min_length ≤ length ≤ max_length`. -/
def PBSpec (c : Chain) (minL maxL : Nat) (fill : Bytes) (p : Chain × Nat) :
    Prop :=
  ChainOk p.1 ∧ p.1.csize = c.csize + p.2 ∧
    p.1.content = dropPad p.2 fill ++ c.content ∧ minL ≤ p.2 ∧ p.2 ≤ maxL

theorem pbspec_zero (c : Chain) (maxL : Nat) (fill : Bytes)
    (hok : ChainOk c) : PBSpec c 0 maxL fill (c, 0) :=
  ⟨hok, by simp, by simp [dropPad_zero], Nat.le_refl 0, Nat.zero_le _⟩

theorem pb_finish (c : Chain) (nb : RawBlock) (rest : List RawBlock)
    (minL maxL : Nat) (fill : Bytes)
    (hsum : nb.size + blocksSize rest = c.csize)
    (hntt : noTwoTinyB (nb :: rest) = true)
    (hint : interiorOkB (nb :: rest) = true)
    (hca : nb.canPrepend minL = true) (hmm : minL ≤ maxL)
    (hcont : nb.data ++ (rest.map RawBlock.data).flatten = c.content) :
    PBSpec c minL maxL fill
      (⟨c.csize + ((frontB (nb :: rest)).prependBufferOp maxL fill).2,
          c.shortData,
          ((frontB (nb :: rest)).prependBufferOp maxL fill).1 ::
            (nb :: rest).tail⟩,
        ((frontB (nb :: rest)).prependBufferOp maxL fill).2) := by
  rw [frontB_cons]
  have hdata := prependBufferOp_data nb maxL fill
  have hsize := prependBufferOp_size nb maxL fill
  have hge := prependBufferOp_len_ge nb maxL minL fill hca hmm
  have hle := prependBufferOp_len_le nb maxL fill
  set p := nb.prependBufferOp maxL fill with hp
  refine ⟨?_, rfl, ?_, hge, hle⟩
  · apply chainOk_blocks _ _ _ (by simp)
    · show c.csize + p.2 = blocksSize (p.1 :: rest)
      have hbs : blocksSize (p.1 :: rest) = p.1.size + blocksSize rest := by
        simp [blocksSize]
      rw [hbs, hsize]
      omega
    · exact noTwoTinyB_replaceFirst nb p.1 rest hntt (by omega)
    · rw [interiorOkB_cons]
      rw [interiorOkB_cons] at hint
      exact hint
  · dsimp only
    rw [content_blocks _ _ _ (by simp)]
    simp only [List.map_cons, List.flatten_cons]
    rw [hdata, List.append_assoc]
    show dropPad p.2 fill ++
      (nb.data ++ (List.map RawBlock.data rest).flatten) =
      dropPad p.2 fill ++ c.content
    rw [hcont]

end Riegeli

namespace Riegeli

/-- `Chain::PrependBuffer` in short-data mode. -/
theorem prependBufferCh_ok_short (cs : Nat) (sd : Bytes)
    (minL recL maxL : Nat) (opts : Options) (fill : Bytes)
    (hok : ChainOk ⟨cs, sd, []⟩) (hmm : minL ≤ maxL)
    (hcap : minL + kDefaultMinBlockSize ≤ kMaxCapacity) :
    PBSpec ⟨cs, sd, []⟩ minL maxL fill
      ((Chain.mk cs sd []).prependBufferCh minL recL maxL opts fill) := by
  obtain ⟨h15, hsd⟩ := chainOk_dest_short _ hok rfl
  simp only [Chain.csize] at h15
  have hsb : (Chain.mk cs sd []).shortBytes.length = cs :=
    shortBytes_length _ hsd
  unfold Chain.prependBufferCh
  split
  case h_2 hA => simp at hA
  case h_1 hA =>
    clear hA
    split
    · -- inline short-data branch
      next hc1 =>
        dsimp only at hc1 ⊢
        simp only [Bool.and_eq_true, decide_eq_true_eq] at hc1
        refine ⟨?_, rfl, ?_, ?_, ?_⟩
        · apply chainOk_short
          · simp only [kMaxShortDataSize] at *
            have := Nat.min_le_right maxL (15 - cs)
            omega
          · rw [List.length_append, hsb, dropPad_length]
            omega
        · rw [content_short]
          show (Chain.mk _ _ []).content = _
          simp only [Chain.content, List.isEmpty_nil, if_pos,
            Chain.shortBytes, Chain.shortData, Chain.csize]
          apply List.take_of_length_le
          rw [List.length_append, dropPad_length]
          show _ + (Chain.mk cs sd []).shortBytes.length ≤ _
          rw [hsb]
          omega
        · exact le_min hmm hc1.1
        · exact min_le_left _ _
    · next hc1 =>
        split
        · -- min_length == 0 early return
          next hc2 =>
            simp only [Bool.and_eq_true, decide_eq_true_eq] at hc2
            refine ⟨hok, ?_, ?_, ?_, ?_⟩ <;> simp [dropPad_zero, hc2.2]
        · -- merge short data with the new space into a new block
          next hc2 =>
            have hrare : ¬(kMaxCapacity - cs < minL) := by
              simp only [kMaxCapacity, kDefaultMinBlockSize,
                kMaxShortDataSize] at hcap h15 ⊢
              omega
            rw [if_neg hrare]
            have hCAPge := newBlockCapacity_ge cs cs minL recL opts
            set CAP := newBlockCapacity cs cs minL recL opts with hCAP
            have hblk : (RawBlock.newInternal CAP).prependBytes
                (Chain.mk cs sd []).shortBytes =
                .internal (CAP - cs) (Chain.mk cs sd []).shortBytes 0
                  false := by
              rw [newInternal_prependBytes, hsb]
            dsimp only
            rw [hblk]
            set blk : RawBlock :=
              .internal (CAP - cs) (Chain.mk cs sd []).shortBytes 0 false
              with hblk2
            have hbsz : blk.size = cs := by
              rw [hblk2]
              show (Chain.mk cs sd []).shortBytes.length = cs
              exact hsb
            have hca : blk.canPrepend minL = true := by
              apply canPrepend_mk
              split
              · next hlen0 =>
                  rw [hsb] at hlen0
                  rw [hsb]
                  omega
              · omega
            refine pb_finish ⟨cs, sd, []⟩ blk [] minL maxL fill ?_
              (noTwoTinyB_single blk) rfl hca hmm ?_
            · rw [blocksSize_nil, hbsz]
              simp
            · rw [content_short]
              simp only [List.map_nil, List.flatten_nil, List.append_nil]
              rfl

end Riegeli

namespace Riegeli

theorem blocksSize_cons2 (b : RawBlock) (t : List RawBlock) :
    blocksSize (b :: t) = b.size + blocksSize t := by
  simp [blocksSize]

theorem tryClear_snd_size (b : RawBlock) (h : (b.tryClear).2 = true) :
    (b.tryClear).1.size = 0 := by
  rw [RawBlock.size, tryClear_snd_data b h]
  rfl

/-- `Chain::PrependBuffer` in blocks mode. -/
theorem prependBufferCh_ok_blocks (cs : Nat) (sd : Bytes) (b0 : RawBlock)
    (br : List RawBlock) (minL recL maxL : Nat) (opts : Options)
    (fill : Bytes)
    (hok : ChainOk ⟨cs, sd, b0 :: br⟩) (hmm : minL ≤ maxL)
    (hcap : minL + kDefaultMinBlockSize ≤ kMaxCapacity) :
    PBSpec ⟨cs, sd, b0 :: br⟩ minL maxL fill
      ((Chain.mk cs sd (b0 :: br)).prependBufferCh minL recL maxL opts
        fill) := by
  obtain ⟨hsz, hntt, hint⟩ := chainOk_dest_blocks _ hok (by simp)
  simp only [Chain.csize, Chain.bs] at hsz hntt hint
  have hsum : b0.size + blocksSize br = cs := by
    rw [blocksSize_cons2] at hsz
    omega
  have hmid : midGoodB br = true := by
    rw [← interiorOkB_cons b0]
    exact hint
  have hcont : ∀ nb : RawBlock, nb.data = b0.data →
      nb.data ++ (br.map RawBlock.data).flatten =
        (Chain.mk cs sd (b0 :: br)).content := by
    intro nb hnd
    rw [hnd, content_blocks _ _ _ (by simp)]
    simp
  by_cases h1 : b0.canPrepend minL = true
  · have heq : (Chain.mk cs sd (b0 :: br)).prependBufferCh minL recL maxL
        opts fill =
        (⟨cs + ((frontB (b0 :: br)).prependBufferOp maxL fill).2, sd,
            ((frontB (b0 :: br)).prependBufferOp maxL fill).1 ::
              (b0 :: br).tail⟩,
          ((frontB (b0 :: br)).prependBufferOp maxL fill).2) := by
      simp only [Chain.prependBufferCh, frontB_cons, h1, if_pos,
        Chain.csize, Chain.bs, Chain.shortData, List.tail_cons]
    rw [heq]
    exact pb_finish ⟨cs, sd, b0 :: br⟩ b0 br minL maxL fill hsum hntt hint
      h1 hmm (hcont b0 rfl)
  · have h1f : b0.canPrepend minL = false := by simpa using h1
    by_cases h2 : minL = 0
    · subst h2
      have heq : (Chain.mk cs sd (b0 :: br)).prependBufferCh 0 recL maxL
          opts fill = (⟨cs, sd, b0 :: br⟩, 0) := by
        simp only [Chain.prependBufferCh, frontB_cons, h1f,
          Bool.false_eq_true, if_false, if_pos]
      rw [heq]
      exact pbspec_zero _ maxL fill hok
    · by_cases h3 :
          (b0.tiny && decide (minL ≤ kMaxCapacity - b0.size)) = true
      · -- rewrite the tiny first block, merging it with the new space
        have hCAPge := newBlockCapacity_ge cs b0.size minL recL opts
        set CAP2 := newBlockCapacity cs b0.size minL recL opts with hCAP2
        have hnb : (RawBlock.newInternal CAP2).prependBytes b0.data =
            .internal (CAP2 - b0.size) b0.data 0 false := by
          rw [newInternal_prependBytes]
          rfl
        set nb : RawBlock := .internal (CAP2 - b0.size) b0.data 0 false
          with hnbd
        have hnbsize : nb.size = b0.size := rfl
        have heq : (Chain.mk cs sd (b0 :: br)).prependBufferCh minL recL
            maxL opts fill =
            (⟨cs + ((frontB (nb :: br)).prependBufferOp maxL fill).2, sd,
                ((frontB (nb :: br)).prependBufferOp maxL fill).1 ::
                  (nb :: br).tail⟩,
              ((frontB (nb :: br)).prependBufferOp maxL fill).2) := by
          simp only [Chain.prependBufferCh, frontB_cons, h1f,
            Bool.false_eq_true, if_false, h2, if_pos, h3, Chain.csize,
            Chain.bs, Chain.shortData, List.tail_cons, ← hCAP2, hnb]
        rw [heq]
        refine pb_finish ⟨cs, sd, b0 :: br⟩ nb br minL maxL fill ?_ ?_ hint
          ?_ hmm (hcont nb rfl)
        · rw [hnbsize]
          exact hsum
        · exact noTwoTinyB_replaceFirst b0 nb br hntt (by rw [hnbsize])
        · apply canPrepend_mk
          have hsz0 : b0.data.length = b0.size := rfl
          split
          · next hlen0 =>
              rw [hsz0] at hlen0
              omega
          · omega
      · -- the first block is not tiny: possibly rewrite a wasteful first
        -- block, then push a fresh (or reclaimed) block at the front
        have h3f : (b0.tiny && decide (minL ≤ kMaxCapacity - b0.size)) =
            false := by simpa using h3
        have hbtiny : b0.tiny = false := by
          by_contra hbt
          have hbt2 : b0.tiny = true := by simpa using hbt
          have hlt : b0.size < kDefaultMinBlockSize := by
            simpa [RawBlock.tiny] using hbt2
          have hle2 : minL ≤ kMaxCapacity - b0.size := by
            simp only [kDefaultMinBlockSize] at hlt hcap
            simp only [kMaxCapacity] at hcap ⊢
            omega
          rw [hbt2] at h3f
          simp [hle2] at h3f
        have hbne : b0.isEmpty = false := by
          simp only [RawBlock.tiny, decide_eq_false_iff_not,
            kDefaultMinBlockSize] at hbtiny
          simp only [RawBlock.isEmpty, decide_eq_false_iff_not]
          omega
        have hCAPge := newBlockCapacity_ge cs 0 minL recL opts
        set CAP3 := newBlockCapacity cs 0 minL recL opts with hCAP3
        have hfreshca : (RawBlock.newInternal CAP3).canPrepend minL =
            true := by
          refine canPrepend_mk 0 [] CAP3 minL ?_
          simp
          omega
        by_cases hw : b0.wasteful = true
        · set t := b0.tryClear with ht
          have hnttc : noTwoTinyB (b0.copy :: br) = true :=
            noTwoTinyB_replaceFirst b0 b0.copy br hntt (by rw [copy_size])
          have hcopytiny : (b0.copy).tiny = false := by
            rw [copy_tiny]
            exact hbtiny
          have hnttp : ∀ nb : RawBlock,
              noTwoTinyB (nb :: b0.copy :: br) = true := by
            intro nb
            rw [noTwoTinyB_cons2, hnttc, hcopytiny]
            simp
          have hintp : ∀ nb : RawBlock,
              interiorOkB (nb :: b0.copy :: br) = true := by
            intro nb
            rw [interiorOkB_cons]
            exact midGoodB_cons_of _ _ (copy_good b0 hbne) hmid
          have hsump : ∀ nb : RawBlock, nb.size = 0 →
              nb.size + blocksSize (b0.copy :: br) = cs := by
            intro nb h0
            rw [h0, blocksSize_cons2, copy_size]
            omega
          have hcontp : ∀ nb : RawBlock, nb.data = [] →
              nb.data ++ ((b0.copy :: br).map RawBlock.data).flatten =
                (Chain.mk cs sd (b0 :: br)).content := by
            intro nb h0
            rw [h0, List.nil_append]
            simp only [List.map_cons, List.flatten_cons]
            rw [copy_eq]
            exact hcont (.internal 0 b0.data 0 false) rfl
          by_cases hg : (t.2 && t.1.canPrepend minL) = true
          · have hgdata : t.1.data = [] := by
              rw [ht]
              refine tryClear_snd_data b0 ?_
              rw [← ht]
              simp only [Bool.and_eq_true] at hg
              exact hg.1
            have heq : (Chain.mk cs sd (b0 :: br)).prependBufferCh minL
                recL maxL opts fill =
                (⟨cs + ((frontB (t.1 :: b0.copy :: br)).prependBufferOp
                      maxL fill).2, sd,
                    ((frontB (t.1 :: b0.copy :: br)).prependBufferOp maxL
                      fill).1 :: (t.1 :: b0.copy :: br).tail⟩,
                  ((frontB (t.1 :: b0.copy :: br)).prependBufferOp maxL
                    fill).2) := by
              simp only [Chain.prependBufferCh, frontB_cons, h1f,
                Bool.false_eq_true, if_false, h2, if_pos, h3f, hw, if_true,
                ← ht, hg, Chain.csize, Chain.bs, Chain.shortData,
                List.tail_cons]
            rw [heq]
            exact pb_finish ⟨cs, sd, b0 :: br⟩ t.1 (b0.copy :: br) minL
              maxL fill
              (hsump t.1 (by rw [RawBlock.size, hgdata]; rfl))
              (hnttp t.1) (hintp t.1)
              (by
                simp only [Bool.and_eq_true] at hg
                exact hg.2) hmm
              (hcontp t.1 hgdata)
          · have hgf : (t.2 && t.1.canPrepend minL) = false := by
              simpa using hg
            have heq : (Chain.mk cs sd (b0 :: br)).prependBufferCh minL
                recL maxL opts fill =
                (⟨cs + ((frontB (RawBlock.newInternal CAP3 :: b0.copy ::
                      br)).prependBufferOp maxL fill).2, sd,
                    ((frontB (RawBlock.newInternal CAP3 :: b0.copy ::
                      br)).prependBufferOp maxL fill).1 ::
                      (RawBlock.newInternal CAP3 :: b0.copy :: br).tail⟩,
                  ((frontB (RawBlock.newInternal CAP3 :: b0.copy ::
                    br)).prependBufferOp maxL fill).2) := by
              simp only [Chain.prependBufferCh, frontB_cons, h1f,
                Bool.false_eq_true, if_false, h2, if_pos, h3f, hw, if_true,
                ← ht, hgf, Chain.csize, Chain.bs, Chain.shortData,
                List.tail_cons, hCAP3]
            rw [heq]
            exact pb_finish ⟨cs, sd, b0 :: br⟩ (RawBlock.newInternal CAP3)
              (b0.copy :: br) minL maxL fill (hsump _ rfl) (hnttp _)
              (hintp _) hfreshca hmm (hcontp _ rfl)
        · have hwf : b0.wasteful = false := by simpa using hw
          have heq : (Chain.mk cs sd (b0 :: br)).prependBufferCh minL recL
              maxL opts fill =
              (⟨cs + ((frontB (RawBlock.newInternal CAP3 :: b0 ::
                    br)).prependBufferOp maxL fill).2, sd,
                  ((frontB (RawBlock.newInternal CAP3 :: b0 ::
                    br)).prependBufferOp maxL fill).1 ::
                    (RawBlock.newInternal CAP3 :: b0 :: br).tail⟩,
                ((frontB (RawBlock.newInternal CAP3 :: b0 ::
                  br)).prependBufferOp maxL fill).2) := by
            simp only [Chain.prependBufferCh, frontB_cons, h1f,
              Bool.false_eq_true, if_false, h2, if_pos, h3f, hwf,
              Chain.csize, Chain.bs, Chain.shortData, List.tail_cons,
              hCAP3]
          rw [heq]
          refine pb_finish ⟨cs, sd, b0 :: br⟩ (RawBlock.newInternal CAP3)
            (b0 :: br) minL maxL fill ?_ ?_ ?_ hfreshca hmm ?_
          · show (RawBlock.newInternal CAP3).size +
              blocksSize (b0 :: br) = cs
            rw [blocksSize_cons2]
            show 0 + _ = _
            omega
          · rw [noTwoTinyB_cons2, hntt, hbtiny]
            simp
          · rw [interiorOkB_cons]
            refine midGoodB_cons_of _ _ ?_ hmid
            simp [goodB, hbne, hwf]
          · show [] ++ _ = _
            rw [List.nil_append]
            have := hcont b0 rfl
            rw [← this]
            simp

end Riegeli

namespace Riegeli

/-- `Chain::PrependBuffer` preserves the invariant and grows the chain by
between `min_length` and `max_length` bytes (combined short-data and
blocks cases). -/
theorem prependBufferCh_ok (c : Chain) (minL recL maxL : Nat)
    (opts : Options) (fill : Bytes) (hok : ChainOk c) (hmm : minL ≤ maxL)
    (hcap : minL + kDefaultMinBlockSize ≤ kMaxCapacity) :
    PBSpec c minL maxL fill (c.prependBufferCh minL recL maxL opts fill) := by
  obtain ⟨cs, sd, bs⟩ := c
  cases bs with
  | nil =>
      exact prependBufferCh_ok_short cs sd minL recL maxL opts fill hok hmm
        hcap
  | cons b0 br =>
      exact prependBufferCh_ok_blocks cs sd b0 br minL recL maxL opts fill
        hok hmm hcap

/-- One-byte-minimum prepend buffers make progress, so the fuelled
`Prepend(string_view)` loop copies the whole source. -/
theorem prependSVGo_ok (opts : Options) (fuel : Nat) :
    ∀ (c : Chain) (src : Bytes), ChainOk c → src.length ≤ fuel →
    ChainOk (Chain.prependSVGo opts fuel c src) ∧
    (Chain.prependSVGo opts fuel c src).csize = c.csize + src.length ∧
    (Chain.prependSVGo opts fuel c src).content = src ++ c.content := by
  induction fuel with
  | zero =>
      intro c src hok hle
      have hsrc : src = [] := List.length_eq_zero.mp (Nat.le_zero.mp hle)
      subst hsrc
      simp [Chain.prependSVGo, hok]
  | succ fuel ih =>
      intro c src hok hle
      match src with
      | [] => simpa [Chain.prependSVGo] using hok
      | a :: rest =>
        have habs := prependBufferCh_ok c 1 (a :: rest).length
          (a :: rest).length opts (a :: rest) hok (by simp)
          one_plus_min_le_cap
        obtain ⟨hok2, hsz2, hcont2, hge2, hle2⟩ := habs
        set p := c.prependBufferCh 1 (a :: rest).length (a :: rest).length
          opts (a :: rest) with hp
        have hne : ¬p.2 = 0 := by omega
        have hunf : Chain.prependSVGo opts (fuel + 1) c (a :: rest) =
            Chain.prependSVGo opts fuel p.1
              ((a :: rest).take ((a :: rest).length - p.2)) := by
          simp only [Chain.prependSVGo, ← hp]
          rw [if_neg hne]
        rw [hunf]
        have hlen : ((a :: rest).take ((a :: rest).length - p.2)).length ≤
            fuel := by
          simp only [List.length_take]
          simp only [List.length_cons] at hle hle2 ⊢
          omega
        obtain ⟨hok3, hsz3, hcont3⟩ := ih p.1
          ((a :: rest).take ((a :: rest).length - p.2)) hok2 hlen
        refine ⟨hok3, ?_, ?_⟩
        · rw [hsz3, hsz2]
          simp only [List.length_take]
          simp only [List.length_cons] at hle2 ⊢
          omega
        · rw [hcont3, hcont2, dropPad_of_le _ _ hle2, ← List.append_assoc,
            List.take_append_drop]

/-- `Chain::Prepend(absl::string_view)` preserves the invariant, adds the
source's length to the size, and prepends the source to the content. -/
theorem prependSV_ok (c : Chain) (src : Bytes) (opts : Options)
    (hok : ChainOk c) :
    ChainOk (c.prependSV src opts) ∧
    (c.prependSV src opts).csize = c.csize + src.length ∧
    (c.prependSV src opts).content = src ++ c.content :=
  prependSVGo_ok opts src.length c src hok (Nat.le_refl _)

end Riegeli

namespace Riegeli

theorem isEmpty_data (b : RawBlock) (h : b.isEmpty = true) : b.data = [] := by
  simp only [RawBlock.isEmpty, decide_eq_true_eq, RawBlock.size] at h
  exact List.length_eq_zero.mp h

/-- `Chain::AppendRawBlock` in short-data mode. -/
theorem appendRawBlockCh_ok_short (cs : Nat) (sd : Bytes) (b : RawBlock)
    (opts : Options) (hok : ChainOk ⟨cs, sd, []⟩) :
    ChainOk ((Chain.mk cs sd []).appendRawBlockCh b opts) ∧
    ((Chain.mk cs sd []).appendRawBlockCh b opts).csize = cs + b.size ∧
    ((Chain.mk cs sd []).appendRawBlockCh b opts).content =
      (Chain.mk cs sd []).content ++ b.data := by
  obtain ⟨h15, hsd⟩ := chainOk_dest_short _ hok rfl
  have hsb : (Chain.mk cs sd []).shortBytes.length = cs :=
    shortBytes_length _ hsd
  by_cases hsbe : (Chain.mk cs sd []).shortBytes.isEmpty = true
  · have hnil : (Chain.mk cs sd []).shortBytes = [] :=
      List.isEmpty_iff.mp hsbe
    have hcs0 : cs = 0 := by
      rw [hnil] at hsb
      simpa using hsb.symm
    have heq : (Chain.mk cs sd []).appendRawBlockCh b opts =
        ⟨cs + b.size, sd, [b]⟩ := by
      simp only [Chain.appendRawBlockCh, hsbe, Bool.not_true,
        Bool.false_eq_true, if_false, Chain.csize, Chain.shortData]
    rw [heq]
    refine ⟨chainOk_blocks _ _ _ (by simp) ?_ (noTwoTinyB_single b) rfl,
      rfl, ?_⟩
    · rw [blocksSize_singleton]
      show cs + b.size = b.size
      omega
    · rw [content_blocks _ _ _ (by simp), content_short, hnil]
      simp
  · have hsbef : (Chain.mk cs sd []).shortBytes.isEmpty = false := by
      simpa using hsbe
    by_cases hbt : b.tiny = true
    · -- merge short data with the tiny block
      set cap := newBlockCapacity cs cs
        (max b.size (kMaxShortDataSize - cs)) 0 opts with hcap
      have hmg : ((RawBlock.newInternal cap).appendBytes
          (Chain.mk cs sd []).shortBytes).appendBytes b.data =
          .internal 0 ((Chain.mk cs sd []).shortBytes ++ b.data)
            (cap - cs - b.data.length) false := by
        rw [newInternal_appendBytes2, hsb]
      have heq : (Chain.mk cs sd []).appendRawBlockCh b opts =
          ⟨cs + b.size, sd,
            [.internal 0 ((Chain.mk cs sd []).shortBytes ++ b.data)
              (cap - cs - b.data.length) false]⟩ := by
        simp only [Chain.appendRawBlockCh, hsbef, Bool.not_false, if_true,
          hbt, if_pos, Chain.csize, Chain.shortData, hcap, hmg]
      rw [heq]
      refine ⟨chainOk_blocks _ _ _ (by simp) ?_ (noTwoTinyB_single _) rfl,
        rfl, ?_⟩
      · rw [blocksSize_singleton]
        show cs + b.size = RawBlock.size _
        rw [RawBlock.size]
        show _ = ((Chain.mk cs sd []).shortBytes ++ b.data).length
        rw [List.length_append, hsb]
      · rw [content_blocks _ _ _ (by simp), content_short]
        simp [RawBlock.data]
    · -- copy short data to a real block, then attach
      have hbtf : b.tiny = false := by simpa using hbt
      have hreal : (RawBlock.newInternal kMaxShortDataSize).appendBytes
          (Chain.mk cs sd []).shortBytes =
          .internal 0 (Chain.mk cs sd []).shortBytes
            (kMaxShortDataSize - cs) false := by
        rw [newInternal_appendBytes, hsb]
      have heq : (Chain.mk cs sd []).appendRawBlockCh b opts =
          ⟨cs + b.size, sd,
            [.internal 0 (Chain.mk cs sd []).shortBytes
              (kMaxShortDataSize - cs) false, b]⟩ := by
        simp only [Chain.appendRawBlockCh, hsbef, Bool.not_false, if_true,
          hbt, Bool.false_eq_true, if_false, Chain.csize, Chain.shortData,
          hreal]
      rw [heq]
      refine ⟨chainOk_blocks _ _ _ (by simp) ?_ ?_ rfl, rfl, ?_⟩
      · show cs + b.size = blocksSize _
        rw [blocksSize_cons2, blocksSize_singleton]
        have hrsz : (RawBlock.internal 0 (Chain.mk cs sd []).shortBytes
            (kMaxShortDataSize - cs) false).size = cs := by
          rw [RawBlock.size]
          show (Chain.mk cs sd []).shortBytes.length = cs
          exact hsb
        rw [hrsz]
      · rw [noTwoTinyB_cons2, noTwoTinyB_single, hbtf]
        simp
      · rw [content_blocks _ _ _ (by simp), content_short]
        simp [RawBlock.data]

/-- `Chain::AppendRawBlock` in blocks mode. -/
theorem appendRawBlockCh_ok_blocks (cs : Nat) (sd : Bytes) (b0 : RawBlock)
    (br : List RawBlock) (b : RawBlock) (opts : Options)
    (hok : ChainOk ⟨cs, sd, b0 :: br⟩) :
    ChainOk ((Chain.mk cs sd (b0 :: br)).appendRawBlockCh b opts) ∧
    ((Chain.mk cs sd (b0 :: br)).appendRawBlockCh b opts).csize =
      cs + b.size ∧
    ((Chain.mk cs sd (b0 :: br)).appendRawBlockCh b opts).content =
      (Chain.mk cs sd (b0 :: br)).content ++ b.data := by
  obtain ⟨hsz, hntt, hint⟩ := chainOk_dest_blocks _ hok (by simp)
  simp only [Chain.csize, Chain.bs] at hsz hntt hint
  have hsplit : b0 :: br = (b0 :: br).dropLast ++ [backB (b0 :: br)] :=
    bs_eq_dropLast_back _ (by simp)
  set bk := backB (b0 :: br) with hbk
  set init := (b0 :: br).dropLast with hinit
  have hsum : blocksSize init + bk.size = cs := by
    rw [hsplit, blocksSize_append, blocksSize_singleton] at hsz
    omega
  have hntt2 : noTwoTinyB (init ++ [bk]) = true := by
    rw [← hsplit]; exact hntt
  have hint2 : interiorOkB (init ++ [bk]) = true := by
    rw [← hsplit]; exact hint
  have hcontsp : (Chain.mk cs sd (b0 :: br)).content =
      (init.map RawBlock.data).flatten ++ bk.data := by
    rw [content_blocks _ _ _ (by simp), hsplit,
      flatten_map_append_singleton]
  -- a common finisher for results of the form ⟨cs + b.size, sd, newbs⟩
  have fin : ∀ newbs : List RawBlock, newbs ≠ [] →
      blocksSize newbs = cs + b.size →
      noTwoTinyB newbs = true → interiorOkB newbs = true →
      (newbs.map RawBlock.data).flatten =
        (Chain.mk cs sd (b0 :: br)).content ++ b.data →
      ChainOk (Chain.mk (cs + b.size) sd newbs) ∧
      (Chain.mk (cs + b.size) sd newbs).csize = cs + b.size ∧
      (Chain.mk (cs + b.size) sd newbs).content =
        (Chain.mk cs sd (b0 :: br)).content ++ b.data := by
    intro newbs hne hs hn hi hc
    refine ⟨chainOk_blocks _ _ _ hne hs.symm hn hi, rfl, ?_⟩
    rw [content_blocks _ _ _ hne, hc]
  by_cases htt : (bk.tiny && b.tiny) = true
  · by_cases hca : bk.canAppend b.size = true
    · have heq : (Chain.mk cs sd (b0 :: br)).appendRawBlockCh b opts =
          ⟨cs + b.size, sd, init ++ [bk.appendBytes b.data]⟩ := by
        simp only [Chain.appendRawBlockCh, hbk, htt, if_pos, hca,
          Chain.csize, Chain.shortData, Chain.bs]
        rfl
      rw [heq]
      refine fin _ (by simp) ?_ ?_ ?_ ?_
      · rw [blocksSize_append, blocksSize_singleton, appendBytes_size]
        show _ + (_ + RawBlock.size b) = _
        omega
      · exact noTwoTinyB_replaceLast init bk _ hntt2
          (by rw [appendBytes_size]; omega)
      · rw [← interiorOkB_replaceLast init bk]
        exact hint2
      · rw [flatten_map_append_singleton, appendBytes_data, hcontsp,
          List.append_assoc]
    · have hcaf : bk.canAppend b.size = false := by simpa using hca
      set cap := newBlockCapacity cs bk.size b.size 0 opts with hcap
      have hmg : ((RawBlock.newInternal cap).appendBytes
          bk.data).appendBytes b.data =
          .internal 0 (bk.data ++ b.data)
            (cap - bk.data.length - b.data.length) false := by
        rw [newInternal_appendBytes2]
      have heq : (Chain.mk cs sd (b0 :: br)).appendRawBlockCh b opts =
          ⟨cs + b.size, sd,
            init ++ [.internal 0 (bk.data ++ b.data)
              (cap - bk.data.length - b.data.length) false]⟩ := by
        simp only [Chain.appendRawBlockCh, hbk, htt, if_pos, hcaf,
          Bool.false_eq_true, if_false, Chain.csize, Chain.shortData,
          Chain.bs, hcap, hmg]
        rfl
      rw [heq]
      have hmsz : (RawBlock.internal 0 (bk.data ++ b.data)
          (cap - bk.data.length - b.data.length) false).size =
          bk.size + b.size := by
        rw [RawBlock.size]
        show (bk.data ++ b.data).length = _
        rw [List.length_append]
        rfl
      refine fin _ (by simp) ?_ ?_ ?_ ?_
      · rw [blocksSize_append, blocksSize_singleton, hmsz]
        omega
      · exact noTwoTinyB_replaceLast init bk _ hntt2 (by rw [hmsz]; omega)
      · rw [← interiorOkB_replaceLast init bk]
        exact hint2
      · rw [flatten_map_append_singleton, hcontsp, List.append_assoc]
        rfl
  · have httf : (bk.tiny && b.tiny) = false := by simpa using htt
    by_cases hbe : bk.isEmpty = true
    · have heq : (Chain.mk cs sd (b0 :: br)).appendRawBlockCh b opts =
          ⟨cs + b.size, sd, init ++ [b]⟩ := by
        simp only [Chain.appendRawBlockCh, hbk, httf, Bool.false_eq_true,
          if_false, hbe, if_pos, Chain.csize, Chain.shortData, Chain.bs]
        rfl
      rw [heq]
      have hbk0 : bk.size = 0 := by
        simpa [RawBlock.isEmpty] using hbe
      refine fin _ (by simp) ?_ ?_ ?_ ?_
      · rw [blocksSize_append, blocksSize_singleton]
        omega
      · exact noTwoTinyB_replaceLast init bk _ hntt2 (by omega)
      · rw [← interiorOkB_replaceLast init bk]
        exact hint2
      · rw [flatten_map_append_singleton, hcontsp, isEmpty_data bk hbe]
        simp
    · have hbef : bk.isEmpty = false := by simpa using hbe
      by_cases hw : bk.wasteful = true
      · by_cases hg : (bk.canAppend b.size &&
            decide (b.size ≤ kAllocationCost + bk.size)) = true
        · have heq : (Chain.mk cs sd (b0 :: br)).appendRawBlockCh b opts =
              ⟨cs + b.size, sd, init ++ [bk.appendBytes b.data]⟩ := by
            simp only [Chain.appendRawBlockCh, hbk, httf,
              Bool.false_eq_true, if_false, hbe, hw, if_pos, hg,
              Chain.csize, Chain.shortData, Chain.bs]
            rfl
          rw [heq]
          refine fin _ (by simp) ?_ ?_ ?_ ?_
          · rw [blocksSize_append, blocksSize_singleton, appendBytes_size]
            show _ + (_ + RawBlock.size b) = _
            omega
          · exact noTwoTinyB_replaceLast init bk _ hntt2
              (by rw [appendBytes_size]; omega)
          · rw [← interiorOkB_replaceLast init bk]
            exact hint2
          · rw [flatten_map_append_singleton, appendBytes_data, hcontsp,
              List.append_assoc]
        · have hgf : (bk.canAppend b.size &&
              decide (b.size ≤ kAllocationCost + bk.size)) = false := by
            simpa using hg
          have heq : (Chain.mk cs sd (b0 :: br)).appendRawBlockCh b opts =
              ⟨cs + b.size, sd, (init ++ [bk.copy]) ++ [b]⟩ := by
            simp only [Chain.appendRawBlockCh, hbk, httf,
              Bool.false_eq_true, if_false, hbe, hw, if_pos, hgf,
              Chain.csize, Chain.shortData, Chain.bs]
            rfl
          rw [heq]
          have hnttc : noTwoTinyB (init ++ [bk.copy]) = true :=
            noTwoTinyB_replaceLast init bk bk.copy hntt2
              (by rw [copy_size])
          refine fin _ (by simp) ?_ ?_ ?_ ?_
          · rw [blocksSize_append, blocksSize_append, blocksSize_singleton,
              blocksSize_singleton, copy_size]
            omega
          · rw [noTwoTinyB_append_singleton, hnttc,
              backB_append_singleton]
            have : ¬((bk.copy).tiny = true ∧ b.tiny = true) := by
              rw [copy_tiny]
              intro hcon
              rw [hcon.1, hcon.2] at httf
              simp at httf
            simp only [Bool.true_and, Bool.or_eq_true,
              Bool.not_eq_true']
            right
            by_cases hx : (bk.copy).tiny = true
            · by_cases hy : b.tiny = true
              · exact absurd ⟨hx, hy⟩ this
              · rw [hx, Bool.eq_false_iff.mpr hy]
                rfl
            · rw [Bool.eq_false_iff.mpr hx]
              rfl
          · rw [interiorOkB_push]
            refine ⟨?_, fun _ => ?_⟩
            · rw [← interiorOkB_replaceLast init bk]
              exact hint2
            · rw [backB_append_singleton]
              exact copy_good bk hbef
          · rw [flatten_map_append_singleton, flatten_map_append_singleton,
              hcontsp, copy_eq]
            rfl
      · have hwf : bk.wasteful = false := by simpa using hw
        have heq : (Chain.mk cs sd (b0 :: br)).appendRawBlockCh b opts =
            ⟨cs + b.size, sd, (init ++ [bk]) ++ [b]⟩ := by
          simp only [Chain.appendRawBlockCh, hbk, httf, Bool.false_eq_true,
            if_false, hbe, hwf, Chain.csize, Chain.shortData, Chain.bs]
          rw [← hsplit]
        rw [heq]
        refine fin _ (by simp) ?_ ?_ ?_ ?_
        · rw [blocksSize_append, blocksSize_append, blocksSize_singleton,
            blocksSize_singleton]
          omega
        · rw [noTwoTinyB_append_singleton, hntt2, backB_append_singleton]
          simp only [Bool.true_and, Bool.or_eq_true, Bool.not_eq_true']
          right
          exact httf
        · rw [interiorOkB_push]
          refine ⟨hint2, fun _ => ?_⟩
          rw [backB_append_singleton]
          simp [goodB, hbef, hwf]
        · rw [flatten_map_append_singleton, flatten_map_append_singleton,
            hcontsp]

/-- `Chain::AppendRawBlock` preserves the invariant, adds the block's
size, and appends the block's bytes to the content. -/
theorem appendRawBlockCh_ok (c : Chain) (b : RawBlock) (opts : Options)
    (hok : ChainOk c) :
    ChainOk (c.appendRawBlockCh b opts) ∧
    (c.appendRawBlockCh b opts).csize = c.csize + b.size ∧
    (c.appendRawBlockCh b opts).content = c.content ++ b.data := by
  obtain ⟨cs, sd, bs⟩ := c
  cases bs with
  | nil => exact appendRawBlockCh_ok_short cs sd b opts hok
  | cons b0 br => exact appendRawBlockCh_ok_blocks cs sd b0 br b opts hok

end Riegeli

namespace Riegeli

/-- `Chain::PrependRawBlock` in short-data mode. -/
theorem prependRawBlockCh_ok_short (cs : Nat) (sd : Bytes) (b : RawBlock)
    (opts : Options) (hok : ChainOk ⟨cs, sd, []⟩) :
    ChainOk ((Chain.mk cs sd []).prependRawBlockCh b opts) ∧
    ((Chain.mk cs sd []).prependRawBlockCh b opts).csize = cs + b.size ∧
    ((Chain.mk cs sd []).prependRawBlockCh b opts).content =
      b.data ++ (Chain.mk cs sd []).content := by
  obtain ⟨h15, hsd⟩ := chainOk_dest_short _ hok rfl
  have hsb : (Chain.mk cs sd []).shortBytes.length = cs :=
    shortBytes_length _ hsd
  by_cases hsbe : (Chain.mk cs sd []).shortBytes.isEmpty = true
  · have hnil : (Chain.mk cs sd []).shortBytes = [] :=
      List.isEmpty_iff.mp hsbe
    have hcs0 : cs = 0 := by
      rw [hnil] at hsb
      simpa using hsb.symm
    have heq : (Chain.mk cs sd []).prependRawBlockCh b opts =
        ⟨cs + b.size, sd, [b]⟩ := by
      simp only [Chain.prependRawBlockCh, hsbe, Bool.not_true,
        Bool.false_eq_true, if_false, Chain.csize, Chain.shortData]
    rw [heq]
    refine ⟨chainOk_blocks _ _ _ (by simp) ?_ (noTwoTinyB_single b) rfl,
      rfl, ?_⟩
    · rw [blocksSize_singleton]
      show cs + b.size = b.size
      omega
    · rw [content_blocks _ _ _ (by simp), content_short, hnil]
      simp
  · have hsbef : (Chain.mk cs sd []).shortBytes.isEmpty = false := by
      simpa using hsbe
    by_cases hbt : b.tiny = true
    · -- merge short data with the tiny block
      set cap := newBlockCapacity cs cs b.size 0 opts with hcap
      have hmg : ((RawBlock.newInternal cap).prependBytes
          (Chain.mk cs sd []).shortBytes).prependBytes b.data =
          .internal (cap - cs - b.data.length)
            (b.data ++ (Chain.mk cs sd []).shortBytes) 0 false := by
        rw [newInternal_prependBytes2, hsb]
      have heq : (Chain.mk cs sd []).prependRawBlockCh b opts =
          ⟨cs + b.size, sd,
            [.internal (cap - cs - b.data.length)
              (b.data ++ (Chain.mk cs sd []).shortBytes) 0 false]⟩ := by
        simp only [Chain.prependRawBlockCh, hsbef, Bool.not_false, if_true,
          hbt, if_pos, Chain.csize, Chain.shortData, hcap, hmg]
      rw [heq]
      refine ⟨chainOk_blocks _ _ _ (by simp) ?_ (noTwoTinyB_single _) rfl,
        rfl, ?_⟩
      · rw [blocksSize_singleton]
        show cs + b.size = RawBlock.size _
        rw [RawBlock.size]
        show _ = (b.data ++ (Chain.mk cs sd []).shortBytes).length
        rw [List.length_append, hsb]
        show cs + b.size = b.size + cs
        omega
      · rw [content_blocks _ _ _ (by simp), content_short]
        simp [RawBlock.data]
    · -- copy short data to a real block, then attach at the back
      have hbtf : b.tiny = false := by simpa using hbt
      have hreal : (RawBlock.newInternal kMaxShortDataSize).appendBytes
          (Chain.mk cs sd []).shortBytes =
          .internal 0 (Chain.mk cs sd []).shortBytes
            (kMaxShortDataSize - cs) false := by
        rw [newInternal_appendBytes, hsb]
      have heq : (Chain.mk cs sd []).prependRawBlockCh b opts =
          ⟨cs + b.size, sd,
            [b, .internal 0 (Chain.mk cs sd []).shortBytes
              (kMaxShortDataSize - cs) false]⟩ := by
        simp only [Chain.prependRawBlockCh, hsbef, Bool.not_false, if_true,
          hbt, Bool.false_eq_true, if_false, Chain.csize, Chain.shortData,
          hreal]
      rw [heq]
      refine ⟨chainOk_blocks _ _ _ (by simp) ?_ ?_ rfl, rfl, ?_⟩
      · show cs + b.size = blocksSize _
        rw [blocksSize_cons2, blocksSize_singleton]
        have hrsz : (RawBlock.internal 0 (Chain.mk cs sd []).shortBytes
            (kMaxShortDataSize - cs) false).size = cs := by
          rw [RawBlock.size]
          show (Chain.mk cs sd []).shortBytes.length = cs
          exact hsb
        rw [hrsz]
        omega
      · rw [noTwoTinyB_cons2, noTwoTinyB_single, hbtf]
        simp
      · rw [content_blocks _ _ _ (by simp), content_short]
        simp [RawBlock.data]

/-- `Chain::PrependRawBlock` in blocks mode. -/
theorem prependRawBlockCh_ok_blocks (cs : Nat) (sd : Bytes) (b0 : RawBlock)
    (br : List RawBlock) (b : RawBlock) (opts : Options)
    (hok : ChainOk ⟨cs, sd, b0 :: br⟩) :
    ChainOk ((Chain.mk cs sd (b0 :: br)).prependRawBlockCh b opts) ∧
    ((Chain.mk cs sd (b0 :: br)).prependRawBlockCh b opts).csize =
      cs + b.size ∧
    ((Chain.mk cs sd (b0 :: br)).prependRawBlockCh b opts).content =
      b.data ++ (Chain.mk cs sd (b0 :: br)).content := by
  obtain ⟨hsz, hntt, hint⟩ := chainOk_dest_blocks _ hok (by simp)
  simp only [Chain.csize, Chain.bs] at hsz hntt hint
  have hsum : b0.size + blocksSize br = cs := by
    rw [blocksSize_cons2] at hsz
    omega
  have hmid : midGoodB br = true := by
    rw [← interiorOkB_cons b0]
    exact hint
  have hcontsp : (Chain.mk cs sd (b0 :: br)).content =
      b0.data ++ (br.map RawBlock.data).flatten := by
    rw [content_blocks _ _ _ (by simp)]
    simp
  have fin : ∀ newbs : List RawBlock, newbs ≠ [] →
      blocksSize newbs = cs + b.size →
      noTwoTinyB newbs = true → interiorOkB newbs = true →
      (newbs.map RawBlock.data).flatten =
        b.data ++ (Chain.mk cs sd (b0 :: br)).content →
      ChainOk (Chain.mk (cs + b.size) sd newbs) ∧
      (Chain.mk (cs + b.size) sd newbs).csize = cs + b.size ∧
      (Chain.mk (cs + b.size) sd newbs).content =
        b.data ++ (Chain.mk cs sd (b0 :: br)).content := by
    intro newbs hne hs hn hi hc
    refine ⟨chainOk_blocks _ _ _ hne hs.symm hn hi, rfl, ?_⟩
    rw [content_blocks _ _ _ hne, hc]
  by_cases htt : (b0.tiny && b.tiny) = true
  · by_cases hca : b0.canPrepend b.size = true
    · have heq : (Chain.mk cs sd (b0 :: br)).prependRawBlockCh b opts =
          ⟨cs + b.size, sd, b0.prependBytes b.data :: br⟩ := by
        simp only [Chain.prependRawBlockCh, frontB_cons, htt, if_pos, hca,
          Chain.csize, Chain.shortData, Chain.bs, List.tail_cons]
      rw [heq]
      refine fin _ (by simp) ?_ ?_ ?_ ?_
      · rw [blocksSize_cons2, prependBytes_size]
        show RawBlock.size b + b0.size + blocksSize br = cs + b.size
        omega
      · exact noTwoTinyB_replaceFirst b0 _ br hntt
          (by rw [prependBytes_size]; omega)
      · rw [interiorOkB_cons]
        exact hmid
      · simp only [List.map_cons, List.flatten_cons, prependBytes_data]
        rw [hcontsp, List.append_assoc]
    · have hcaf : b0.canPrepend b.size = false := by simpa using hca
      set cap := newBlockCapacity cs b0.size b.size 0 opts with hcap
      have hmg : ((RawBlock.newInternal cap).prependBytes
          b0.data).prependBytes b.data =
          .internal (cap - b0.data.length - b.data.length)
            (b.data ++ b0.data) 0 false := by
        rw [newInternal_prependBytes2]
      have heq : (Chain.mk cs sd (b0 :: br)).prependRawBlockCh b opts =
          ⟨cs + b.size, sd,
            .internal (cap - b0.data.length - b.data.length)
              (b.data ++ b0.data) 0 false :: br⟩ := by
        simp only [Chain.prependRawBlockCh, frontB_cons, htt, if_pos, hcaf,
          Bool.false_eq_true, if_false, Chain.csize, Chain.shortData,
          Chain.bs, hcap, hmg, List.tail_cons]
      rw [heq]
      have hmsz : (RawBlock.internal
          (cap - b0.data.length - b.data.length) (b.data ++ b0.data) 0
          false).size = b.size + b0.size := by
        rw [RawBlock.size]
        show (b.data ++ b0.data).length = _
        rw [List.length_append]
        rfl
      refine fin _ (by simp) ?_ ?_ ?_ ?_
      · rw [blocksSize_cons2, hmsz]
        omega
      · exact noTwoTinyB_replaceFirst b0 _ br hntt (by rw [hmsz]; omega)
      · rw [interiorOkB_cons]
        exact hmid
      · simp only [List.map_cons, List.flatten_cons]
        rw [hcontsp]
        show b.data ++ b0.data ++ _ = _
        rw [List.append_assoc]
  · have httf : (b0.tiny && b.tiny) = false := by simpa using htt
    by_cases hbe : b0.isEmpty = true
    · have heq : (Chain.mk cs sd (b0 :: br)).prependRawBlockCh b opts =
          ⟨cs + b.size, sd, b :: br⟩ := by
        simp only [Chain.prependRawBlockCh, frontB_cons, httf,
          Bool.false_eq_true, if_false, hbe, if_pos, Chain.csize,
          Chain.shortData, Chain.bs, List.tail_cons]
      rw [heq]
      have hbk0 : b0.size = 0 := by
        simpa [RawBlock.isEmpty] using hbe
      refine fin _ (by simp) ?_ ?_ ?_ ?_
      · rw [blocksSize_cons2]
        omega
      · exact noTwoTinyB_replaceFirst b0 b br hntt (by omega)
      · rw [interiorOkB_cons]
        exact hmid
      · simp only [List.map_cons, List.flatten_cons]
        rw [hcontsp, isEmpty_data b0 hbe]
        simp
    · have hbef : b0.isEmpty = false := by simpa using hbe
      by_cases hw : b0.wasteful = true
      · by_cases hg : (b0.canPrepend b.size &&
            decide (b.size ≤ kAllocationCost + b0.size)) = true
        · have heq : (Chain.mk cs sd (b0 :: br)).prependRawBlockCh b
              opts = ⟨cs + b.size, sd, b0.prependBytes b.data :: br⟩ := by
            simp only [Chain.prependRawBlockCh, frontB_cons, httf,
              Bool.false_eq_true, if_false, hbe, hw, if_pos, hg,
              Chain.csize, Chain.shortData, Chain.bs, List.tail_cons]
          rw [heq]
          refine fin _ (by simp) ?_ ?_ ?_ ?_
          · rw [blocksSize_cons2, prependBytes_size]
            show RawBlock.size b + b0.size + blocksSize br = cs + b.size
            omega
          · exact noTwoTinyB_replaceFirst b0 _ br hntt
              (by rw [prependBytes_size]; omega)
          · rw [interiorOkB_cons]
            exact hmid
          · simp only [List.map_cons, List.flatten_cons, prependBytes_data]
            rw [hcontsp, List.append_assoc]
        · have hgf : (b0.canPrepend b.size &&
              decide (b.size ≤ kAllocationCost + b0.size)) = false := by
            simpa using hg
          have heq : (Chain.mk cs sd (b0 :: br)).prependRawBlockCh b
              opts = ⟨cs + b.size, sd, b :: b0.copy :: br⟩ := by
            simp only [Chain.prependRawBlockCh, frontB_cons, httf,
              Bool.false_eq_true, if_false, hbe, hw, if_pos, hgf,
              Chain.csize, Chain.shortData, Chain.bs, List.tail_cons]
          rw [heq]
          have hnttc : noTwoTinyB (b0.copy :: br) = true :=
            noTwoTinyB_replaceFirst b0 b0.copy br hntt (by rw [copy_size])
          refine fin _ (by simp) ?_ ?_ ?_ ?_
          · rw [blocksSize_cons2, blocksSize_cons2, copy_size]
            omega
          · rw [noTwoTinyB_cons2, hnttc]
            have : ¬(b.tiny = true ∧ (b0.copy).tiny = true) := by
              rw [copy_tiny]
              intro hcon
              rw [hcon.1, hcon.2] at httf
              simp at httf
            simp only [Bool.and_eq_true, Bool.not_eq_true']
            by_cases hx : b.tiny = true
            · by_cases hy : (b0.copy).tiny = true
              · exact absurd ⟨hx, hy⟩ this
              · rw [hx, Bool.eq_false_iff.mpr hy]
                exact ⟨rfl, trivial⟩
            · rw [Bool.eq_false_iff.mpr hx]
              exact ⟨rfl, trivial⟩
          · rw [interiorOkB_cons]
            exact midGoodB_cons_of _ _ (copy_good b0 hbef) hmid
          · simp only [List.map_cons, List.flatten_cons]
            rw [hcontsp, copy_eq]
            rfl
      · have hwf : b0.wasteful = false := by simpa using hw
        have heq : (Chain.mk cs sd (b0 :: br)).prependRawBlockCh b opts =
            ⟨cs + b.size, sd, b :: b0 :: br⟩ := by
          simp only [Chain.prependRawBlockCh, frontB_cons, httf,
            Bool.false_eq_true, if_false, hbe, hwf, Chain.csize,
            Chain.shortData, Chain.bs]
        rw [heq]
        refine fin _ (by simp) ?_ ?_ ?_ ?_
        · rw [blocksSize_cons2, blocksSize_cons2]
          omega
        · rw [noTwoTinyB_cons2, hntt]
          simp only [Bool.and_eq_true, Bool.not_eq_true']
          by_cases hx : b.tiny = true
          · have hy : b0.tiny = false := by
              by_contra hyy
              have hyt : b0.tiny = true := by simpa using hyy
              rw [hyt, hx] at httf
              simp at httf
            rw [hx, hy]
            exact ⟨rfl, trivial⟩
          · rw [Bool.eq_false_iff.mpr hx]
            exact ⟨rfl, trivial⟩
        · rw [interiorOkB_cons]
          refine midGoodB_cons_of _ _ ?_ hmid
          simp [goodB, hbef, hwf]
        · simp only [List.map_cons, List.flatten_cons]
          rw [hcontsp]

/-- `Chain::PrependRawBlock` preserves the invariant, adds the block's
size, and prepends the block's bytes to the content. -/
theorem prependRawBlockCh_ok (c : Chain) (b : RawBlock) (opts : Options)
    (hok : ChainOk c) :
    ChainOk (c.prependRawBlockCh b opts) ∧
    (c.prependRawBlockCh b opts).csize = c.csize + b.size ∧
    (c.prependRawBlockCh b opts).content = b.data ++ c.content := by
  obtain ⟨cs, sd, bs⟩ := c
  cases bs with
  | nil => exact prependRawBlockCh_ok_short cs sd b opts hok
  | cons b0 br => exact prependRawBlockCh_ok_blocks cs sd b0 br b opts hok

end Riegeli

namespace Riegeli

theorem setShared_size (b : RawBlock) : b.setShared.size = b.size := by
  cases b <;> rfl

theorem setShared_data (b : RawBlock) : b.setShared.data = b.data := by
  cases b <;> rfl

theorem setShared_tiny (b : RawBlock) (e : Nat) :
    b.setShared.tiny e = b.tiny e := by
  simp [RawBlock.tiny, setShared_size]

theorem setShared_isEmpty (b : RawBlock) :
    b.setShared.isEmpty = b.isEmpty := by
  simp [RawBlock.isEmpty, setShared_size]

theorem setShared_wasteful (b : RawBlock) (e : Nat) :
    b.setShared.wasteful e = b.wasteful e := by
  cases b with
  | internal s d a sh =>
      simp [RawBlock.setShared, RawBlock.wasteful, RawBlock.capacity,
        RawBlock.size, RawBlock.data]
  | external d sh => rfl

theorem setShared_good (b : RawBlock) : goodB b.setShared = goodB b := by
  simp [goodB, setShared_isEmpty, setShared_wasteful]

theorem setSharedMap_blocksSize (l : List RawBlock) :
    blocksSize (l.map RawBlock.setShared) = blocksSize l := by
  induction l with
  | nil => rfl
  | cons x t ih =>
      simp only [List.map_cons, blocksSize_cons2, ih, setShared_size]

theorem setSharedMap_flatten (l : List RawBlock) :
    ((l.map RawBlock.setShared).map RawBlock.data).flatten =
      (l.map RawBlock.data).flatten := by
  induction l with
  | nil => rfl
  | cons x t ih =>
      simp only [List.map_cons, List.flatten_cons, ih, setShared_data]

theorem setSharedMap_ntt (l : List RawBlock) :
    noTwoTinyB (l.map RawBlock.setShared) = noTwoTinyB l := by
  induction l with
  | nil => rfl
  | cons x t ih =>
      cases t with
      | nil => rfl
      | cons y u =>
          simp only [List.map_cons] at ih ⊢
          rw [noTwoTinyB_cons2, noTwoTinyB_cons2, ih, setShared_tiny,
            setShared_tiny]

theorem setSharedMap_midGoodB (l : List RawBlock) :
    midGoodB (l.map RawBlock.setShared) = midGoodB l := by
  induction l with
  | nil => rfl
  | cons x t ih =>
      cases t with
      | nil => rfl
      | cons y u =>
          simp only [List.map_cons] at ih ⊢
          rw [midGoodB_cons2, midGoodB_cons2, ih, setShared_good]

theorem setSharedMap_frontTiny (l : List RawBlock) :
    (frontB (l.map RawBlock.setShared)).tiny = (frontB l).tiny := by
  cases l with
  | nil => rfl
  | cons x t =>
      simp only [List.map_cons, frontB_cons]
      rw [setShared_tiny]

theorem midGoodB_of_allGoodB (l : List RawBlock)
    (h : allGoodB l = true) : midGoodB l = true := by
  induction l with
  | nil => rfl
  | cons x t ih =>
      cases t with
      | nil => rfl
      | cons y u =>
          simp only [allGoodB, List.all_cons, Bool.and_eq_true] at h
          rw [midGoodB_cons2, h.1]
          simp only [Bool.true_and]
          exact ih (by simp [allGoodB, h.2.1, h.2.2])

theorem interiorOkB_of_midGoodB (l : List RawBlock)
    (h : midGoodB l = true) : interiorOkB l = true := by
  cases l with
  | nil => rfl
  | cons x t =>
      rw [interiorOkB_cons]
      cases t with
      | nil => rfl
      | cons y u =>
          rw [midGoodB_cons2, Bool.and_eq_true] at h
          exact h.2

theorem noTwoTinyB_tail (a : RawBlock) (t : List RawBlock)
    (h : noTwoTinyB (a :: t) = true) : noTwoTinyB t = true := by
  cases t with
  | nil => rfl
  | cons y u =>
      rw [noTwoTinyB_cons2, Bool.and_eq_true] at h
      exact h.2

theorem noTwoTinyB_dropLast_of (init : List RawBlock) (bk : RawBlock)
    (h : noTwoTinyB (init ++ [bk]) = true) : noTwoTinyB init = true := by
  rw [noTwoTinyB_append_singleton, Bool.and_eq_true] at h
  exact h.1

theorem allGoodB_append (xs ys : List RawBlock) :
    allGoodB (xs ++ ys) = (allGoodB xs && allGoodB ys) := by
  simp [allGoodB]

theorem allGoodB_tail_push (init : List RawBlock) (x : RawBlock)
    (h1 : allGoodB init.tail = true) (h2 : init ≠ [] → goodB x = true) :
    allGoodB ((init ++ [x]).tail) = true := by
  cases init with
  | nil => rfl
  | cons i0 it =>
      simp only [List.cons_append, List.tail_cons]
      rw [allGoodB_append]
      simp only [List.tail_cons] at h1
      rw [h1]
      simp only [Bool.true_and, allGoodB, List.all_cons, List.all_nil,
        Bool.and_true]
      exact h2 (by simp)

theorem allGoodB_tail_of_interior (init : List RawBlock) (bk : RawBlock)
    (h : interiorOkB (init ++ [bk]) = true) : allGoodB init.tail = true := by
  cases init with
  | nil => rfl
  | cons i0 it =>
      simp only [List.cons_append, interiorOkB_cons] at h
      rw [midGoodB_append_singleton] at h
      simpa using h

theorem allGoodB_of_mid_back (l : List RawBlock)
    (h1 : midGoodB l = true) (h2 : l ≠ [] → goodB (backB l) = true) :
    allGoodB l = true := by
  induction l with
  | nil => rfl
  | cons x t ih =>
      cases t with
      | nil =>
          simp only [allGoodB, List.all_cons, List.all_nil, Bool.and_true]
          have := h2 (by simp)
          simpa [backB] using this
      | cons y u =>
          rw [midGoodB_cons2, Bool.and_eq_true] at h1
          simp only [allGoodB, List.all_cons, Bool.and_eq_true]
          refine ⟨h1.1, ?_⟩
          have hb : backB (x :: y :: u) = backB (y :: u) := by
            simp [backB]
          have := ih h1.2 (fun _ => by rw [← hb]; exact h2 (by simp))
          simpa [allGoodB] using this

theorem empty_tiny (b : RawBlock) (h : b.isEmpty = true) :
    b.tiny = true := by
  simp only [RawBlock.isEmpty, decide_eq_true_eq] at h
  simp only [RawBlock.tiny, decide_eq_true_eq, h, kDefaultMinBlockSize]
  omega

theorem tiny_of_le (x y : RawBlock) (h : y.size ≤ x.size)
    (ht : x.tiny = true) : y.tiny = true := by
  simp only [RawBlock.tiny, decide_eq_true_eq] at ht ⊢
  omega

theorem seam_from_ntt (sfront : RawBlock) (srest : List RawBlock)
    (hntt : noTwoTinyB (sfront :: srest) = true) (x : RawBlock)
    (hsz : sfront.size ≤ x.size) :
    srest = [] ∨ (x.tiny && (frontB srest).tiny) = false := by
  cases srest with
  | nil => exact Or.inl rfl
  | cons s1 st =>
      right
      rw [noTwoTinyB_cons2, Bool.and_eq_true] at hntt
      by_cases hx : x.tiny = true
      · have hsf : sfront.tiny = true := tiny_of_le x sfront hsz hx
        have hs1 : s1.tiny = false := by
          have := hntt.1
          rw [hsf] at this
          simpa using this
        rw [frontB_cons, hx, hs1]
        rfl
      · rw [Bool.eq_false_iff.mpr hx]
        rfl

theorem interiorOkB_of_append_singleton (init : List RawBlock)
    (bk : RawBlock) (h : interiorOkB (init ++ [bk]) = true) :
    interiorOkB init = true := by
  cases init with
  | nil => rfl
  | cons i0 it =>
      simp only [List.cons_append, interiorOkB_cons] at h ⊢
      rw [midGoodB_append_singleton] at h
      exact midGoodB_of_allGoodB it (by simpa using h)

theorem appendBytes_wasteful_ca (b : RawBlock) (src : Bytes) (e : Nat)
    (hca : b.canAppend src.length = true) :
    (b.appendBytes src).wasteful e = b.wasteful (src.length + e) := by
  cases b with
  | internal sb d sa sh =>
      simp only [RawBlock.canAppend, RawBlock.isMutable, RawBlock.isInternal,
        RawBlock.isShared, RawBlock.isEmpty, RawBlock.size, RawBlock.data,
        RawBlock.capacity, RawBlock.spaceAfter, Bool.and_eq_true,
        Bool.not_eq_true', decide_eq_true_eq, ge_iff_le] at hca
      cases d with
      | nil =>
          have hle : src.length ≤ sb + sa := by
            have := hca.2
            simp at this
            omega
          simp only [RawBlock.appendBytes, List.isEmpty_nil, if_pos]
          simp only [RawBlock.wasteful, RawBlock.capacity, RawBlock.size,
            RawBlock.data, List.length_nil]
          congr 1
          · omega
          · omega
      | cons x t =>
          have hle : src.length ≤ sa := by
            have := hca.2
            simpa using this
          simp only [RawBlock.appendBytes, List.isEmpty_cons,
            Bool.false_eq_true, if_false]
          simp only [RawBlock.wasteful, RawBlock.capacity, RawBlock.size,
            RawBlock.data, List.length_cons, List.length_append]
          congr 1
          · omega
          · omega
  | external d sh =>
      simp [RawBlock.canAppend, RawBlock.isMutable, RawBlock.isInternal]
        at hca

/-- The generic finisher for the chain-concatenation operations: gluing a
left block list `A` (the adjusted destination) and a right block list
`B` (the remaining source blocks) yields a chain satisfying the
invariant, provided the seam and interior conditions hold. -/
theorem concat_finish (csF : Nat) (sd : Bytes) (A B : List RawBlock)
    (hs : blocksSize A + blocksSize B = csF)
    (hnttA : noTwoTinyB A = true) (hnttB : noTwoTinyB B = true)
    (hseam : A = [] ∨ B = [] ∨ ((backB A).tiny && (frontB B).tiny) = false)
    (hintA : interiorOkB A = true)
    (hA : B ≠ [] → allGoodB A.tail = true)
    (hB : A ≠ [] → midGoodB B = true)
    (hintB : interiorOkB B = true) :
    ChainOk ⟨csF, sd, A ++ B⟩ ∧
    (Chain.mk csF sd (A ++ B)).content =
      (A.map RawBlock.data).flatten ++ (B.map RawBlock.data).flatten := by
  by_cases hn : A ++ B = []
  · have hA0 : A = [] := by
      cases A with
      | nil => rfl
      | cons x t => simp at hn
    have hB0 : B = [] := by
      subst hA0
      simpa using hn
    subst hA0
    subst hB0
    have hcs : csF = 0 := by
      rw [← hs]
      rfl
    subst hcs
    refine ⟨⟨?_, ?_⟩, ?_⟩
    · show (0 : Nat) ≤ kMaxShortDataSize
      norm_num [kMaxShortDataSize]
    · show (0 : Nat) ≤ sd.length
      omega
    · simp [Chain.content, Chain.shortBytes]
  · refine ⟨chainOk_blocks _ _ _ hn ?_ ?_ ?_, ?_⟩
    · rw [blocksSize_append, hs]
    · rw [noTwoTinyB_append, hnttA, hnttB]
      simp only [Bool.true_and]
      rcases hseam with h | h | h
      · subst h
        simp
      · subst h
        simp
      · rw [h]
        simp
    · cases A with
      | nil =>
          simp only [List.nil_append]
          exact hintB
      | cons a at2 =>
          simp only [List.cons_append, interiorOkB_cons]
          cases B with
          | nil =>
              simp only [List.append_nil]
              simp only [interiorOkB_cons] at hintA
              exact hintA
          | cons b0 bt =>
              rw [midGoodB_append _ _ (by simp)]
              have hA2 := hA (by simp)
              simp only [List.tail_cons] at hA2
              rw [hA2, hB (by simp)]
              rfl
    · rw [content_blocks _ _ _ hn]
      simp

end Riegeli

namespace Riegeli

theorem setSharedMap_interiorOkB (l : List RawBlock) :
    interiorOkB (l.map RawBlock.setShared) = interiorOkB l := by
  cases l with
  | nil => rfl
  | cons x t =>
      simp only [List.map_cons, interiorOkB_cons]
      exact setSharedMap_midGoodB t

theorem goodB_exact (d : Bytes) (hne : d ≠ []) :
    goodB (RawBlock.internal 0 d 0 false) = true := by
  simp only [goodB, Bool.and_eq_true, Bool.not_eq_true']
  constructor
  · simp only [RawBlock.isEmpty, RawBlock.size, RawBlock.data,
      decide_eq_false_iff_not]
    intro h
    exact hne (List.length_eq_zero.mp h)
  · exact wasteful_exact_false d

/-- Attaching the remaining source blocks (shared or stolen) behind the
adjusted destination blocks. -/
theorem attach_shared (csF : Nat) (sdA : Bytes) (A R0 : List RawBlock)
    (share : Bool)
    (hs : blocksSize A + blocksSize R0 = csF)
    (hnttA : noTwoTinyB A = true) (hnttR : noTwoTinyB R0 = true)
    (hseam : A = [] ∨ R0 = [] ∨
      ((backB A).tiny && (frontB R0).tiny) = false)
    (hintA : interiorOkB A = true)
    (hA : R0 ≠ [] → allGoodB A.tail = true)
    (hB : A ≠ [] → midGoodB R0 = true)
    (hintR : interiorOkB R0 = true) :
    ChainOk ⟨csF, sdA,
      A ++ (if share then R0.map RawBlock.setShared else R0)⟩ ∧
    (Chain.mk csF sdA
      (A ++ (if share then R0.map RawBlock.setShared else R0))).content =
      (A.map RawBlock.data).flatten ++ (R0.map RawBlock.data).flatten := by
  cases share
  · simpa using concat_finish csF sdA A R0 hs hnttA hnttR hseam hintA hA
      hB hintR
  · simp only [if_pos]
    have hmain := concat_finish csF sdA A (R0.map RawBlock.setShared)
      (by rw [setSharedMap_blocksSize]; exact hs)
      hnttA (by rw [setSharedMap_ntt]; exact hnttR)
      (by
        rcases hseam with h | h | h
        · exact Or.inl h
        · exact Or.inr (Or.inl (by rw [h]; rfl))
        · refine Or.inr (Or.inr ?_)
          rw [setSharedMap_frontTiny]
          exact h)
      hintA
      (fun hne => hA (by
        intro h0
        exact hne (by rw [h0]; rfl)))
      (fun hne => by rw [setSharedMap_midGoodB]; exact hB hne)
      (by rw [setSharedMap_interiorOkB]; exact hintR)
    refine ⟨hmain.1, ?_⟩
    rw [hmain.2, setSharedMap_flatten]

end Riegeli

namespace Riegeli

/-- `Chain::AppendChain` (both ownership instantiations) preserves the
invariant, adds the source's size, and appends the source's content. -/
theorem appendChainOp_ok (c src : Chain) (share : Bool) (opts : Options)
    (hok : ChainOk c) (hsok : ChainOk src) :
    ChainOk (c.appendChainOp src share opts) ∧
    (c.appendChainOp src share opts).csize = c.csize + src.csize ∧
    (c.appendChainOp src share opts).content =
      c.content ++ src.content := by
  obtain ⟨scs, ssd, sbs⟩ := src
  cases sbs with
  | nil =>
      obtain ⟨hs15, hssd⟩ := chainOk_dest_short _ hsok rfl
      have hsb : (Chain.mk scs ssd []).shortBytes.length = scs :=
        shortBytes_length _ hssd
      have h := appendSV_ok c ((Chain.mk scs ssd []).shortBytes) opts hok
      have heq : c.appendChainOp (Chain.mk scs ssd []) share opts =
          c.appendSV (Chain.mk scs ssd []).shortBytes opts := rfl
      rw [heq]
      refine ⟨h.1, ?_, ?_⟩
      · rw [h.2.1, hsb]
      · rw [h.2.2, content_short]
  | cons sfront srest =>
      obtain ⟨hssz, hsntt, hsint⟩ := chainOk_dest_blocks _ hsok (by simp)
      simp only [Chain.csize, Chain.bs] at hssz hsntt hsint
      have hssum : sfront.size + blocksSize srest = scs := by
        rw [blocksSize_cons2] at hssz
        omega
      have hsmid : midGoodB srest = true := by
        rw [← interiorOkB_cons sfront]
        exact hsint
      have hsnttT : noTwoTinyB srest = true := noTwoTinyB_tail _ _ hsntt
      have hsintT : interiorOkB srest = true :=
        interiorOkB_of_midGoodB srest hsmid
      have hscont : (Chain.mk scs ssd (sfront :: srest)).content =
          sfront.data ++ (srest.map RawBlock.data).flatten := by
        rw [content_blocks _ _ _ (by simp)]
        simp
      -- the source's seam: a block at least as large as `sfront` may
      -- stand in front of the remaining source blocks
      have hseamS : ∀ x : RawBlock, sfront.size ≤ x.size →
          srest = [] ∨ (x.tiny && (frontB srest).tiny) = false :=
        fun x hx => seam_from_ntt sfront srest hsntt x hx
      obtain ⟨ccs, csd, cbs⟩ := c
      cases cbs with
      | nil =>
          obtain ⟨hc15, hcsd⟩ := chainOk_dest_short _ hok rfl
          have hcb : (Chain.mk ccs csd []).shortBytes.length = ccs :=
            shortBytes_length _ hcsd
          have hccont : (Chain.mk ccs csd []).content =
              (Chain.mk ccs csd []).shortBytes := content_short ccs csd
          by_cases hc1 : (sfront.tiny ||
              (!srest.isEmpty && sfront.wasteful)) = true
          · by_cases hc2 : (!(Chain.mk ccs csd []).shortBytes.isEmpty ||
                !sfront.isEmpty) = true
            · -- merge short data and the first source block
              set capSh := if srest.isEmpty then
                  newBlockCapacity ccs ccs
                    (max sfront.size (kMaxShortDataSize - ccs)) 0 opts
                else max (ccs + sfront.size) kMaxShortDataSize
                with hcapSh
              have hmg : ((RawBlock.newInternal capSh).appendBytes
                  (Chain.mk ccs csd []).shortBytes).appendBytes
                  sfront.data =
                  .internal 0 ((Chain.mk ccs csd []).shortBytes ++
                    sfront.data)
                    (capSh - ccs - sfront.data.length) false := by
                rw [newInternal_appendBytes2, hcb]
              set mg : RawBlock := .internal 0
                ((Chain.mk ccs csd []).shortBytes ++ sfront.data)
                (capSh - ccs - sfront.data.length) false with hmgd
              have hmgsz : mg.size = ccs + sfront.size := by
                rw [hmgd, RawBlock.size]
                show ((Chain.mk ccs csd []).shortBytes ++
                  sfront.data).length = _
                rw [List.length_append, hcb]
                rfl
              have heq : (Chain.mk ccs csd []).appendChainOp
                  (Chain.mk scs ssd (sfront :: srest)) share opts =
                  ⟨ccs + scs, csd, [mg] ++
                    (if share then srest.map RawBlock.setShared
                     else srest)⟩ := by
                simp only [Chain.appendChainOp, hc1, hc2, if_pos, if_true,
                  Chain.csize, Chain.bs, Chain.shortData, ← hcapSh, hmg,
                  ← hmgd]
              rw [heq]
              have hat := attach_shared (ccs + scs) csd [mg] srest share
                (by
                  rw [blocksSize_singleton, hmgsz]
                  omega)
                (noTwoTinyB_single mg) hsnttT
                (by
                  rcases hseamS mg (by omega) with h | h
                  · exact Or.inr (Or.inl h)
                  · exact Or.inr (Or.inr h))
                rfl (fun _ => rfl) (fun _ => hsmid) hsintT
              refine ⟨hat.1, rfl, ?_⟩
              rw [hat.2, hscont]
              show mg.data ++ [] ++ _ = _
              rw [hmgd]
              show (Chain.mk ccs csd []).shortBytes ++ sfront.data ++
                [] ++ _ = _
              rw [hccont, List.append_nil, List.append_assoc]
            · -- both the short data and the first source block are empty
              have hc2f : ((Chain.mk ccs csd []).shortBytes.isEmpty =
                  true) ∧ sfront.isEmpty = true := by
                simp only [Bool.or_eq_true, Bool.not_eq_true', not_or]
                  at hc2
                exact ⟨by simpa using hc2.1, by simpa using hc2.2⟩
              have hcs0 : ccs = 0 := by
                have := List.isEmpty_iff.mp hc2f.1
                rw [this] at hcb
                simpa using hcb.symm
              have hsf0 : sfront.size = 0 := by
                simpa [RawBlock.isEmpty] using hc2f.2
              have hsfd : sfront.data = [] := isEmpty_data sfront hc2f.2
              have heq : (Chain.mk ccs csd []).appendChainOp
                  (Chain.mk scs ssd (sfront :: srest)) share opts =
                  ⟨ccs + scs, csd, [] ++
                    (if share then srest.map RawBlock.setShared
                     else srest)⟩ := by
                simp only [Chain.appendChainOp, hc1, hc2, if_pos, if_true,
                  Bool.false_eq_true, if_false, Chain.csize, Chain.bs,
                  Chain.shortData]
              rw [heq]
              have hat := attach_shared (ccs + scs) csd [] srest share
                (by
                  rw [blocksSize_nil]
                  omega)
                noTwoTinyB_nil hsnttT (Or.inl rfl) rfl
                (fun _ => rfl) (fun hne => absurd rfl hne) hsintT
              refine ⟨hat.1, rfl, ?_⟩
              rw [hat.2, hscont, hccont, List.isEmpty_iff.mp hc2f.1, hsfd]
              simp
          · have hc1f : (sfront.tiny ||
                (!srest.isEmpty && sfront.wasteful)) = false := by
              simpa using hc1
            have hsftf : sfront.tiny = false := by
              simp only [Bool.or_eq_false_iff] at hc1f
              exact hc1f.1
            have hsfgood : srest ≠ [] → goodB sfront = true := by
              intro hne
              simp only [Bool.or_eq_false_iff, Bool.and_eq_false_iff] at hc1f
              have hw : sfront.wasteful = false := by
                rcases hc1f.2 with h | h
                · exfalso
                  cases srest with
                  | nil => exact hne rfl
                  | cons a t => simp at h
                · exact h
              have hnemp : sfront.isEmpty = false := by
                by_contra hx
                have hx2 : sfront.isEmpty = true := by simpa using hx
                rw [empty_tiny sfront hx2] at hsftf
                simp at hsftf
              simp [goodB, hnemp, hw]
            have hmidR : midGoodB (sfront :: srest) = true := by
              cases srest with
              | nil => rfl
              | cons a t =>
                  rw [midGoodB_cons2, hsfgood (by simp), hsmid]
                  rfl
            by_cases hc3 : ccs = 0
            · have heq : (Chain.mk ccs csd []).appendChainOp
                  (Chain.mk scs ssd (sfront :: srest)) share opts =
                  ⟨ccs + scs, csd, [] ++
                    (if share then
                      (sfront :: srest).map RawBlock.setShared
                     else sfront :: srest)⟩ := by
                simp only [Chain.appendChainOp, hc1f, Bool.false_eq_true,
                  if_false, Chain.csize, hc3, if_neg, Chain.bs,
                  Chain.shortData]
                simp
              rw [heq]
              have hat := attach_shared (ccs + scs) csd []
                (sfront :: srest) share
                (by
                  rw [blocksSize_nil, blocksSize_cons2]
                  omega)
                noTwoTinyB_nil hsntt (Or.inl rfl) rfl (fun _ => rfl)
                (fun hne => absurd rfl hne) hsint
              refine ⟨hat.1, rfl, ?_⟩
              rw [hat.2, hscont, hccont]
              have hsbnil : (Chain.mk ccs csd []).shortBytes = [] := by
                apply List.length_eq_zero.mp
                rw [hcb, hc3]
              rw [hsbnil]
              simp
            · -- copy short data to a real block, then attach everything
              have hreal : (RawBlock.newInternal
                  kMaxShortDataSize).appendBytes
                  (Chain.mk ccs csd []).shortBytes =
                  .internal 0 (Chain.mk ccs csd []).shortBytes
                    (kMaxShortDataSize - ccs) false := by
                rw [newInternal_appendBytes, hcb]
              set rb : RawBlock := .internal 0
                (Chain.mk ccs csd []).shortBytes
                (kMaxShortDataSize - ccs) false with hrbd
              have hrbsz : rb.size = ccs := by
                rw [hrbd, RawBlock.size]
                show (Chain.mk ccs csd []).shortBytes.length = ccs
                exact hcb
              have heq : (Chain.mk ccs csd []).appendChainOp
                  (Chain.mk scs ssd (sfront :: srest)) share opts =
                  ⟨ccs + scs, csd, [rb] ++
                    (if share then
                      (sfront :: srest).map RawBlock.setShared
                     else sfront :: srest)⟩ := by
                simp only [Chain.appendChainOp, hc1f, Bool.false_eq_true,
                  if_false, Chain.csize, Chain.bs, Chain.shortData, hreal,
                  ← hrbd]
                rw [if_pos hc3]
                rfl
              rw [heq]
              have hat := attach_shared (ccs + scs) csd [rb]
                (sfront :: srest) share
                (by
                  rw [blocksSize_singleton, hrbsz, blocksSize_cons2]
                  omega)
                (noTwoTinyB_single rb) hsntt
                (by
                  refine Or.inr (Or.inr ?_)
                  rw [frontB_cons]
                  simp [hsftf])
                rfl (fun _ => rfl) (fun _ => hmidR) hsint
              refine ⟨hat.1, rfl, ?_⟩
              rw [hat.2, hscont, hccont]
              simp [hrbd, RawBlock.data]
      | cons b0 br =>
          obtain ⟨hcsz, hcntt, hcint⟩ := chainOk_dest_blocks _ hok (by simp)
          simp only [Chain.csize, Chain.bs] at hcsz hcntt hcint
          obtain ⟨init, bk, hsplit⟩ : ∃ i k, b0 :: br = i ++ [k] :=
            ⟨(b0 :: br).dropLast, backB (b0 :: br),
              bs_eq_dropLast_back _ (by simp)⟩
          have hbk2 : backB (b0 :: br) = bk := by
            rw [hsplit, backB_append_singleton]
          have hdrop : (b0 :: br).dropLast = init := by
            rw [hsplit]
            exact List.dropLast_concat
          have hsum : blocksSize init + bk.size = ccs := by
            rw [hsplit, blocksSize_append, blocksSize_singleton] at hcsz
            omega
          have hntt2 : noTwoTinyB (init ++ [bk]) = true := by
            rw [← hsplit]
            exact hcntt
          have hint2 : interiorOkB (init ++ [bk]) = true := by
            rw [← hsplit]
            exact hcint
          have htail : allGoodB init.tail = true :=
            allGoodB_tail_of_interior init bk hint2
          have hccontB : (Chain.mk ccs csd (b0 :: br)).content =
              ((b0 :: br).map RawBlock.data).flatten :=
            content_blocks _ _ _ (by simp)
          have hcont2 : (Chain.mk ccs csd (b0 :: br)).content =
              (init.map RawBlock.data).flatten ++ bk.data := by
            rw [hccontB, hsplit, flatten_map_append_singleton]
          have hsetb : ∀ x : RawBlock, setBackL (b0 :: br) x =
              init ++ [x] := fun x => by
            unfold setBackL
            rw [hdrop]
          -- a block at least as large as the source front keeps the seam
          -- with the remaining source blocks
          have hfrnt : sfront.tiny = true →
              srest = [] ∨ (frontB srest).tiny = false := by
            intro hsf
            cases srest with
            | nil => exact Or.inl rfl
            | cons s1 st =>
                right
                rw [noTwoTinyB_cons2, Bool.and_eq_true] at hsntt
                have := hsntt.1
                rw [hsf] at this
                simpa using this
          -- the finisher when the first source block was consumed
          have finT : ∀ A : List RawBlock,
              blocksSize A = ccs + sfront.size →
              noTwoTinyB A = true → interiorOkB A = true →
              (srest ≠ [] → allGoodB A.tail = true) →
              (A = [] ∨ srest = [] ∨
                ((backB A).tiny && (frontB srest).tiny) = false) →
              ((A.map RawBlock.data).flatten =
                (Chain.mk ccs csd (b0 :: br)).content ++ sfront.data) →
              ChainOk ⟨ccs + scs, csd, A ++
                (if share then srest.map RawBlock.setShared
                 else srest)⟩ ∧
              (Chain.mk (ccs + scs) csd (A ++
                (if share then srest.map RawBlock.setShared
                 else srest))).csize =
                (Chain.mk ccs csd (b0 :: br)).csize +
                  (Chain.mk scs ssd (sfront :: srest)).csize ∧
              (Chain.mk (ccs + scs) csd (A ++
                (if share then srest.map RawBlock.setShared
                 else srest))).content =
                (Chain.mk ccs csd (b0 :: br)).content ++
                  (Chain.mk scs ssd (sfront :: srest)).content := by
            intro A h1 h2 h3 h4 h5 h6
            have hat := attach_shared (ccs + scs) csd A srest share
              (by rw [h1]; omega) h2 hsnttT h5 h3 h4 (fun _ => hsmid)
              hsintT
            refine ⟨hat.1, rfl, ?_⟩
            rw [hat.2, h6, hscont, List.append_assoc]
          -- the finisher when the source blocks are attached unchanged
          have finF : ∀ A : List RawBlock,
              blocksSize A = ccs →
              noTwoTinyB A = true → interiorOkB A = true →
              allGoodB A.tail = true →
              (A = [] ∨
                ((backB A).tiny && (frontB (sfront :: srest)).tiny) =
                  false) →
              midGoodB (sfront :: srest) = true →
              ((A.map RawBlock.data).flatten =
                (Chain.mk ccs csd (b0 :: br)).content) →
              ChainOk ⟨ccs + scs, csd, A ++
                (if share then (sfront :: srest).map RawBlock.setShared
                 else sfront :: srest)⟩ ∧
              (Chain.mk (ccs + scs) csd (A ++
                (if share then (sfront :: srest).map RawBlock.setShared
                 else sfront :: srest))).csize =
                (Chain.mk ccs csd (b0 :: br)).csize +
                  (Chain.mk scs ssd (sfront :: srest)).csize ∧
              (Chain.mk (ccs + scs) csd (A ++
                (if share then (sfront :: srest).map RawBlock.setShared
                 else sfront :: srest))).content =
                (Chain.mk ccs csd (b0 :: br)).content ++
                  (Chain.mk scs ssd (sfront :: srest)).content := by
            intro A h1 h2 h3 h4 h5 h6 h7
            have hat := attach_shared (ccs + scs) csd A
              (sfront :: srest) share
              (by rw [h1, blocksSize_cons2]; omega) h2 hsntt
              (by
                rcases h5 with h | h
                · exact Or.inl h
                · exact Or.inr (Or.inr h)) h3 (fun _ => h4)
              (fun _ => h6) hsint
            refine ⟨hat.1, rfl, ?_⟩
            rw [hat.2, h7, hscont]
            simp
          -- merged block for the fresh-merge branch
          set capM := (if srest.isEmpty then
              newBlockCapacity ccs bk.size sfront.size 0 opts
            else bk.size + sfront.size) with hcapM
          have hmg3 : ((RawBlock.newInternal capM).appendBytes
              bk.data).appendBytes sfront.data =
              .internal 0 (bk.data ++ sfront.data)
                (capM - bk.data.length - sfront.data.length) false :=
            newInternal_appendBytes2 capM bk.data sfront.data
          set mg3 : RawBlock := .internal 0 (bk.data ++ sfront.data)
            (capM - bk.data.length - sfront.data.length) false with hmg3d
          have hmg3sz : mg3.size = bk.size + sfront.size := by
            rw [hmg3d, RawBlock.size]
            show (bk.data ++ sfront.data).length = _
            rw [List.length_append]
            rfl
          have hmg3dat : mg3.data = bk.data ++ sfront.data := by
            rw [hmg3d]
            rfl
          -- the three merge-branch results, independent of the context
          -- that jumped to the merge label
          have resM1 := fun
              (hm1 : (bk.isEmpty && sfront.isEmpty) = true) =>
            finT init
              (by
                rw [Bool.and_eq_true] at hm1
                have hbk0 : bk.size = 0 := by
                  simpa [RawBlock.isEmpty] using hm1.1
                have hsf0 : sfront.size = 0 := by
                  simpa [RawBlock.isEmpty] using hm1.2
                omega)
              (noTwoTinyB_dropLast_of init bk hntt2)
              (interiorOkB_of_append_singleton init bk hint2)
              (fun _ => htail)
              (by
                rw [Bool.and_eq_true] at hm1
                rcases hfrnt (empty_tiny sfront hm1.2) with h | h
                · exact Or.inr (Or.inl h)
                · refine Or.inr (Or.inr ?_)
                  rw [h]
                  simp)
              (by
                rw [Bool.and_eq_true] at hm1
                rw [hcont2, isEmpty_data bk hm1.1,
                  isEmpty_data sfront hm1.2]
                simp)
          have resM2 := fun
              (hm2 : (bk.canAppend sfront.size &&
                (srest.isEmpty || !bk.wasteful sfront.size)) = true)
              (hm1f : (bk.isEmpty && sfront.isEmpty) = false) => by
            have hpos : 0 < bk.size + sfront.size := by
              rcases Bool.and_eq_false_iff.mp hm1f with h | h <;>
                simp [RawBlock.isEmpty] at h <;> omega
            have hxsz : (bk.appendBytes sfront.data).size =
                bk.size + sfront.size := by
              rw [appendBytes_size]
              rfl
            rw [Bool.and_eq_true] at hm2
            exact finT (init ++ [bk.appendBytes sfront.data])
              (by
                rw [blocksSize_append, blocksSize_singleton, hxsz]
                omega)
              (noTwoTinyB_replaceLast init bk _ hntt2
                (by rw [hxsz]; omega))
              (by
                rw [← interiorOkB_replaceLast init bk]
                exact hint2)
              (fun hrne => by
                refine allGoodB_tail_push init _ htail (fun _ => ?_)
                have hw : bk.wasteful sfront.size = false := by
                  rcases Bool.or_eq_true_iff.mp hm2.2 with h | h
                  · exact absurd (List.isEmpty_iff.mp h) hrne
                  · simpa using h
                simp only [goodB, Bool.and_eq_true, Bool.not_eq_true']
                constructor
                · simp only [RawBlock.isEmpty, hxsz,
                    decide_eq_false_iff_not]
                  omega
                · have hwap := appendBytes_wasteful_ca bk sfront.data 0
                    hm2.1
                  rw [hwap]
                  show bk.wasteful (sfront.size + 0) = false
                  rw [Nat.add_zero]
                  exact hw)
              (by
                rw [backB_append_singleton]
                rcases hseamS (bk.appendBytes sfront.data)
                    (by rw [hxsz]; omega) with h | h
                · exact Or.inr (Or.inl h)
                · exact Or.inr (Or.inr h))
              (by
                rw [flatten_map_append_singleton, appendBytes_data,
                  hcont2, List.append_assoc])
          have resM3 := fun
              (hm1f : (bk.isEmpty && sfront.isEmpty) = false) => by
            have hpos : 0 < bk.size + sfront.size := by
              rcases Bool.and_eq_false_iff.mp hm1f with h | h <;>
                simp [RawBlock.isEmpty] at h <;> omega
            exact finT (init ++ [mg3])
              (by
                rw [blocksSize_append, blocksSize_singleton, hmg3sz]
                omega)
              (noTwoTinyB_replaceLast init bk _ hntt2
                (by rw [hmg3sz]; omega))
              (by
                rw [← interiorOkB_replaceLast init bk]
                exact hint2)
              (fun hrne => by
                refine allGoodB_tail_push init _ htail (fun _ => ?_)
                have hre : srest.isEmpty = false := by
                  cases srest with
                  | nil => exact absurd rfl hrne
                  | cons a t => rfl
                have hcm : capM = bk.size + sfront.size := by
                  rw [hcapM, hre]
                  rfl
                have hl1 : bk.data.length = bk.size := rfl
                have hl2 : sfront.data.length = sfront.size := rfl
                have h0 : capM - bk.data.length - sfront.data.length =
                    0 := by
                  rw [hcm, hl1, hl2]
                  omega
                have hx : mg3 = .internal 0 (bk.data ++ sfront.data) 0
                    false := by
                  rw [hmg3d, h0]
                rw [hx]
                refine goodB_exact _ ?_
                intro hnil
                have := congrArg List.length hnil
                rw [List.length_append, hl1, hl2] at this
                simp at this
                omega)
              (by
                rcases hseamS mg3 (by rw [hmg3sz]; omega) with h | h
                · exact Or.inr (Or.inl h)
                · refine Or.inr (Or.inr ?_)
                  rw [backB_append_singleton]
                  exact h)
              (by
                rw [flatten_map_append_singleton, hmg3dat, hcont2,
                  List.append_assoc])
          by_cases hq1 : (bk.tiny && sfront.tiny) = true
          · -- both boundary blocks tiny: merge
            by_cases hm1 : (bk.isEmpty && sfront.isEmpty) = true
            · have heq : (Chain.mk ccs csd (b0 :: br)).appendChainOp
                  (Chain.mk scs ssd (sfront :: srest)) share opts =
                  ⟨ccs + scs, csd, init ++
                    (if share then srest.map RawBlock.setShared
                     else srest)⟩ := by
                simp only [Chain.appendChainOp, hbk2, hdrop, hsetb]
                rw [if_pos hq1, if_pos hm1]
                rfl
              rw [heq]
              exact resM1 hm1
            · have hm1f : (bk.isEmpty && sfront.isEmpty) = false := by
                simpa using hm1
              by_cases hm2 : (bk.canAppend sfront.size &&
                  (srest.isEmpty || !bk.wasteful sfront.size)) = true
              · have heq : (Chain.mk ccs csd (b0 :: br)).appendChainOp
                    (Chain.mk scs ssd (sfront :: srest)) share opts =
                    ⟨ccs + scs, csd,
                      (init ++ [bk.appendBytes sfront.data]) ++
                      (if share then srest.map RawBlock.setShared
                       else srest)⟩ := by
                  simp only [Chain.appendChainOp, hbk2, hdrop, hsetb]
                  rw [if_pos hq1, if_neg hm1, if_pos hm2]
                  rfl
                rw [heq]
                exact resM2 hm2 hm1f
              · have hm2f : (bk.canAppend sfront.size &&
                    (srest.isEmpty || !bk.wasteful sfront.size)) =
                    false := by simpa using hm2
                have heq : (Chain.mk ccs csd (b0 :: br)).appendChainOp
                    (Chain.mk scs ssd (sfront :: srest)) share opts =
                    ⟨ccs + scs, csd, (init ++ [mg3]) ++
                      (if share then srest.map RawBlock.setShared
                       else srest)⟩ := by
                  simp only [Chain.appendChainOp, hbk2, hdrop, hsetb]
                  rw [if_pos hq1, if_neg hm1, if_neg hm2, ← hcapM, hmg3]
                  rfl
                rw [heq]
                exact resM3 hm1f
          · have hq1f : (bk.tiny && sfront.tiny) = false := by
              simpa using hq1
            by_cases hq2 : bk.isEmpty = true
            · by_cases hq2a : (!srest.isEmpty && sfront.wasteful) = true
              · -- jump to the merge label
                by_cases hm1 : (bk.isEmpty && sfront.isEmpty) = true
                · have heq : (Chain.mk ccs csd (b0 :: br)).appendChainOp
                      (Chain.mk scs ssd (sfront :: srest)) share opts =
                      ⟨ccs + scs, csd, init ++
                        (if share then srest.map RawBlock.setShared
                         else srest)⟩ := by
                    simp only [Chain.appendChainOp, hbk2, hdrop, hsetb]
                    rw [if_neg hq1, if_pos hq2, if_pos hq2a, if_pos hm1]
                    rfl
                  rw [heq]
                  exact resM1 hm1
                · have hm1f : (bk.isEmpty && sfront.isEmpty) = false :=
                    by simpa using hm1
                  by_cases hm2 : (bk.canAppend sfront.size &&
                      (srest.isEmpty || !bk.wasteful sfront.size)) = true
                  · have heq : (Chain.mk ccs csd
                        (b0 :: br)).appendChainOp
                        (Chain.mk scs ssd (sfront :: srest)) share
                        opts =
                        ⟨ccs + scs, csd,
                          (init ++ [bk.appendBytes sfront.data]) ++
                          (if share then srest.map RawBlock.setShared
                           else srest)⟩ := by
                      simp only [Chain.appendChainOp, hbk2, hdrop,
                        hsetb]
                      rw [if_neg hq1, if_pos hq2, if_pos hq2a,
                        if_neg hm1, if_pos hm2]
                      rfl
                    rw [heq]
                    exact resM2 hm2 hm1f
                  · have hm2f : (bk.canAppend sfront.size &&
                        (srest.isEmpty || !bk.wasteful sfront.size)) =
                        false := by simpa using hm2
                    have heq : (Chain.mk ccs csd
                        (b0 :: br)).appendChainOp
                        (Chain.mk scs ssd (sfront :: srest)) share
                        opts =
                        ⟨ccs + scs, csd, (init ++ [mg3]) ++
                          (if share then srest.map RawBlock.setShared
                           else srest)⟩ := by
                      simp only [Chain.appendChainOp, hbk2, hdrop,
                        hsetb]
                      rw [if_neg hq1, if_pos hq2, if_pos hq2a,
                        if_neg hm1, if_neg hm2, ← hcapM, hmg3]
                      rfl
                    rw [heq]
                    exact resM3 hm1f
              · -- drop the empty last block, keep all source blocks
                have hq2af : (!srest.isEmpty && sfront.wasteful) =
                    false := by simpa using hq2a
                have hbk0 : bk.size = 0 := by
                  simpa [RawBlock.isEmpty] using hq2
                have hsftf : sfront.tiny = false := by
                  have := hq1f
                  rw [empty_tiny bk hq2] at this
                  simpa using this
                have hsfne : sfront.isEmpty = false := by
                  by_contra hx
                  have hx2 : sfront.isEmpty = true := by simpa using hx
                  rw [empty_tiny sfront hx2] at hsftf
                  simp at hsftf
                have heq : (Chain.mk ccs csd (b0 :: br)).appendChainOp
                    (Chain.mk scs ssd (sfront :: srest)) share opts =
                    ⟨ccs + scs, csd, init ++
                      (if share then
                        (sfront :: srest).map RawBlock.setShared
                       else sfront :: srest)⟩ := by
                  simp only [Chain.appendChainOp, hbk2, hq1f,
                    Bool.false_eq_true, if_false, hq2, if_pos, hq2af,
                    Chain.csize, Chain.bs, Chain.shortData, hdrop]
                rw [heq]
                exact finF init (by omega)
                  (noTwoTinyB_dropLast_of init bk hntt2)
                  (interiorOkB_of_append_singleton init bk hint2)
                  htail
                  (by
                    refine Or.inr ?_
                    rw [frontB_cons, hsftf]
                    simp)
                  (by
                    cases srest with
                    | nil => rfl
                    | cons a t =>
                        have hw : sfront.wasteful = false := by
                          rw [Bool.and_eq_false_iff] at hq2af
                          rcases hq2af with h | h
                          · simp at h
                          · exact h
                        rw [midGoodB_cons2]
                        have hg : goodB sfront = true := by
                          simp [goodB, hsfne, hw]
                        rw [hg, hsmid]
                        rfl)
                  (by rw [hcont2, isEmpty_data bk hq2, List.append_nil])
            · have hq2f : bk.isEmpty = false := by simpa using hq2
              by_cases hq3 : bk.wasteful = true
              · by_cases hq3a : (!srest.isEmpty &&
                    (sfront.isEmpty || sfront.wasteful)) = true
                · -- jump to the merge label
                  by_cases hm1 : (bk.isEmpty && sfront.isEmpty) = true
                  · have heq : (Chain.mk ccs csd
                        (b0 :: br)).appendChainOp
                        (Chain.mk scs ssd (sfront :: srest)) share
                        opts =
                        ⟨ccs + scs, csd, init ++
                          (if share then srest.map RawBlock.setShared
                           else srest)⟩ := by
                      simp only [Chain.appendChainOp, hbk2, hdrop,
                        hsetb]
                      rw [if_neg hq1, if_neg hq2, if_pos hq3,
                        if_pos hq3a, if_pos hm1]
                      rfl
                    rw [heq]
                    exact resM1 hm1
                  · have hm1f : (bk.isEmpty && sfront.isEmpty) =
                        false := by simpa using hm1
                    by_cases hm2 : (bk.canAppend sfront.size &&
                        (srest.isEmpty || !bk.wasteful sfront.size)) =
                        true
                    · have heq : (Chain.mk ccs csd
                          (b0 :: br)).appendChainOp
                          (Chain.mk scs ssd (sfront :: srest)) share
                          opts =
                          ⟨ccs + scs, csd,
                            (init ++ [bk.appendBytes sfront.data]) ++
                            (if share then srest.map RawBlock.setShared
                             else srest)⟩ := by
                        simp only [Chain.appendChainOp, hbk2, hdrop,
                          hsetb]
                        rw [if_neg hq1, if_neg hq2, if_pos hq3,
                          if_pos hq3a, if_neg hm1, if_pos hm2]
                        rfl
                      rw [heq]
                      exact resM2 hm2 hm1f
                    · have hm2f : (bk.canAppend sfront.size &&
                          (srest.isEmpty ||
                            !bk.wasteful sfront.size)) = false := by
                        simpa using hm2
                      have heq : (Chain.mk ccs csd
                          (b0 :: br)).appendChainOp
                          (Chain.mk scs ssd (sfront :: srest)) share
                          opts =
                          ⟨ccs + scs, csd, (init ++ [mg3]) ++
                            (if share then srest.map RawBlock.setShared
                             else srest)⟩ := by
                        simp only [Chain.appendChainOp, hbk2, hdrop,
                          hsetb]
                        rw [if_neg hq1, if_neg hq2, if_pos hq3,
                          if_pos hq3a, if_neg hm1, if_neg hm2, ← hcapM,
                          hmg3]
                        rfl
                      rw [heq]
                      exact resM3 hm1f
                · have hq3af : (!srest.isEmpty &&
                      (sfront.isEmpty || sfront.wasteful)) = false := by
                    simpa using hq3a
                  by_cases hq3b : (bk.canAppend sfront.size &&
                      (srest.isEmpty || !bk.wasteful sfront.size) &&
                      decide (sfront.size ≤
                        kAllocationCost + bk.size)) = true
                  · -- absorb the first source block into the wasteful
                    -- last block
                    rw [Bool.and_eq_true] at hq3b
                    have hm1f : (bk.isEmpty && sfront.isEmpty) =
                        false := by
                      rw [hq2f]
                      rfl
                    have heq : (Chain.mk ccs csd
                        (b0 :: br)).appendChainOp
                        (Chain.mk scs ssd (sfront :: srest)) share
                        opts =
                        ⟨ccs + scs, csd,
                          (init ++ [bk.appendBytes sfront.data]) ++
                          (if share then srest.map RawBlock.setShared
                           else srest)⟩ := by
                      simp only [Chain.appendChainOp, hbk2, hq1f,
                        Bool.false_eq_true, if_false, hq2f, hq3, if_pos,
                        hq3af, Bool.and_eq_true, hq3b, and_true,
                        if_true, Chain.csize, Chain.bs, Chain.shortData,
                        hsetb]
                    rw [heq]
                    exact resM2 hq3b.1 hm1f
                  · have hq3bf : (bk.canAppend sfront.size &&
                        (srest.isEmpty || !bk.wasteful sfront.size) &&
                        decide (sfront.size ≤
                          kAllocationCost + bk.size)) = false := by
                      simpa using hq3b
                    have heq : (Chain.mk ccs csd
                        (b0 :: br)).appendChainOp
                        (Chain.mk scs ssd (sfront :: srest)) share
                        opts =
                        ⟨ccs + scs, csd, (init ++ [bk.copy]) ++
                          (if share then
                            (sfront :: srest).map RawBlock.setShared
                           else sfront :: srest)⟩ := by
                      simp only [Chain.appendChainOp, hbk2, hq1f,
                        Bool.false_eq_true, if_false, hq2f, hq3, if_pos,
                        hq3af, hq3bf, Chain.csize, Chain.bs,
                        Chain.shortData, hsetb]
                    rw [heq]
                    exact finF (init ++ [bk.copy])
                      (by
                        rw [blocksSize_append, blocksSize_singleton,
                          copy_size]
                        omega)
                      (noTwoTinyB_replaceLast init bk _ hntt2
                        (by rw [copy_size]))
                      (by
                        rw [← interiorOkB_replaceLast init bk]
                        exact hint2)
                      (allGoodB_tail_push init _ htail
                        (fun _ => copy_good bk hq2f))
                      (by
                        refine Or.inr ?_
                        rw [backB_append_singleton, frontB_cons,
                          copy_tiny]
                        exact hq1f)
                      (by
                        cases srest with
                        | nil => rfl
                        | cons a t =>
                            have hdis : (sfront.isEmpty ||
                                sfront.wasteful) = false := by
                              rw [Bool.and_eq_false_iff] at hq3af
                              rcases hq3af with h | h
                              · simp at h
                              · exact h
                            rw [Bool.or_eq_false_iff] at hdis
                            rw [midGoodB_cons2]
                            have hg : goodB sfront = true := by
                              simp [goodB, hdis.1, hdis.2]
                            rw [hg, hsmid]
                            rfl)
                      (by
                        rw [flatten_map_append_singleton, hcont2,
                          copy_eq]
                        rfl)
              · have hq3f : bk.wasteful = false := by simpa using hq3
                have hbkgood : goodB bk = true := by
                  simp [goodB, hq2f, hq3f]
                have hmidbr : midGoodB br = true := by
                  rw [← interiorOkB_cons b0]
                  exact hcint
                have hAgood : allGoodB (b0 :: br).tail = true := by
                  show allGoodB br = true
                  refine allGoodB_of_mid_back br hmidbr (fun hne => ?_)
                  cases br with
                  | nil => exact absurd rfl hne
                  | cons x xs =>
                      have hxb : backB (x :: xs) = bk := by
                        rw [← backB_cons_cons b0 x xs]
                        exact hbk2
                      rw [hxb]
                      exact hbkgood
                by_cases hq4 : (!srest.isEmpty) = true
                · by_cases hq4a : sfront.isEmpty = true
                  · -- skip the empty first source block
                    have heq : (Chain.mk ccs csd
                        (b0 :: br)).appendChainOp
                        (Chain.mk scs ssd (sfront :: srest)) share
                        opts =
                        ⟨ccs + scs, csd, (b0 :: br) ++
                          (if share then srest.map RawBlock.setShared
                           else srest)⟩ := by
                      simp only [Chain.appendChainOp, hbk2, hq1f,
                        Bool.false_eq_true, if_false, hq2f, hq3f, hq4,
                        if_pos, if_true, hq4a, Chain.csize, Chain.bs,
                        Chain.shortData]
                    rw [heq]
                    have hsf0 : sfront.size = 0 := by
                      simpa [RawBlock.isEmpty] using hq4a
                    exact finT (b0 :: br) (by omega) hcntt hcint
                      (fun _ => hAgood)
                      (by
                        rcases hfrnt (empty_tiny sfront hq4a) with
                          h | h
                        · exact Or.inr (Or.inl h)
                        · refine Or.inr (Or.inr ?_)
                          rw [h]
                          simp)
                      (by
                        rw [hccontB, isEmpty_data sfront hq4a,
                          List.append_nil])
                  · have hq4af : sfront.isEmpty = false := by
                      simpa using hq4a
                    by_cases hq4b : sfront.wasteful = true
                    · by_cases hq4c : (bk.canAppend sfront.size &&
                          !bk.wasteful sfront.size) = true
                      · rw [Bool.and_eq_true] at hq4c
                        have hm1f : (bk.isEmpty && sfront.isEmpty) =
                            false := by
                          rw [hq2f]
                          rfl
                        have hm2 : (bk.canAppend sfront.size &&
                            (srest.isEmpty ||
                              !bk.wasteful sfront.size)) = true := by
                          rw [Bool.and_eq_true]
                          refine ⟨hq4c.1, ?_⟩
                          rw [Bool.or_eq_true]
                          exact Or.inr hq4c.2
                        have heq : (Chain.mk ccs csd
                            (b0 :: br)).appendChainOp
                            (Chain.mk scs ssd (sfront :: srest)) share
                            opts =
                            ⟨ccs + scs, csd,
                              (init ++ [bk.appendBytes sfront.data]) ++
                              (if share then
                                srest.map RawBlock.setShared
                               else srest)⟩ := by
                          simp only [Chain.appendChainOp, hbk2, hq1f,
                            Bool.false_eq_true, if_false, hq2f, hq3f,
                            hq4, if_pos, if_true, hq4af, hq4b,
                            Bool.and_eq_true, hq4c, and_self,
                            Chain.csize, Chain.bs, Chain.shortData,
                            hsetb]
                        rw [heq]
                        exact resM2 hm2 hm1f
                      · have hq4cf : (bk.canAppend sfront.size &&
                            !bk.wasteful sfront.size) = false := by
                          simpa using hq4c
                        have heq : (Chain.mk ccs csd
                            (b0 :: br)).appendChainOp
                            (Chain.mk scs ssd (sfront :: srest)) share
                            opts =
                            ⟨ccs + scs, csd,
                              ((b0 :: br) ++ [sfront.copy]) ++
                              (if share then
                                srest.map RawBlock.setShared
                               else srest)⟩ := by
                          simp only [Chain.appendChainOp, hbk2, hq1f,
                            Bool.false_eq_true, if_false, hq2f, hq3f,
                            hq4, if_pos, if_true, hq4af, hq4b, hq4cf,
                            Chain.csize, Chain.bs, Chain.shortData]
                        rw [heq]
                        exact finT ((b0 :: br) ++ [sfront.copy])
                          (by
                            rw [blocksSize_append, blocksSize_singleton,
                              copy_size]
                            omega)
                          (by
                            rw [noTwoTinyB_append_singleton, hcntt]
                            simp only [Bool.true_and, Bool.or_eq_true,
                              Bool.not_eq_true']
                            right
                            rw [hbk2, copy_tiny]
                            exact hq1f)
                          (by
                            rw [interiorOkB_push]
                            exact ⟨hcint, fun _ => by
                              rw [hbk2]
                              exact hbkgood⟩)
                          (fun _ => allGoodB_tail_push (b0 :: br) _
                            hAgood (fun _ => copy_good sfront hq4af))
                          (by
                            rcases hseamS sfront.copy
                                (by rw [copy_size]) with h | h
                            · exact Or.inr (Or.inl h)
                            · refine Or.inr (Or.inr ?_)
                              rw [backB_append_singleton]
                              exact h)
                          (by
                            rw [flatten_map_append_singleton, hccontB,
                              copy_eq]
                            rfl)
                    · have hq4bf : sfront.wasteful = false := by
                        simpa using hq4b
                      have heq : (Chain.mk ccs csd
                          (b0 :: br)).appendChainOp
                          (Chain.mk scs ssd (sfront :: srest)) share
                          opts =
                          ⟨ccs + scs, csd, (b0 :: br) ++
                            (if share then
                              (sfront :: srest).map RawBlock.setShared
                             else sfront :: srest)⟩ := by
                        simp only [Chain.appendChainOp, hbk2, hq1f,
                          Bool.false_eq_true, if_false, hq2f, hq3f,
                          hq4, if_pos, if_true, hq4af, hq4bf,
                          Chain.csize, Chain.bs, Chain.shortData]
                      rw [heq]
                      exact finF (b0 :: br) hcsz.symm hcntt hcint
                        hAgood
                        (by
                          refine Or.inr ?_
                          rw [frontB_cons, hbk2]
                          exact hq1f)
                        (by
                          cases srest with
                          | nil => rfl
                          | cons a t =>
                              rw [midGoodB_cons2]
                              have hg : goodB sfront = true := by
                                simp [goodB, hq4af, hq4bf]
                              rw [hg, hsmid]
                              rfl)
                        hccontB
                · have hq4f : (!srest.isEmpty) = false := by
                    simpa using hq4
                  have hre : srest = [] := by
                    cases srest with
                    | nil => rfl
                    | cons a t => simp at hq4f
                  have heq : (Chain.mk ccs csd
                      (b0 :: br)).appendChainOp
                      (Chain.mk scs ssd (sfront :: srest)) share
                      opts =
                      ⟨ccs + scs, csd, (b0 :: br) ++
                        (if share then
                          (sfront :: srest).map RawBlock.setShared
                         else sfront :: srest)⟩ := by
                    simp only [Chain.appendChainOp, hbk2, hq1f,
                      Bool.false_eq_true, if_false, hq2f, hq3f, hq4f,
                      Chain.csize, Chain.bs, Chain.shortData]
                  rw [heq]
                  exact finF (b0 :: br) hcsz.symm hcntt hcint hAgood
                    (by
                      refine Or.inr ?_
                      rw [frontB_cons, hbk2]
                      exact hq1f)
                    (by
                      rw [hre]
                      rfl)
                    hccontB

end Riegeli

namespace Riegeli

theorem setSharedMap_allGoodB (l : List RawBlock) :
    allGoodB (l.map RawBlock.setShared) = allGoodB l := by
  induction l with
  | nil => rfl
  | cons x t ih =>
      simp only [List.map_cons, allGoodB, List.all_cons] at ih ⊢
      rw [setShared_good, ih]

theorem setSharedMap_tail (l : List RawBlock) :
    (l.map RawBlock.setShared).tail = l.tail.map RawBlock.setShared := by
  cases l <;> rfl

theorem setSharedMap_backTiny (l : List RawBlock) :
    (backB (l.map RawBlock.setShared)).tiny = (backB l).tiny := by
  induction l with
  | nil => rfl
  | cons x t ih =>
      cases t with
      | nil =>
          show (backB [x.setShared]).tiny = (backB [x]).tiny
          have h1 : backB [x.setShared] = x.setShared := rfl
          have h2 : backB [x] = x := rfl
          rw [h1, h2, setShared_tiny]
      | cons y u =>
          simp only [List.map_cons] at ih ⊢
          rw [backB_cons_cons, backB_cons_cons]
          exact ih

theorem prependBytes_wasteful_cp (b : RawBlock) (src : Bytes) (e : Nat)
    (hcp : b.canPrepend src.length = true) :
    (b.prependBytes src).wasteful e = b.wasteful (src.length + e) := by
  cases b with
  | internal sb d sa sh =>
      simp only [RawBlock.canPrepend, RawBlock.isMutable,
        RawBlock.isInternal, RawBlock.isShared, RawBlock.isEmpty,
        RawBlock.size, RawBlock.data, RawBlock.capacity,
        RawBlock.spaceBefore, Bool.and_eq_true, Bool.not_eq_true',
        decide_eq_true_eq, ge_iff_le] at hcp
      cases d with
      | nil =>
          have hle : src.length ≤ sb + sa := by
            have := hcp.2
            simp at this
            omega
          simp only [RawBlock.prependBytes, List.isEmpty_nil, if_pos]
          simp only [RawBlock.wasteful, RawBlock.capacity, RawBlock.size,
            RawBlock.data, List.length_nil]
          congr 1
          · omega
          · omega
      | cons x t =>
          have hle : src.length ≤ sb := by
            have := hcp.2
            simpa using this
          simp only [RawBlock.prependBytes, List.isEmpty_cons,
            Bool.false_eq_true, if_false]
          simp only [RawBlock.wasteful, RawBlock.capacity, RawBlock.size,
            RawBlock.data, List.length_cons, List.length_append]
          congr 1
          · omega
          · omega
  | external d sh =>
      simp [RawBlock.canPrepend, RawBlock.isMutable, RawBlock.isInternal]
        at hcp

theorem seam_from_ntt_back (sinit : List RawBlock) (sback : RawBlock)
    (hntt : noTwoTinyB (sinit ++ [sback]) = true) (x : RawBlock)
    (hsz : sback.size ≤ x.size) :
    sinit = [] ∨ ((backB sinit).tiny && x.tiny) = false := by
  cases sinit with
  | nil => exact Or.inl rfl
  | cons i0 it =>
      right
      rw [noTwoTinyB_append_singleton, Bool.and_eq_true] at hntt
      have hseam := hntt.2
      simp only [List.isEmpty_cons, Bool.false_or, Bool.not_eq_true',
        Bool.and_eq_false_iff] at hseam
      by_cases hx : x.tiny = true
      · have hsb : sback.tiny = true := tiny_of_le x sback hsz hx
        rcases hseam with h | h
        · rw [h]
          rfl
        · rw [hsb] at h
          simp at h
      · rw [Bool.eq_false_iff.mpr hx]
        simp

/-- Attaching the remaining source blocks (shared or stolen) in front of
the adjusted destination blocks. -/
theorem attach_shared_front (csF : Nat) (sdA : Bytes)
    (R0 B : List RawBlock) (share : Bool)
    (hs : blocksSize R0 + blocksSize B = csF)
    (hnttR : noTwoTinyB R0 = true) (hnttB : noTwoTinyB B = true)
    (hseam : R0 = [] ∨ B = [] ∨
      ((backB R0).tiny && (frontB B).tiny) = false)
    (hintR : interiorOkB R0 = true)
    (hA : B ≠ [] → allGoodB R0.tail = true)
    (hB : R0 ≠ [] → midGoodB B = true)
    (hintB : interiorOkB B = true) :
    ChainOk ⟨csF, sdA,
      (if share then R0.map RawBlock.setShared else R0) ++ B⟩ ∧
    (Chain.mk csF sdA
      ((if share then R0.map RawBlock.setShared else R0) ++ B)).content =
      (R0.map RawBlock.data).flatten ++ (B.map RawBlock.data).flatten := by
  cases share
  · simpa using concat_finish csF sdA R0 B hs hnttR hnttB hseam hintR hA
      hB hintB
  · simp only [if_pos]
    have hmain := concat_finish csF sdA (R0.map RawBlock.setShared) B
      (by rw [setSharedMap_blocksSize]; exact hs)
      (by rw [setSharedMap_ntt]; exact hnttR) hnttB
      (by
        rcases hseam with h | h | h
        · exact Or.inl (by rw [h]; rfl)
        · exact Or.inr (Or.inl h)
        · refine Or.inr (Or.inr ?_)
          rw [setSharedMap_backTiny]
          exact h)
      (by rw [setSharedMap_interiorOkB]; exact hintR)
      (fun hne => by
        rw [setSharedMap_tail, setSharedMap_allGoodB]
        exact hA hne)
      (fun hne => hB (by
        intro h0
        exact hne (by rw [h0]; rfl)))
      hintB
    refine ⟨hmain.1, ?_⟩
    rw [hmain.2, setSharedMap_flatten]

end Riegeli

namespace Riegeli

/-- `Chain::PrependChain` (both ownership instantiations) preserves the
invariant, adds the source's size, and prepends the source's content. -/
theorem prependChainOp_ok (c src : Chain) (share : Bool) (opts : Options)
    (hok : ChainOk c) (hsok : ChainOk src) :
    ChainOk (c.prependChainOp src share opts) ∧
    (c.prependChainOp src share opts).csize = c.csize + src.csize ∧
    (c.prependChainOp src share opts).content =
      src.content ++ c.content := by
  obtain ⟨scs, ssd, sbs⟩ := src
  cases sbs with
  | nil =>
      obtain ⟨hs15, hssd⟩ := chainOk_dest_short _ hsok rfl
      have hsb : (Chain.mk scs ssd []).shortBytes.length = scs :=
        shortBytes_length _ hssd
      have h := prependSV_ok c ((Chain.mk scs ssd []).shortBytes) opts hok
      have heq : c.prependChainOp (Chain.mk scs ssd []) share opts =
          c.prependSV (Chain.mk scs ssd []).shortBytes opts := rfl
      rw [heq]
      refine ⟨h.1, ?_, ?_⟩
      · rw [h.2.1, hsb]
      · rw [h.2.2, content_short]
  | cons s0 srest =>
      obtain ⟨hssz, hsntt, hsint⟩ := chainOk_dest_blocks _ hsok (by simp)
      simp only [Chain.csize, Chain.bs] at hssz hsntt hsint
      obtain ⟨sinit, sback, hsplit⟩ : ∃ i k, s0 :: srest = i ++ [k] :=
        ⟨(s0 :: srest).dropLast, backB (s0 :: srest),
          bs_eq_dropLast_back _ (by simp)⟩
      have hsback2 : backB (s0 :: srest) = sback := by
        rw [hsplit, backB_append_singleton]
      have hsdrop : (s0 :: srest).dropLast = sinit := by
        rw [hsplit]
        exact List.dropLast_concat
      have hssum : blocksSize sinit + sback.size = scs := by
        rw [hsplit, blocksSize_append, blocksSize_singleton] at hssz
        omega
      have hsntt2 : noTwoTinyB (sinit ++ [sback]) = true := by
        rw [← hsplit]
        exact hsntt
      have hsint2 : interiorOkB (sinit ++ [sback]) = true := by
        rw [← hsplit]
        exact hsint
      have hstail : allGoodB sinit.tail = true :=
        allGoodB_tail_of_interior sinit sback hsint2
      have hsnttI : noTwoTinyB sinit = true :=
        noTwoTinyB_dropLast_of sinit sback hsntt2
      have hsintI : interiorOkB sinit = true :=
        interiorOkB_of_append_singleton sinit sback hsint2
      have hscontB : (Chain.mk scs ssd (s0 :: srest)).content =
          ((s0 :: srest).map RawBlock.data).flatten :=
        content_blocks _ _ _ (by simp)
      have hscont2 : (Chain.mk scs ssd (s0 :: srest)).content =
          (sinit.map RawBlock.data).flatten ++ sback.data := by
        rw [hscontB, hsplit, flatten_map_append_singleton]
      have hseamSP : ∀ x : RawBlock, sback.size ≤ x.size →
          sinit = [] ∨ ((backB sinit).tiny && x.tiny) = false :=
        fun x hx => seam_from_ntt_back sinit sback hsntt2 x hx
      obtain ⟨ccs, csd, cbs⟩ := c
      cases cbs with
      | nil =>
          obtain ⟨hc15, hcsd⟩ := chainOk_dest_short _ hok rfl
          have hcb : (Chain.mk ccs csd []).shortBytes.length = ccs :=
            shortBytes_length _ hcsd
          have hccont : (Chain.mk ccs csd []).content =
              (Chain.mk ccs csd []).shortBytes := content_short ccs csd
          by_cases hc1 : (sback.tiny ||
              (!decide ((s0 :: srest).length = 1) &&
                sback.wasteful)) = true
          · by_cases hc2 : (!(Chain.mk ccs csd []).shortBytes.isEmpty ||
                !sback.isEmpty) = true
            · -- merge short data with the last source block
              set capSh := if (s0 :: srest).length = 1 then
                  newBlockCapacity ccs ccs sback.size 0 opts
                else ccs + sback.size
                with hcapSh
              have hmg : ((RawBlock.newInternal capSh).prependBytes
                  (Chain.mk ccs csd []).shortBytes).prependBytes
                  sback.data =
                  .internal (capSh - ccs - sback.data.length)
                    (sback.data ++ (Chain.mk ccs csd []).shortBytes) 0
                    false := by
                rw [newInternal_prependBytes2, hcb]
              set mg : RawBlock := .internal
                (capSh - ccs - sback.data.length)
                (sback.data ++ (Chain.mk ccs csd []).shortBytes) 0 false
                with hmgd
              have hmgsz : mg.size = sback.size + ccs := by
                rw [hmgd, RawBlock.size]
                show (sback.data ++
                  (Chain.mk ccs csd []).shortBytes).length = _
                rw [List.length_append, hcb]
                rfl
              have heq : (Chain.mk ccs csd []).prependChainOp
                  (Chain.mk scs ssd (s0 :: srest)) share opts =
                  ⟨ccs + scs, csd,
                    (if share then sinit.map RawBlock.setShared
                     else sinit) ++ [mg]⟩ := by
                simp only [Chain.prependChainOp, hsback2, hsdrop, hc1,
                  if_pos, hc2, if_true, Chain.csize, Chain.bs,
                  Chain.shortData, ← hcapSh, hmg, ← hmgd]
              rw [heq]
              have hat := attach_shared_front (ccs + scs) csd sinit [mg]
                share
                (by
                  rw [blocksSize_singleton, hmgsz]
                  omega)
                hsnttI (noTwoTinyB_single mg)
                (by
                  rcases hseamSP mg (by omega) with h | h
                  · exact Or.inl h
                  · exact Or.inr (Or.inr h))
                hsintI (fun _ => hstail) (fun _ => midGoodB_single mg)
                rfl
              refine ⟨hat.1, rfl, ?_⟩
              rw [hat.2, hscont2, hccont]
              show _ ++ (mg.data ++ []) = _
              rw [hmgd]
              show _ ++ ((sback.data ++
                (Chain.mk ccs csd []).shortBytes) ++ []) = _
              rw [List.append_nil, ← List.append_assoc]
            · -- both the short data and the last source block are empty
              have hc2f : ((Chain.mk ccs csd []).shortBytes.isEmpty =
                  true) ∧ sback.isEmpty = true := by
                simp only [Bool.or_eq_true, Bool.not_eq_true', not_or]
                  at hc2
                exact ⟨by simpa using hc2.1, by simpa using hc2.2⟩
              have hcs0 : ccs = 0 := by
                have := List.isEmpty_iff.mp hc2f.1
                rw [this] at hcb
                simpa using hcb.symm
              have hsb0 : sback.size = 0 := by
                simpa [RawBlock.isEmpty] using hc2f.2
              have hsbd : sback.data = [] := isEmpty_data sback hc2f.2
              have heq : (Chain.mk ccs csd []).prependChainOp
                  (Chain.mk scs ssd (s0 :: srest)) share opts =
                  ⟨ccs + scs, csd,
                    (if share then sinit.map RawBlock.setShared
                     else sinit) ++ []⟩ := by
                simp only [Chain.prependChainOp, hsback2, hsdrop, hc1,
                  if_pos, hc2, if_true, Bool.false_eq_true, if_false,
                  Chain.csize, Chain.bs, Chain.shortData]
              rw [heq]
              have hat := attach_shared_front (ccs + scs) csd sinit []
                share
                (by
                  rw [blocksSize_nil]
                  omega)
                hsnttI noTwoTinyB_nil (Or.inr (Or.inl rfl)) hsintI
                (fun hne => absurd rfl hne) (fun _ => rfl) rfl
              refine ⟨hat.1, rfl, ?_⟩
              rw [hat.2, hscont2, hccont, List.isEmpty_iff.mp hc2f.1,
                hsbd]
              simp
          · have hc1f : (sback.tiny ||
                (!decide ((s0 :: srest).length = 1) &&
                  sback.wasteful)) = false := by
              simpa using hc1
            have hsbtf : sback.tiny = false := by
              simp only [Bool.or_eq_false_iff] at hc1f
              exact hc1f.1
            have hsbne : sback.isEmpty = false := by
              by_contra hx
              have hx2 : sback.isEmpty = true := by simpa using hx
              rw [empty_tiny sback hx2] at hsbtf
              simp at hsbtf
            have hsbgood : sinit ≠ [] → goodB sback = true := by
              intro hne
              simp only [Bool.or_eq_false_iff, Bool.and_eq_false_iff]
                at hc1f
              have hw : sback.wasteful = false := by
                rcases hc1f.2 with h | h
                · exfalso
                  have hlen : (s0 :: srest).length = 1 := by
                    simpa using h
                  rw [hsplit, List.length_append,
                    List.length_singleton] at hlen
                  cases sinit with
                  | nil => exact hne rfl
                  | cons a t => simp at hlen
                · exact h
              simp [goodB, hsbne, hw]
            have htailS : allGoodB ((s0 :: srest).tail) = true := by
              rw [hsplit]
              exact allGoodB_tail_push sinit sback hstail hsbgood
            by_cases hc3 : ccs = 0
            · have heq : (Chain.mk ccs csd []).prependChainOp
                  (Chain.mk scs ssd (s0 :: srest)) share opts =
                  ⟨ccs + scs, csd,
                    (if share then
                      (s0 :: srest).map RawBlock.setShared
                     else s0 :: srest) ++ []⟩ := by
                simp only [Chain.prependChainOp, hsback2, hsdrop, hc1f,
                  Bool.false_eq_true, if_false, Chain.csize, hc3,
                  Chain.bs, Chain.shortData]
                rw [if_neg (by simp)]
                rfl
              rw [heq]
              have hat := attach_shared_front (ccs + scs) csd
                (s0 :: srest) [] share
                (by
                  rw [blocksSize_nil]
                  omega)
                hsntt noTwoTinyB_nil (Or.inr (Or.inl rfl)) hsint
                (fun hne => absurd rfl hne) (fun _ => rfl) rfl
              refine ⟨hat.1, rfl, ?_⟩
              rw [hat.2, hscontB, hccont]
              have hsbnil : (Chain.mk ccs csd []).shortBytes = [] := by
                apply List.length_eq_zero.mp
                rw [hcb, hc3]
              rw [hsbnil]
              simp
            · -- copy short data to a real block, then attach in front
              have hreal : (RawBlock.newInternal
                  kMaxShortDataSize).appendBytes
                  (Chain.mk ccs csd []).shortBytes =
                  .internal 0 (Chain.mk ccs csd []).shortBytes
                    (kMaxShortDataSize - ccs) false := by
                rw [newInternal_appendBytes, hcb]
              set rb : RawBlock := .internal 0
                (Chain.mk ccs csd []).shortBytes
                (kMaxShortDataSize - ccs) false with hrbd
              have hrbsz : rb.size = ccs := by
                rw [hrbd, RawBlock.size]
                show (Chain.mk ccs csd []).shortBytes.length = ccs
                exact hcb
              have heq : (Chain.mk ccs csd []).prependChainOp
                  (Chain.mk scs ssd (s0 :: srest)) share opts =
                  ⟨ccs + scs, csd,
                    (if share then
                      (s0 :: srest).map RawBlock.setShared
                     else s0 :: srest) ++ [rb]⟩ := by
                simp only [Chain.prependChainOp, hsback2, hsdrop, hc1f,
                  Bool.false_eq_true, if_false, Chain.csize, Chain.bs,
                  Chain.shortData, hreal, ← hrbd]
                rw [if_pos hc3]
                rfl
              rw [heq]
              have hat := attach_shared_front (ccs + scs) csd
                (s0 :: srest) [rb] share
                (by
                  rw [blocksSize_singleton, hrbsz]
                  omega)
                hsntt (noTwoTinyB_single rb)
                (by
                  refine Or.inr (Or.inr ?_)
                  rw [hsback2, hsbtf]
                  rfl)
                hsint (fun _ => htailS) (fun _ => midGoodB_single rb)
                rfl
              refine ⟨hat.1, rfl, ?_⟩
              rw [hat.2, hscontB, hccont]
              simp [hrbd, RawBlock.data]
      | cons f0 ctail =>
          obtain ⟨hcsz, hcntt, hcint⟩ := chainOk_dest_blocks _ hok (by simp)
          simp only [Chain.csize, Chain.bs] at hcsz hcntt hcint
          have hcsum : f0.size + blocksSize ctail = ccs := by
            rw [blocksSize_cons2] at hcsz
            omega
          have hcmid : midGoodB ctail = true := by
            rw [← interiorOkB_cons f0]
            exact hcint
          have hcnttT : noTwoTinyB ctail = true :=
            noTwoTinyB_tail _ _ hcntt
          have hcintT : interiorOkB ctail = true :=
            interiorOkB_of_midGoodB _ hcmid
          have hccontB2 : (Chain.mk ccs csd (f0 :: ctail)).content =
              ((f0 :: ctail).map RawBlock.data).flatten :=
            content_blocks _ _ _ (by simp)
          have hccont2 : (Chain.mk ccs csd (f0 :: ctail)).content =
              f0.data ++ (ctail.map RawBlock.data).flatten := by
            rw [hccontB2]
            simp
          have hlen : srest.length = sinit.length := by
            have := congrArg List.length hsplit
            simp at this
            omega
          have hsrne : sinit ≠ [] → srest ≠ [] := by
            intro h hc
            refine h (List.length_eq_zero.mp ?_)
            rw [← hlen, hc]
            rfl
          have hdecF : sinit ≠ [] → decide ((s0 :: srest).length = 1) =
              false := by
            intro hne
            simp only [decide_eq_false_iff_not]
            intro hcon
            have h0 : srest.length = 0 := by
              simpa using hcon
            exact hsrne hne (List.length_eq_zero.mp h0)
          have hbacksP : sback.tiny = true →
              sinit = [] ∨ (backB sinit).tiny = false := by
            intro hst
            cases sinit with
            | nil => exact Or.inl rfl
            | cons i0 it =>
                right
                rw [noTwoTinyB_append_singleton, Bool.and_eq_true]
                  at hsntt2
                have hseam := hsntt2.2
                simp only [List.isEmpty_cons, Bool.false_or,
                  Bool.not_eq_true', Bool.and_eq_false_iff] at hseam
                rcases hseam with h | h
                · exact h
                · rw [hst] at h
                  simp at h
          -- finisher when the last source block was consumed
          have finTP : ∀ B : List RawBlock,
              blocksSize B = ccs + sback.size →
              noTwoTinyB B = true →
              (sinit = [] ∨ B = [] ∨
                ((backB sinit).tiny && (frontB B).tiny) = false) →
              (sinit ≠ [] → midGoodB B = true) →
              interiorOkB B = true →
              ((B.map RawBlock.data).flatten =
                sback.data ++ (Chain.mk ccs csd (f0 :: ctail)).content) →
              ChainOk ⟨ccs + scs, csd,
                (if share then sinit.map RawBlock.setShared
                 else sinit) ++ B⟩ ∧
              (Chain.mk (ccs + scs) csd
                ((if share then sinit.map RawBlock.setShared
                  else sinit) ++ B)).csize =
                (Chain.mk ccs csd (f0 :: ctail)).csize +
                  (Chain.mk scs ssd (s0 :: srest)).csize ∧
              (Chain.mk (ccs + scs) csd
                ((if share then sinit.map RawBlock.setShared
                  else sinit) ++ B)).content =
                (Chain.mk scs ssd (s0 :: srest)).content ++
                  (Chain.mk ccs csd (f0 :: ctail)).content := by
            intro B h1 h2 h3 h4 h5 h6
            have hat := attach_shared_front (ccs + scs) csd sinit B share
              (by rw [h1]; omega) hsnttI h2 h3 hsintI (fun _ => hstail)
              h4 h5
            refine ⟨hat.1, rfl, ?_⟩
            rw [hat.2, h6, hscont2, ← List.append_assoc]
          -- finisher when the source blocks are attached unchanged
          have finFP : ∀ B : List RawBlock,
              blocksSize B = ccs →
              noTwoTinyB B = true →
              (B = [] ∨
                ((backB (s0 :: srest)).tiny && (frontB B).tiny) =
                  false) →
              (srest ≠ [] → goodB sback = true) →
              midGoodB B = true →
              interiorOkB B = true →
              ((B.map RawBlock.data).flatten =
                (Chain.mk ccs csd (f0 :: ctail)).content) →
              ChainOk ⟨ccs + scs, csd,
                (if share then (s0 :: srest).map RawBlock.setShared
                 else s0 :: srest) ++ B⟩ ∧
              (Chain.mk (ccs + scs) csd
                ((if share then (s0 :: srest).map RawBlock.setShared
                  else s0 :: srest) ++ B)).csize =
                (Chain.mk ccs csd (f0 :: ctail)).csize +
                  (Chain.mk scs ssd (s0 :: srest)).csize ∧
              (Chain.mk (ccs + scs) csd
                ((if share then (s0 :: srest).map RawBlock.setShared
                  else s0 :: srest) ++ B)).content =
                (Chain.mk scs ssd (s0 :: srest)).content ++
                  (Chain.mk ccs csd (f0 :: ctail)).content := by
            intro B h1 h2 h3 hgb h4 h5 h6
            have htailS : allGoodB ((s0 :: srest).tail) = true := by
              rw [hsplit]
              exact allGoodB_tail_push sinit sback hstail
                (fun hne => hgb (hsrne hne))
            have hat := attach_shared_front (ccs + scs) csd
              (s0 :: srest) B share
              (by rw [h1]; omega) hsntt h2
              (by
                rcases h3 with h | h
                · exact Or.inr (Or.inl h)
                · exact Or.inr (Or.inr h))
              hsint (fun _ => htailS) (fun _ => h4) h5
            refine ⟨hat.1, rfl, ?_⟩
            rw [hat.2, h6, hscontB]
          -- merged block for the fresh-merge branch
          set capP := (if (s0 :: srest).length = 1 then
              newBlockCapacity ccs f0.size sback.size 0 opts
            else f0.size + sback.size) with hcapP
          have hmgP : ((RawBlock.newInternal capP).prependBytes
              f0.data).prependBytes sback.data =
              .internal (capP - f0.data.length - sback.data.length)
                (sback.data ++ f0.data) 0 false :=
            newInternal_prependBytes2 capP f0.data sback.data
          set mgP : RawBlock := .internal
            (capP - f0.data.length - sback.data.length)
            (sback.data ++ f0.data) 0 false with hmgPd
          have hmgPsz : mgP.size = sback.size + f0.size := by
            rw [hmgPd, RawBlock.size]
            show (sback.data ++ f0.data).length = _
            rw [List.length_append]
            rfl
          have hmgPdat : mgP.data = sback.data ++ f0.data := by
            rw [hmgPd]
            rfl
          have respM1 := fun
              (pm1 : (sback.isEmpty && f0.isEmpty) = true) => by
            rw [Bool.and_eq_true] at pm1
            have hsb0 : sback.size = 0 := by
              simpa [RawBlock.isEmpty] using pm1.1
            have hf0 : f0.size = 0 := by
              simpa [RawBlock.isEmpty] using pm1.2
            exact finTP ctail (by omega) hcnttT
              (by
                rcases hbacksP (empty_tiny sback pm1.1) with h | h
                · exact Or.inl h
                · refine Or.inr (Or.inr ?_)
                  rw [h]
                  rfl)
              (fun _ => hcmid) hcintT
              (by
                rw [hccont2, isEmpty_data f0 pm1.2,
                  isEmpty_data sback pm1.1]
                simp)
          have respM2 := fun
              (pm2 : (f0.canPrepend sback.size &&
                (decide ((s0 :: srest).length = 1) ||
                  !f0.wasteful sback.size)) = true)
              (pm1f : (sback.isEmpty && f0.isEmpty) = false) => by
            have hpos : 0 < sback.size + f0.size := by
              rcases Bool.and_eq_false_iff.mp pm1f with h | h <;>
                simp [RawBlock.isEmpty] at h <;> omega
            have hxsz : (f0.prependBytes sback.data).size =
                sback.size + f0.size := by
              rw [prependBytes_size]
              rfl
            rw [Bool.and_eq_true] at pm2
            exact finTP (f0.prependBytes sback.data :: ctail)
              (by
                rw [blocksSize_cons2, hxsz]
                omega)
              (noTwoTinyB_replaceFirst f0 _ ctail hcntt
                (by rw [hxsz]; omega))
              (by
                rcases hseamSP (f0.prependBytes sback.data)
                    (by rw [hxsz]; omega) with h | h
                · exact Or.inl h
                · refine Or.inr (Or.inr ?_)
                  rw [frontB_cons]
                  exact h)
              (fun hne => by
                refine midGoodB_cons_of _ _ ?_ hcmid
                have hw : f0.wasteful sback.size = false := by
                  rcases Bool.or_eq_true_iff.mp pm2.2 with h | h
                  · rw [hdecF hne] at h
                    simp at h
                  · simpa using h
                simp only [goodB, Bool.and_eq_true, Bool.not_eq_true']
                constructor
                · simp only [RawBlock.isEmpty, hxsz,
                    decide_eq_false_iff_not]
                  omega
                · have hwap := prependBytes_wasteful_cp f0 sback.data 0
                    pm2.1
                  rw [hwap]
                  show f0.wasteful (sback.size + 0) = false
                  rw [Nat.add_zero]
                  exact hw)
              (by
                rw [interiorOkB_cons]
                exact hcmid)
              (by
                simp only [List.map_cons, List.flatten_cons,
                  prependBytes_data]
                rw [hccont2, List.append_assoc])
          have respM3 := fun
              (pm1f : (sback.isEmpty && f0.isEmpty) = false) => by
            have hpos : 0 < sback.size + f0.size := by
              rcases Bool.and_eq_false_iff.mp pm1f with h | h <;>
                simp [RawBlock.isEmpty] at h <;> omega
            exact finTP (mgP :: ctail)
              (by
                rw [blocksSize_cons2, hmgPsz]
                omega)
              (noTwoTinyB_replaceFirst f0 _ ctail hcntt
                (by rw [hmgPsz]; omega))
              (by
                rcases hseamSP mgP (by rw [hmgPsz]; omega) with h | h
                · exact Or.inl h
                · refine Or.inr (Or.inr ?_)
                  rw [frontB_cons]
                  exact h)
              (fun hne => by
                refine midGoodB_cons_of _ _ ?_ hcmid
                have hcm : capP = f0.size + sback.size := by
                  rw [hcapP, if_neg]
                  intro hcon
                  have h0 : srest.length = 0 := by simpa using hcon
                  exact hsrne hne (List.length_eq_zero.mp h0)
                have hl1 : f0.data.length = f0.size := rfl
                have hl2 : sback.data.length = sback.size := rfl
                have h0 : capP - f0.data.length - sback.data.length =
                    0 := by
                  rw [hcm, hl1, hl2]
                  omega
                have hx : mgP = .internal 0 (sback.data ++ f0.data) 0
                    false := by
                  rw [hmgPd, h0]
                rw [hx]
                refine goodB_exact _ ?_
                intro hnil
                have := congrArg List.length hnil
                rw [List.length_append, hl1, hl2] at this
                simp at this
                omega)
              (by
                rw [interiorOkB_cons]
                exact hcmid)
              (by
                simp only [List.map_cons, List.flatten_cons, hmgPdat]
                rw [hccont2, List.append_assoc])
          have hdecF2 : srest ≠ [] →
              decide ((s0 :: srest).length = 1) = false := by
            intro hne
            simp only [decide_eq_false_iff_not]
            intro hcon
            exact hne (List.length_eq_zero.mp (by simpa using hcon))
          by_cases hp1 : (f0.tiny && sback.tiny) = true
          · by_cases pm1 : (sback.isEmpty && f0.isEmpty) = true
            · have heq : (Chain.mk ccs csd (f0 :: ctail)).prependChainOp
                  (Chain.mk scs ssd (s0 :: srest)) share opts =
                  ⟨ccs + scs, csd,
                    (if share then sinit.map RawBlock.setShared
                     else sinit) ++ ctail⟩ := by
                simp only [Chain.prependChainOp, hsback2, hsdrop,
                  frontB_cons, List.tail_cons]
                rw [if_pos hp1, if_pos pm1]
                rfl
              rw [heq]
              exact respM1 pm1
            · have pm1f : (sback.isEmpty && f0.isEmpty) = false := by
                simpa using pm1
              by_cases pm2 : (f0.canPrepend sback.size &&
                  (decide ((s0 :: srest).length = 1) ||
                    !f0.wasteful sback.size)) = true
              · have heq : (Chain.mk ccs csd
                    (f0 :: ctail)).prependChainOp
                    (Chain.mk scs ssd (s0 :: srest)) share opts =
                    ⟨ccs + scs, csd,
                      (if share then sinit.map RawBlock.setShared
                       else sinit) ++
                      (f0.prependBytes sback.data :: ctail)⟩ := by
                  simp only [Chain.prependChainOp, hsback2, hsdrop,
                    frontB_cons, List.tail_cons]
                  rw [if_pos hp1, if_neg pm1, if_pos pm2]
                  rfl
                rw [heq]
                exact respM2 pm2 pm1f
              · have heq : (Chain.mk ccs csd
                    (f0 :: ctail)).prependChainOp
                    (Chain.mk scs ssd (s0 :: srest)) share opts =
                    ⟨ccs + scs, csd,
                      (if share then sinit.map RawBlock.setShared
                       else sinit) ++ (mgP :: ctail)⟩ := by
                  simp only [Chain.prependChainOp, hsback2, hsdrop,
                    frontB_cons, List.tail_cons]
                  rw [if_pos hp1, if_neg pm1, if_neg pm2, ← hcapP, hmgP]
                  rfl
                rw [heq]
                exact respM3 pm1f
          · have hp1f : (f0.tiny && sback.tiny) = false := by
              simpa using hp1
            by_cases hp2 : f0.isEmpty = true
            · by_cases hp2a : (!decide ((s0 :: srest).length = 1) &&
                  sback.wasteful) = true
              · by_cases pm1 : (sback.isEmpty && f0.isEmpty) = true
                · have heq : (Chain.mk ccs csd
                      (f0 :: ctail)).prependChainOp
                      (Chain.mk scs ssd (s0 :: srest)) share opts =
                      ⟨ccs + scs, csd,
                        (if share then sinit.map RawBlock.setShared
                         else sinit) ++ ctail⟩ := by
                    simp only [Chain.prependChainOp, hsback2, hsdrop,
                      frontB_cons, List.tail_cons]
                    rw [if_neg hp1, if_pos hp2, if_pos hp2a,
                      if_pos pm1]
                    rfl
                  rw [heq]
                  exact respM1 pm1
                · have pm1f : (sback.isEmpty && f0.isEmpty) = false :=
                    by simpa using pm1
                  by_cases pm2 : (f0.canPrepend sback.size &&
                      (decide ((s0 :: srest).length = 1) ||
                        !f0.wasteful sback.size)) = true
                  · have heq : (Chain.mk ccs csd
                        (f0 :: ctail)).prependChainOp
                        (Chain.mk scs ssd (s0 :: srest)) share opts =
                        ⟨ccs + scs, csd,
                          (if share then sinit.map RawBlock.setShared
                           else sinit) ++
                          (f0.prependBytes sback.data :: ctail)⟩ := by
                      simp only [Chain.prependChainOp, hsback2, hsdrop,
                        frontB_cons, List.tail_cons]
                      rw [if_neg hp1, if_pos hp2, if_pos hp2a,
                        if_neg pm1, if_pos pm2]
                      rfl
                    rw [heq]
                    exact respM2 pm2 pm1f
                  · have heq : (Chain.mk ccs csd
                        (f0 :: ctail)).prependChainOp
                        (Chain.mk scs ssd (s0 :: srest)) share opts =
                        ⟨ccs + scs, csd,
                          (if share then sinit.map RawBlock.setShared
                           else sinit) ++ (mgP :: ctail)⟩ := by
                      simp only [Chain.prependChainOp, hsback2, hsdrop,
                        frontB_cons, List.tail_cons]
                      rw [if_neg hp1, if_pos hp2, if_pos hp2a,
                        if_neg pm1, if_neg pm2, ← hcapP, hmgP]
                      rfl
                    rw [heq]
                    exact respM3 pm1f
              · -- drop the empty first block, keep all source blocks
                have hp2af : (!decide ((s0 :: srest).length = 1) &&
                    sback.wasteful) = false := by simpa using hp2a
                have hf0 : f0.size = 0 := by
                  simpa [RawBlock.isEmpty] using hp2
                have hsbtf : sback.tiny = false := by
                  have := hp1f
                  rw [empty_tiny f0 hp2] at this
                  simpa using this
                have hsbne : sback.isEmpty = false := by
                  by_contra hx
                  have hx2 : sback.isEmpty = true := by simpa using hx
                  rw [empty_tiny sback hx2] at hsbtf
                  simp at hsbtf
                have heq : (Chain.mk ccs csd
                    (f0 :: ctail)).prependChainOp
                    (Chain.mk scs ssd (s0 :: srest)) share opts =
                    ⟨ccs + scs, csd,
                      (if share then
                        (s0 :: srest).map RawBlock.setShared
                       else s0 :: srest) ++ ctail⟩ := by
                  simp only [Chain.prependChainOp, hsback2, hsdrop,
                    frontB_cons, List.tail_cons]
                  rw [if_neg hp1, if_pos hp2, if_neg hp2a]
                  rfl
                rw [heq]
                exact finFP ctail (by omega) hcnttT
                  (by
                    refine Or.inr ?_
                    rw [hsback2, hsbtf]
                    rfl)
                  (fun hne => by
                    have hw : sback.wasteful = false := by
                      rcases Bool.and_eq_false_iff.mp hp2af with h | h
                      · rw [hdecF2 hne] at h
                        simp at h
                      · exact h
                    simp [goodB, hsbne, hw])
                  hcmid hcintT
                  (by
                    rw [hccont2, isEmpty_data f0 hp2]
                    simp)
            · have hp2f : f0.isEmpty = false := by simpa using hp2
              by_cases hp3 : f0.wasteful = true
              · by_cases hp3a : (!decide ((s0 :: srest).length = 1) &&
                    (sback.isEmpty || sback.wasteful)) = true
                · by_cases pm1 : (sback.isEmpty && f0.isEmpty) = true
                  · have heq : (Chain.mk ccs csd
                        (f0 :: ctail)).prependChainOp
                        (Chain.mk scs ssd (s0 :: srest)) share opts =
                        ⟨ccs + scs, csd,
                          (if share then sinit.map RawBlock.setShared
                           else sinit) ++ ctail⟩ := by
                      simp only [Chain.prependChainOp, hsback2, hsdrop,
                        frontB_cons, List.tail_cons]
                      rw [if_neg hp1, if_neg hp2, if_pos hp3,
                        if_pos hp3a, if_pos pm1]
                      rfl
                    rw [heq]
                    exact respM1 pm1
                  · have pm1f : (sback.isEmpty && f0.isEmpty) =
                        false := by simpa using pm1
                    by_cases pm2 : (f0.canPrepend sback.size &&
                        (decide ((s0 :: srest).length = 1) ||
                          !f0.wasteful sback.size)) = true
                    · have heq : (Chain.mk ccs csd
                          (f0 :: ctail)).prependChainOp
                          (Chain.mk scs ssd (s0 :: srest)) share
                          opts =
                          ⟨ccs + scs, csd,
                            (if share then
                              sinit.map RawBlock.setShared
                             else sinit) ++
                            (f0.prependBytes sback.data :: ctail)⟩ := by
                        simp only [Chain.prependChainOp, hsback2,
                          hsdrop, frontB_cons, List.tail_cons]
                        rw [if_neg hp1, if_neg hp2, if_pos hp3,
                          if_pos hp3a, if_neg pm1, if_pos pm2]
                        rfl
                      rw [heq]
                      exact respM2 pm2 pm1f
                    · have heq : (Chain.mk ccs csd
                          (f0 :: ctail)).prependChainOp
                          (Chain.mk scs ssd (s0 :: srest)) share
                          opts =
                          ⟨ccs + scs, csd,
                            (if share then
                              sinit.map RawBlock.setShared
                             else sinit) ++ (mgP :: ctail)⟩ := by
                        simp only [Chain.prependChainOp, hsback2,
                          hsdrop, frontB_cons, List.tail_cons]
                        rw [if_neg hp1, if_neg hp2, if_pos hp3,
                          if_pos hp3a, if_neg pm1, if_neg pm2, ← hcapP,
                          hmgP]
                        rfl
                      rw [heq]
                      exact respM3 pm1f
                · have hp3af : (!decide ((s0 :: srest).length = 1) &&
                      (sback.isEmpty || sback.wasteful)) = false := by
                    simpa using hp3a
                  by_cases hp3b : (f0.canPrepend sback.size &&
                      (decide ((s0 :: srest).length = 1) ||
                        !f0.wasteful sback.size) &&
                      decide (sback.size ≤
                        kAllocationCost + f0.size)) = true
                  · rw [Bool.and_eq_true] at hp3b
                    have pm1f : (sback.isEmpty && f0.isEmpty) =
                        false := by
                      rw [Bool.and_eq_false_iff]
                      right
                      exact hp2f
                    have heq : (Chain.mk ccs csd
                        (f0 :: ctail)).prependChainOp
                        (Chain.mk scs ssd (s0 :: srest)) share opts =
                        ⟨ccs + scs, csd,
                          (if share then sinit.map RawBlock.setShared
                           else sinit) ++
                          (f0.prependBytes sback.data :: ctail)⟩ := by
                      simp only [Chain.prependChainOp, hsback2, hsdrop,
                        frontB_cons, List.tail_cons]
                      rw [if_neg hp1, if_neg hp2, if_pos hp3,
                        if_neg hp3a,
                        if_pos (show (f0.canPrepend sback.size &&
                          (decide ((s0 :: srest).length = 1) ||
                            !f0.wasteful sback.size) &&
                          decide (sback.size ≤
                            kAllocationCost + f0.size)) = true from by
                          rw [Bool.and_eq_true]
                          exact hp3b)]
                      rfl
                    rw [heq]
                    exact respM2 hp3b.1 pm1f
                  · have hp3bf : (f0.canPrepend sback.size &&
                        (decide ((s0 :: srest).length = 1) ||
                          !f0.wasteful sback.size) &&
                        decide (sback.size ≤
                          kAllocationCost + f0.size)) = false := by
                      simpa using hp3b
                    have heq : (Chain.mk ccs csd
                        (f0 :: ctail)).prependChainOp
                        (Chain.mk scs ssd (s0 :: srest)) share opts =
                        ⟨ccs + scs, csd,
                          (if share then
                            (s0 :: srest).map RawBlock.setShared
                           else s0 :: srest) ++
                          (f0.copy :: ctail)⟩ := by
                      simp only [Chain.prependChainOp, hsback2, hsdrop,
                        frontB_cons, List.tail_cons]
                      rw [if_neg hp1, if_neg hp2, if_pos hp3,
                        if_neg hp3a, if_neg hp3b]
                      rfl
                    rw [heq]
                    exact finFP (f0.copy :: ctail)
                      (by
                        rw [blocksSize_cons2, copy_size]
                        omega)
                      (noTwoTinyB_replaceFirst f0 _ ctail hcntt
                        (by rw [copy_size]))
                      (by
                        refine Or.inr ?_
                        rw [hsback2, frontB_cons, copy_tiny,
                          Bool.and_comm]
                        exact hp1f)
                      (fun hne => by
                        have hdis : (sback.isEmpty ||
                            sback.wasteful) = false := by
                          rcases Bool.and_eq_false_iff.mp hp3af with
                            h | h
                          · rw [hdecF2 hne] at h
                            simp at h
                          · exact h
                        rw [Bool.or_eq_false_iff] at hdis
                        simp [goodB, hdis.1, hdis.2])
                      (midGoodB_cons_of _ _ (copy_good f0 hp2f) hcmid)
                      (by
                        rw [interiorOkB_cons]
                        exact hcmid)
                      (by
                        simp only [List.map_cons, List.flatten_cons]
                        rw [hccont2, copy_eq]
                        rfl)
              · have hp3f : f0.wasteful = false := by simpa using hp3
                have hf0good : goodB f0 = true := by
                  simp [goodB, hp2f, hp3f]
                by_cases hp4 : (!decide ((s0 :: srest).length = 1)) =
                    true
                · by_cases hp4a : sback.isEmpty = true
                  · -- skip the empty last source block
                    have heq : (Chain.mk ccs csd
                        (f0 :: ctail)).prependChainOp
                        (Chain.mk scs ssd (s0 :: srest)) share opts =
                        ⟨ccs + scs, csd,
                          (if share then sinit.map RawBlock.setShared
                           else sinit) ++ (f0 :: ctail)⟩ := by
                      simp only [Chain.prependChainOp, hsback2, hsdrop,
                        frontB_cons, List.tail_cons]
                      rw [if_neg hp1, if_neg hp2, if_neg hp3,
                        if_pos hp4, if_pos hp4a]
                      rfl
                    rw [heq]
                    have hsb0 : sback.size = 0 := by
                      simpa [RawBlock.isEmpty] using hp4a
                    exact finTP (f0 :: ctail) (by omega) hcntt
                      (by
                        rcases hbacksP (empty_tiny sback hp4a) with
                          h | h
                        · exact Or.inl h
                        · refine Or.inr (Or.inr ?_)
                          rw [h]
                          rfl)
                      (fun _ => midGoodB_cons_of _ _ hf0good hcmid)
                      hcint
                      (by
                        rw [hccontB2, isEmpty_data sback hp4a]
                        simp)
                  · have hp4af : sback.isEmpty = false := by
                      simpa using hp4a
                    by_cases hp4b : sback.wasteful = true
                    · by_cases hp4c : (f0.canPrepend sback.size &&
                          !f0.wasteful sback.size) = true
                      · rw [Bool.and_eq_true] at hp4c
                        have pm1f : (sback.isEmpty && f0.isEmpty) =
                            false := by
                          rw [Bool.and_eq_false_iff]
                          left
                          exact hp4af
                        have pm2 : (f0.canPrepend sback.size &&
                            (decide ((s0 :: srest).length = 1) ||
                              !f0.wasteful sback.size)) = true := by
                          rw [Bool.and_eq_true]
                          refine ⟨hp4c.1, ?_⟩
                          rw [Bool.or_eq_true]
                          exact Or.inr hp4c.2
                        have heq : (Chain.mk ccs csd
                            (f0 :: ctail)).prependChainOp
                            (Chain.mk scs ssd (s0 :: srest)) share
                            opts =
                            ⟨ccs + scs, csd,
                              (if share then
                                sinit.map RawBlock.setShared
                               else sinit) ++
                              (f0.prependBytes sback.data ::
                                ctail)⟩ := by
                          simp only [Chain.prependChainOp, hsback2,
                            hsdrop, frontB_cons, List.tail_cons]
                          rw [if_neg hp1, if_neg hp2, if_neg hp3,
                            if_pos hp4, if_neg hp4a, if_pos hp4b,
                            if_pos (show (f0.canPrepend sback.size &&
                              !f0.wasteful sback.size) = true from by
                              rw [Bool.and_eq_true]
                              exact hp4c)]
                          rfl
                        rw [heq]
                        exact respM2 pm2 pm1f
                      · have hp4cf : (f0.canPrepend sback.size &&
                            !f0.wasteful sback.size) = false := by
                          simpa using hp4c
                        have heq : (Chain.mk ccs csd
                            (f0 :: ctail)).prependChainOp
                            (Chain.mk scs ssd (s0 :: srest)) share
                            opts =
                            ⟨ccs + scs, csd,
                              (if share then
                                sinit.map RawBlock.setShared
                               else sinit) ++
                              (sback.copy :: f0 :: ctail)⟩ := by
                          simp only [Chain.prependChainOp, hsback2,
                            hsdrop, frontB_cons, List.tail_cons]
                          rw [if_neg hp1, if_neg hp2, if_neg hp3,
                            if_pos hp4, if_neg hp4a, if_pos hp4b,
                            if_neg hp4c]
                          rfl
                        rw [heq]
                        exact finTP (sback.copy :: f0 :: ctail)
                          (by
                            rw [blocksSize_cons2, copy_size]
                            omega)
                          (by
                            rw [noTwoTinyB_cons2, hcntt, copy_tiny]
                            have hcomm : (sback.tiny && f0.tiny) =
                                false := by
                              rw [Bool.and_comm]
                              exact hp1f
                            rw [hcomm]
                            rfl)
                          (by
                            rcases hseamSP sback.copy
                                (by rw [copy_size]) with h | h
                            · exact Or.inl h
                            · refine Or.inr (Or.inr ?_)
                              rw [frontB_cons]
                              exact h)
                          (fun _ => midGoodB_cons_of _ _
                            (copy_good sback hp4af)
                            (midGoodB_cons_of _ _ hf0good hcmid))
                          (by
                            rw [interiorOkB_cons]
                            exact midGoodB_cons_of _ _ hf0good hcmid)
                          (by
                            simp only [List.map_cons, List.flatten_cons]
                            rw [hccont2, copy_eq]
                            rfl)
                    · have hp4bf : sback.wasteful = false := by
                        simpa using hp4b
                      have heq : (Chain.mk ccs csd
                          (f0 :: ctail)).prependChainOp
                          (Chain.mk scs ssd (s0 :: srest)) share
                          opts =
                          ⟨ccs + scs, csd,
                            (if share then
                              (s0 :: srest).map RawBlock.setShared
                             else s0 :: srest) ++ (f0 :: ctail)⟩ := by
                        simp only [Chain.prependChainOp, hsback2,
                          hsdrop, frontB_cons, List.tail_cons]
                        rw [if_neg hp1, if_neg hp2, if_neg hp3,
                          if_pos hp4, if_neg hp4a, if_neg hp4b]
                        rfl
                      rw [heq]
                      exact finFP (f0 :: ctail) hcsz.symm hcntt
                        (by
                          refine Or.inr ?_
                          rw [hsback2, frontB_cons, Bool.and_comm]
                          exact hp1f)
                        (fun _ => by simp [goodB, hp4af, hp4bf])
                        (midGoodB_cons_of _ _ hf0good hcmid) hcint
                        hccontB2.symm
                · have hp4f : (!decide ((s0 :: srest).length = 1)) =
                      false := by simpa using hp4
                  have hre : srest = [] := by
                    have hd : decide ((s0 :: srest).length = 1) =
                        true := by
                      simpa using hp4f
                    have hl : (s0 :: srest).length = 1 := by
                      simpa using hd
                    exact List.length_eq_zero.mp (by simpa using hl)
                  have heq : (Chain.mk ccs csd
                      (f0 :: ctail)).prependChainOp
                      (Chain.mk scs ssd (s0 :: srest)) share opts =
                      ⟨ccs + scs, csd,
                        (if share then
                          (s0 :: srest).map RawBlock.setShared
                         else s0 :: srest) ++ (f0 :: ctail)⟩ := by
                    simp only [Chain.prependChainOp, hsback2, hsdrop,
                      frontB_cons, List.tail_cons]
                    rw [if_neg hp1, if_neg hp2, if_neg hp3, if_neg hp4]
                    rfl
                  rw [heq]
                  exact finFP (f0 :: ctail) hcsz.symm hcntt
                    (by
                      refine Or.inr ?_
                      rw [hsback2, frontB_cons, Bool.and_comm]
                      exact hp1f)
                    (fun hne => absurd hre hne)
                    (midGoodB_cons_of _ _ hf0good hcmid) hcint
                    hccontB2.symm

end Riegeli
namespace Riegeli

theorem blocksSize_reverse (l : List RawBlock) :
    blocksSize l.reverse = blocksSize l := by
  unfold blocksSize
  rw [List.map_reverse, List.sum_reverse]

theorem backB_reverse (l : List RawBlock) : backB l.reverse = frontB l := by
  unfold backB frontB
  rw [List.getLast?_reverse]

theorem extern_size (d : Bytes) (sh : Bool) :
    (RawBlock.external d sh).size = d.length := rfl

theorem extern_data (d : Bytes) (sh : Bool) :
    (RawBlock.external d sh).data = d := rfl

/-- Accounting for the block-popping loop: the remaining list is a
suffix, the popped sizes plus the residual length reconstitute the
input length, the loop stops only when the residual fits in the next
block, and a positive length leaves a positive residual. -/
theorem popWhileGT_spec (l : List RawBlock) (n : Nat) :
    ∃ dropped, l = dropped ++ (popWhileGT n l).2 ∧
      n = (popWhileGT n l).1 + blocksSize dropped ∧
      ((popWhileGT n l).2 = [] ∨
        (popWhileGT n l).1 ≤ (frontB (popWhileGT n l).2).size) ∧
      (1 ≤ n → 1 ≤ (popWhileGT n l).1) := by
  induction l generalizing n with
  | nil =>
      refine ⟨[], by simp [popWhileGT], by simp [popWhileGT, blocksSize],
        Or.inl rfl, fun h => ?_⟩
      simpa [popWhileGT] using h
  | cons b rest ih =>
      by_cases h : b.size < n
      · have he : popWhileGT n (b :: rest) = popWhileGT (n - b.size) rest := by
          simp only [popWhileGT]
          rw [if_pos h]
        obtain ⟨d, hd, hn, hstop, hpos⟩ := ih (n - b.size)
        refine ⟨b :: d, ?_, ?_, ?_, ?_⟩
        · rw [he, List.cons_append, ← hd]
        · rw [he, blocksSize_cons]
          omega
        · rw [he]
          exact hstop
        · intro _
          rw [he]
          exact hpos (by omega)
      · have he : popWhileGT n (b :: rest) = (n, b :: rest) := by
          simp only [popWhileGT]
          rw [if_neg h]
        refine ⟨[], by simp [he], by simp [he, blocksSize], ?_, fun hx => by
          rw [he]; exact hx⟩
        right
        rw [he, frontB_cons]
        omega

theorem tryRemoveSuffix_size (b : RawBlock) (len : Nat)
    (h : (b.tryRemoveSuffix len).2 = true) :
    (b.tryRemoveSuffix len).1.size = b.size - len := by
  cases b with
  | internal sb d sa sh =>
      simp only [RawBlock.tryRemoveSuffix] at h ⊢
      by_cases hm : (RawBlock.internal sb d sa sh).isMutable = true
      · rw [if_pos hm]
        show (List.take (d.length - len) d).length =
          (RawBlock.internal sb d sa sh).size - len
        rw [List.length_take]
        show min (d.length - len) d.length = d.length - len
        omega
      · rw [if_neg hm] at h
        simp at h
  | external d sh => simp [RawBlock.tryRemoveSuffix] at h

theorem tryRemovePrefixOp_size (b : RawBlock) (len : Nat)
    (h : (b.tryRemovePrefixOp len).2 = true) :
    (b.tryRemovePrefixOp len).1.size = b.size - len := by
  cases b with
  | internal sb d sa sh =>
      simp only [RawBlock.tryRemovePrefixOp] at h ⊢
      by_cases hm : (RawBlock.internal sb d sa sh).isMutable = true
      · rw [if_pos hm]
        show (List.drop len d).length =
          (RawBlock.internal sb d sa sh).size - len
        rw [List.length_drop]
        rfl
      · rw [if_neg hm] at h
        simp at h
  | external d sh => simp [RawBlock.tryRemovePrefixOp] at h

theorem midGoodB_of_append_left (xs ys : List RawBlock)
    (h : midGoodB (xs ++ ys) = true) : midGoodB xs = true := by
  cases ys with
  | nil => simpa using h
  | cons y u =>
      rw [midGoodB_append xs (y :: u) (by simp), Bool.and_eq_true] at h
      exact midGoodB_of_allGoodB xs h.1

theorem midGoodB_of_append_right (xs ys : List RawBlock)
    (h : midGoodB (xs ++ ys) = true) : midGoodB ys = true := by
  cases ys with
  | nil => rfl
  | cons y u =>
      rw [midGoodB_append xs (y :: u) (by simp), Bool.and_eq_true] at h
      exact h.2

theorem midGoodB_tail (l : List RawBlock) (h : midGoodB l = true) :
    midGoodB l.tail = true := by
  cases l with
  | nil => rfl
  | cons a t =>
      cases t with
      | nil => rfl
      | cons b u =>
          rw [midGoodB_cons2, Bool.and_eq_true] at h
          exact h.2

theorem interiorOkB_of_append_left (xs ys : List RawBlock)
    (h : interiorOkB (xs ++ ys) = true) : interiorOkB xs = true := by
  cases xs with
  | nil => rfl
  | cons x t =>
      rw [List.cons_append, interiorOkB_cons] at h
      rw [interiorOkB_cons]
      exact midGoodB_of_append_left t ys h

theorem interiorOkB_of_append_right (xs ys : List RawBlock)
    (h : interiorOkB (xs ++ ys) = true) : interiorOkB ys = true := by
  cases ys with
  | nil => rfl
  | cons y u =>
      cases xs with
      | nil => simpa using h
      | cons x t =>
          rw [List.cons_append, interiorOkB_cons] at h
          rw [interiorOkB_cons]
          exact midGoodB_tail (y :: u) (midGoodB_of_append_right t (y :: u) h)

theorem ntt_of_append_left (xs ys : List RawBlock)
    (h : noTwoTinyB (xs ++ ys) = true) : noTwoTinyB xs = true := by
  rw [noTwoTinyB_append] at h
  simp only [Bool.and_eq_true] at h
  exact h.1.1

theorem ntt_of_append_right (xs ys : List RawBlock)
    (h : noTwoTinyB (xs ++ ys) = true) : noTwoTinyB ys = true := by
  rw [noTwoTinyB_append] at h
  simp only [Bool.and_eq_true] at h
  exact h.1.2

theorem noTwoTinyB_replaceLast_seam (init : List RawBlock) (a b : RawBlock)
    (h : noTwoTinyB (init ++ [a]) = true)
    (hseam : init = [] ∨ ((backB init).tiny && b.tiny) = false) :
    noTwoTinyB (init ++ [b]) = true := by
  rw [noTwoTinyB_append_singleton] at h ⊢
  simp only [Bool.and_eq_true, Bool.or_eq_true] at h ⊢
  refine ⟨h.1, ?_⟩
  rcases hseam with hs | hs
  · left
    rw [hs]
    rfl
  · right
    rw [Bool.not_eq_true', Bool.and_eq_false_iff]
    rw [Bool.and_eq_false_iff] at hs
    exact hs

theorem noTwoTinyB_replaceFirst_seam (a b : RawBlock) (t : List RawBlock)
    (h : noTwoTinyB (a :: t) = true)
    (hseam : t = [] ∨ (b.tiny && (frontB t).tiny) = false) :
    noTwoTinyB (b :: t) = true := by
  cases t with
  | nil => exact noTwoTinyB_single b
  | cons x xs =>
      rw [noTwoTinyB_cons2] at h ⊢
      rw [Bool.and_eq_true] at h ⊢
      refine ⟨?_, h.2⟩
      rcases hseam with hs | hs
      · exact absurd hs (by simp)
      · rw [frontB_cons] at hs
        rw [hs]
        rfl

end Riegeli
namespace Riegeli

/-- `Chain::RemoveSuffix(length, options)` never aborts when
`length ≤ size()`; when it returns, the chain invariant still holds and
the size has shrunk by exactly `length`. -/
theorem removeSuffixCh_ok (c : Chain) (length : Nat) (opts : Options)
    (res : Chain) (hok : ChainOk c)
    (hres : c.removeSuffixCh length opts = some res) :
    ChainOk res ∧ res.csize = c.csize - length := by
  obtain ⟨cs, sd, bs⟩ := c
  by_cases hl0 : length = 0
  · simp only [Chain.removeSuffixCh] at hres
    rw [if_pos hl0] at hres
    obtain rfl := Option.some.inj hres
    exact ⟨hok, by omega⟩
  by_cases hlt : cs < length
  · simp only [Chain.removeSuffixCh] at hres
    rw [if_neg hl0, if_pos hlt] at hres
    exact absurd hres (by simp)
  have hlenle : length ≤ cs := Nat.le_of_not_lt hlt
  simp only [Chain.removeSuffixCh] at hres
  rw [if_neg hl0, if_neg hlt] at hres
  cases bs with
  | nil =>
      obtain rfl := Option.some.inj hres
      obtain ⟨h1, h2⟩ := hok
      have h1b : cs ≤ kMaxShortDataSize := h1
      have h2b : cs ≤ sd.length := h2
      exact ⟨chainOk_short _ _ (by omega) (by omega), rfl⟩
  | cons b0 br =>
      obtain ⟨hsz, hntt, hint⟩ := hok
      have hszb : cs = blocksSize (b0 :: br) := hsz
      have hnttb : noTwoTinyB (b0 :: br) = true := hntt
      have hintb : interiorOkB (b0 :: br) = true := hint
      obtain ⟨len1, l2, hpr⟩ :
          ∃ a b, popWhileGT length (b0 :: br).reverse = (a, b) := ⟨_, _, rfl⟩
      obtain ⟨dropped, hdec, hsum, hstop, hpos⟩ :=
        popWhileGT_spec ((b0 :: br).reverse) length
      simp only [hpr] at hres hdec hsum hstop hpos
      have hsplit : b0 :: br = l2.reverse ++ dropped.reverse := by
        have h := congrArg List.reverse hdec
        simpa using h
      have hl2ne : l2 ≠ [] := by
        intro hx
        rw [hx] at hsplit
        have hds : blocksSize dropped.reverse = blocksSize (b0 :: br) := by
          rw [hsplit]
          simp
        rw [blocksSize_reverse] at hds
        have hp1 : 1 ≤ len1 := hpos (by omega)
        omega
      have hbs1ne : l2.reverse ≠ [] := by simpa using hl2ne
      obtain ⟨init, bk, hsplit1⟩ : ∃ i k, l2.reverse = i ++ [k] :=
        ⟨_, _, bs_eq_dropLast_back _ hbs1ne⟩
      have hbkfr : frontB l2 = bk := by
        rw [← backB_reverse, hsplit1, backB_append_singleton]
      have hstop2 : len1 ≤ bk.size := by
        rcases hstop with h | h
        · exact absurd h hl2ne
        · rw [hbkfr] at h
          exact h
      have hlen1pos : 1 ≤ len1 := hpos (by omega)
      have e1 : cs = blocksSize init + bk.size + blocksSize dropped := by
        have h := hszb
        rw [hsplit, hsplit1] at h
        rw [blocksSize_append, blocksSize_append, blocksSize_singleton,
          blocksSize_reverse] at h
        exact h
      have hntt1 : noTwoTinyB (init ++ [bk]) = true := by
        have h := hnttb
        rw [hsplit, hsplit1] at h
        exact ntt_of_append_left _ _ h
      have hint1 : interiorOkB (init ++ [bk]) = true := by
        have h := hintb
        rw [hsplit, hsplit1] at h
        exact interiorOkB_of_append_left _ _ h
      have hsetb : ∀ x, setBackL (init ++ [bk]) x = init ++ [x] := by
        intro x
        unfold setBackL
        rw [List.dropLast_concat]
      obtain ⟨t1, tb, ht⟩ : ∃ a b, bk.tryRemoveSuffix len1 = (a, b) :=
        ⟨_, _, rfl⟩
      rw [hsplit1] at hres
      simp only [ht, backB_append_singleton, List.dropLast_concat,
        hsetb] at hres
      by_cases htb : tb = true
      · rw [if_pos htb] at hres
        have ht1sz : t1.size = bk.size - len1 := by
          have h2 : (bk.tryRemoveSuffix len1).2 = true := by
            rw [ht]
            exact htb
          have h3 := tryRemoveSuffix_size bk len1 h2
          rw [ht] at h3
          exact h3
        by_cases hm : (decide (1 < (init ++ [t1]).length) && t1.tiny &&
            (backB init).tiny) = true
        · rw [if_pos hm] at hres
          have hinitne : init ≠ [] := by
            intro hx
            rw [hx] at hm
            simp at hm
          by_cases hle : t1.isEmpty = true
          · rw [if_neg (by simp [hle])] at hres
            obtain rfl := Option.some.inj hres
            have ht10 : t1.size = 0 := by
              simpa [RawBlock.isEmpty] using hle
            refine ⟨chainOk_blocks _ _ _ hinitne ?_ ?_ ?_, rfl⟩
            · omega
            · exact noTwoTinyB_dropLast_of init bk hntt1
            · exact interiorOkB_of_append_left init [bk] hint1
          · have hlef : t1.isEmpty = false := by simpa using hle
            rw [if_pos (show (!t1.isEmpty) = true by rw [hlef]; rfl)] at hres
            obtain ⟨init2, prevB, hsplit2⟩ : ∃ i k, init = i ++ [k] :=
              ⟨_, _, bs_eq_dropLast_back _ hinitne⟩
            have hsetb2 : ∀ x, setBackL (init2 ++ [prevB]) x =
                init2 ++ [x] := by
              intro x
              unfold setBackL
              rw [List.dropLast_concat]
            rw [hsplit2] at hres
            simp only [backB_append_singleton, hsetb2] at hres
            obtain rfl := Option.some.inj hres
            have e2 : blocksSize init = blocksSize init2 + prevB.size := by
              rw [hsplit2, blocksSize_append, blocksSize_singleton]
            refine ⟨chainOk_blocks _ _ _ (by simp) ?_ ?_ ?_, rfl⟩
            · rw [blocksSize_append, blocksSize_singleton,
                newInternal_appendBytes2]
              show cs - length =
                blocksSize init2 + (prevB.data ++ t1.data).length
              rw [List.length_append]
              have e3 : prevB.data.length = prevB.size := rfl
              have e4 : t1.data.length = t1.size := rfl
              omega
            · have hn0 : noTwoTinyB init = true :=
                noTwoTinyB_dropLast_of init bk hntt1
              rw [hsplit2] at hn0
              refine noTwoTinyB_replaceLast init2 prevB _ hn0 ?_
              rw [newInternal_appendBytes2]
              show prevB.size ≤ (prevB.data ++ t1.data).length
              rw [List.length_append]
              show prevB.size ≤ prevB.size + t1.data.length
              omega
            · have hi0 : interiorOkB init = true :=
                interiorOkB_of_append_left init [bk] hint1
              rw [hsplit2] at hi0
              rw [← interiorOkB_replaceLast init2 prevB _]
              exact hi0
        · rw [if_neg hm] at hres
          obtain rfl := Option.some.inj hres
          refine ⟨chainOk_blocks _ _ _ (by simp) ?_ ?_ ?_, rfl⟩
          · rw [blocksSize_append, blocksSize_singleton]
            omega
          · refine noTwoTinyB_replaceLast_seam init bk t1 hntt1 ?_
            by_cases hie : init = []
            · exact Or.inl hie
            · right
              have hd : decide (1 < (init ++ [t1]).length) = true := by
                have hlp : 0 < init.length := List.length_pos.mpr hie
                simp [List.length_append]
                omega
              have hmf : (decide (1 < (init ++ [t1]).length) && t1.tiny &&
                  (backB init).tiny) = false := by simpa using hm
              rw [hd] at hmf
              rw [Bool.and_eq_false_iff] at hmf
              rw [Bool.and_eq_false_iff]
              rcases hmf with h | h
              · rw [Bool.and_eq_false_iff] at h
                rcases h with h | h
                · simp at h
                · exact Or.inr h
              · exact Or.inl h
          · rw [← interiorOkB_replaceLast init bk t1]
            exact hint1
      · rw [if_neg htb] at hres
        by_cases hlb : len1 = bk.size
        · rw [if_pos hlb] at hres
          obtain rfl := Option.some.inj hres
          by_cases hie : init = []
          · subst hie
            have h0 : cs - length = 0 := by
              have : blocksSize ([] : List RawBlock) = 0 := rfl
              omega
            exact ⟨chainOk_short _ _ (by omega) (by omega), rfl⟩
          · refine ⟨chainOk_blocks _ _ _ hie ?_ ?_ ?_, rfl⟩
            · omega
            · exact noTwoTinyB_dropLast_of init bk hntt1
            · exact interiorOkB_of_append_left init [bk] hint1
        · rw [if_neg hlb] at hres
          have hdatlen : (bk.data.take (bk.size - len1)).length =
              bk.size - len1 := by
            rw [List.length_take]
            have : bk.data.length = bk.size := rfl
            omega
          have hmidok : ChainOk ⟨cs - length -
              (bk.data.take (bk.size - len1)).length, sd, init⟩ := by
            by_cases hie : init = []
            · subst hie
              refine chainOk_short _ _ ?_ ?_ <;>
                · have : blocksSize ([] : List RawBlock) = 0 := rfl
                  omega
            · refine chainOk_blocks _ _ _ hie ?_
                (noTwoTinyB_dropLast_of init bk hntt1)
                (interiorOkB_of_append_left init [bk] hint1)
              omega
          by_cases hsm : (bk.data.take (bk.size - len1)).length ≤
              kMaxBytesToCopy
          · rw [if_pos hsm] at hres
            obtain rfl := Option.some.inj hres
            have hs := appendSV_ok
              ⟨cs - length - (bk.data.take (bk.size - len1)).length, sd,
                init⟩ (bk.data.take (bk.size - len1)) opts hmidok
            refine ⟨hs.1, ?_⟩
            rw [hs.2.1]
            show cs - length - (bk.data.take (bk.size - len1)).length +
              (bk.data.take (bk.size - len1)).length = cs - length
            omega
          · rw [if_neg hsm] at hres
            obtain rfl := Option.some.inj hres
            have hs := appendRawBlockCh_ok
              ⟨cs - length - (bk.data.take (bk.size - len1)).length, sd,
                init⟩
              (.external (bk.data.take (bk.size - len1)) false) opts hmidok
            refine ⟨hs.1, ?_⟩
            rw [hs.2.1]
            show cs - length - (bk.data.take (bk.size - len1)).length +
              (RawBlock.external (bk.data.take (bk.size - len1))
                false).size = cs - length
            rw [extern_size]
            omega

end Riegeli
namespace Riegeli

/-- `Chain::RemovePrefix(length, options)` never aborts when
`length ≤ size()`; when it returns, the chain invariant still holds and
the size has shrunk by exactly `length`. -/
theorem removePrefixCh_ok (c : Chain) (length : Nat) (opts : Options)
    (res : Chain) (hok : ChainOk c)
    (hres : c.removePrefixCh length opts = some res) :
    ChainOk res ∧ res.csize = c.csize - length := by
  obtain ⟨cs, sd, bs⟩ := c
  by_cases hl0 : length = 0
  · simp only [Chain.removePrefixCh] at hres
    rw [if_pos hl0] at hres
    obtain rfl := Option.some.inj hres
    exact ⟨hok, by omega⟩
  by_cases hlt : cs < length
  · simp only [Chain.removePrefixCh] at hres
    rw [if_neg hl0, if_pos hlt] at hres
    exact absurd hres (by simp)
  have hlenle : length ≤ cs := Nat.le_of_not_lt hlt
  simp only [Chain.removePrefixCh] at hres
  rw [if_neg hl0, if_neg hlt] at hres
  cases bs with
  | nil =>
      obtain rfl := Option.some.inj hres
      obtain ⟨h1, h2⟩ := hok
      have h1b : cs ≤ kMaxShortDataSize := h1
      have h2b : cs ≤ sd.length := h2
      refine ⟨chainOk_short _ _ (by omega) ?_, rfl⟩
      show cs - length ≤ ((sd.take cs).drop length).length
      rw [List.length_drop, List.length_take]
      omega
  | cons b0 br =>
      obtain ⟨hsz, hntt, hint⟩ := hok
      have hszb : cs = blocksSize (b0 :: br) := hsz
      have hnttb : noTwoTinyB (b0 :: br) = true := hntt
      have hintb : interiorOkB (b0 :: br) = true := hint
      obtain ⟨len1, l2, hpr⟩ :
          ∃ a b, popWhileGT length (b0 :: br) = (a, b) := ⟨_, _, rfl⟩
      obtain ⟨dropped, hdec, hsum, hstop, hpos⟩ :=
        popWhileGT_spec (b0 :: br) length
      simp only [hpr] at hres hdec hsum hstop hpos
      have hl2ne : l2 ≠ [] := by
        intro hx
        rw [hx] at hdec
        have hds : blocksSize dropped = blocksSize (b0 :: br) := by
          rw [hdec]
          simp
        have hp1 : 1 ≤ len1 := hpos (by omega)
        omega
      obtain ⟨fr0, l2t, hsplit1⟩ : ∃ f t, l2 = f :: t := by
        cases l2 with
        | nil => exact absurd rfl hl2ne
        | cons f t => exact ⟨f, t, rfl⟩
      have hstop2 : len1 ≤ fr0.size := by
        rcases hstop with h | h
        · exact absurd h hl2ne
        · rw [hsplit1, frontB_cons] at h
          exact h
      have hlen1pos : 1 ≤ len1 := hpos (by omega)
      have e1 : cs = blocksSize dropped + fr0.size + blocksSize l2t := by
        have h := hszb
        rw [hdec, hsplit1] at h
        rw [blocksSize_append, blocksSize_cons] at h
        omega
      have hntt2 : noTwoTinyB (fr0 :: l2t) = true := by
        have h := hnttb
        rw [hdec, hsplit1] at h
        exact ntt_of_append_right _ _ h
      have hint2 : interiorOkB (fr0 :: l2t) = true := by
        have h := hintb
        rw [hdec, hsplit1] at h
        exact interiorOkB_of_append_right _ _ h
      have hnttl2t : noTwoTinyB l2t = true := noTwoTinyB_tail fr0 l2t hntt2
      have hintl2t : interiorOkB l2t = true := by
        have h := hint2
        rw [interiorOkB_cons] at h
        exact interiorOkB_of_midGoodB _ h
      obtain ⟨t1, tb, ht⟩ : ∃ a b, fr0.tryRemovePrefixOp len1 = (a, b) :=
        ⟨_, _, rfl⟩
      rw [hsplit1] at hres
      simp only [ht, frontB_cons, List.tail_cons] at hres
      by_cases htb : tb = true
      · rw [if_pos htb] at hres
        have ht1sz : t1.size = fr0.size - len1 := by
          have h2 : (fr0.tryRemovePrefixOp len1).2 = true := by
            rw [ht]
            exact htb
          have h3 := tryRemovePrefixOp_size fr0 len1 h2
          rw [ht] at h3
          exact h3
        by_cases hm : (decide (1 < (t1 :: l2t).length) && t1.tiny &&
            (frontB l2t).tiny) = true
        · rw [if_pos hm] at hres
          have hl2tne : l2t ≠ [] := by
            intro hx
            rw [hx] at hm
            simp at hm
          by_cases hle : t1.isEmpty = true
          · rw [if_neg (by simp [hle])] at hres
            obtain rfl := Option.some.inj hres
            have ht10 : t1.size = 0 := by
              simpa [RawBlock.isEmpty] using hle
            refine ⟨chainOk_blocks _ _ _ hl2tne ?_ hnttl2t hintl2t, rfl⟩
            omega
          · have hlef : t1.isEmpty = false := by simpa using hle
            rw [if_pos (show (!t1.isEmpty) = true by rw [hlef]; rfl)] at hres
            obtain ⟨nxtB, l2t2, hsplit2⟩ : ∃ f t, l2t = f :: t := by
              cases l2t with
              | nil => exact absurd rfl hl2tne
              | cons f t => exact ⟨f, t, rfl⟩
            rw [hsplit2] at hres
            simp only [frontB_cons, List.tail_cons] at hres
            obtain rfl := Option.some.inj hres
            have e2 : blocksSize l2t = nxtB.size + blocksSize l2t2 := by
              rw [hsplit2, blocksSize_cons]
            refine ⟨chainOk_blocks _ _ _ (by simp) ?_ ?_ ?_, rfl⟩
            · rw [blocksSize_cons, newInternal_prependBytes2]
              show cs - length =
                (t1.data ++ nxtB.data).length + blocksSize l2t2
              rw [List.length_append]
              have e3 : t1.data.length = t1.size := rfl
              have e4 : nxtB.data.length = nxtB.size := rfl
              omega
            · have hn0 : noTwoTinyB (nxtB :: l2t2) = true := by
                rw [← hsplit2]
                exact hnttl2t
              refine noTwoTinyB_replaceFirst nxtB _ l2t2 hn0 ?_
              rw [newInternal_prependBytes2]
              show nxtB.size ≤ (t1.data ++ nxtB.data).length
              rw [List.length_append]
              show nxtB.size ≤ t1.data.length + nxtB.size
              omega
            · rw [interiorOkB_cons]
              have h := hint2
              rw [hsplit2, interiorOkB_cons] at h
              exact midGoodB_tail _ h
        · rw [if_neg hm] at hres
          obtain rfl := Option.some.inj hres
          refine ⟨chainOk_blocks _ _ _ (by simp) ?_ ?_ ?_, rfl⟩
          · rw [blocksSize_cons]
            omega
          · refine noTwoTinyB_replaceFirst_seam fr0 t1 l2t hntt2 ?_
            by_cases hie : l2t = []
            · exact Or.inl hie
            · right
              have hd : decide (1 < (t1 :: l2t).length) = true := by
                have hlp : 0 < l2t.length := List.length_pos.mpr hie
                simp
                omega
              have hmf : (decide (1 < (t1 :: l2t).length) && t1.tiny &&
                  (frontB l2t).tiny) = false := by simpa using hm
              rw [hd] at hmf
              simpa using hmf
          · rw [interiorOkB_cons]
            have h := hint2
            rw [interiorOkB_cons] at h
            exact h
      · rw [if_neg htb] at hres
        by_cases hlb : len1 = fr0.size
        · rw [if_pos hlb] at hres
          obtain rfl := Option.some.inj hres
          by_cases hie : l2t = []
          · subst hie
            have h0 : cs - length = 0 := by
              have : blocksSize ([] : List RawBlock) = 0 := rfl
              omega
            exact ⟨chainOk_short _ _ (by omega) (by omega), rfl⟩
          · refine ⟨chainOk_blocks _ _ _ hie ?_ hnttl2t hintl2t, rfl⟩
            omega
        · rw [if_neg hlb] at hres
          have hdatlen : (fr0.data.drop len1).length = fr0.size - len1 := by
            rw [List.length_drop]
            rfl
          have hmidok : ChainOk ⟨cs - length -
              (fr0.data.drop len1).length, sd, l2t⟩ := by
            by_cases hie : l2t = []
            · subst hie
              refine chainOk_short _ _ ?_ ?_ <;>
                · have : blocksSize ([] : List RawBlock) = 0 := rfl
                  omega
            · refine chainOk_blocks _ _ _ hie ?_ hnttl2t hintl2t
              omega
          by_cases hsm : (fr0.data.drop len1).length ≤ kMaxBytesToCopy
          · rw [if_pos hsm] at hres
            obtain rfl := Option.some.inj hres
            have hs := prependSV_ok
              ⟨cs - length - (fr0.data.drop len1).length, sd, l2t⟩
              (fr0.data.drop len1) opts hmidok
            refine ⟨hs.1, ?_⟩
            rw [hs.2.1]
            show cs - length - (fr0.data.drop len1).length +
              (fr0.data.drop len1).length = cs - length
            omega
          · rw [if_neg hsm] at hres
            obtain rfl := Option.some.inj hres
            have hs := prependRawBlockCh_ok
              ⟨cs - length - (fr0.data.drop len1).length, sd, l2t⟩
              (.external (fr0.data.drop len1) false) opts hmidok
            refine ⟨hs.1, ?_⟩
            rw [hs.2.1]
            show cs - length - (fr0.data.drop len1).length +
              (RawBlock.external (fr0.data.drop len1) false).size =
              cs - length
            rw [extern_size]
            omega

end Riegeli
namespace Riegeli

theorem foldl_appendBytes_size (bs : List RawBlock) (b : RawBlock) :
    (bs.foldl (fun a blk => a.appendBytes blk.data) b).size =
      b.size + blocksSize bs := by
  induction bs generalizing b with
  | nil => simp [blocksSize]
  | cons x t ih =>
      rw [List.foldl_cons, ih, appendBytes_size, blocksSize_cons]
      have : x.data.length = x.size := rfl
      omega

/-- `Chain::Flatten` preserves the invariant and the size. -/
theorem flattenCh_ok (c : Chain) (hok : ChainOk c) :
    ChainOk c.flattenCh ∧ c.flattenCh.csize = c.csize := by
  obtain ⟨cs, sd, bs⟩ := c
  unfold Chain.flattenCh
  by_cases h : (Chain.mk cs sd bs).bs.length ≤ 1
  · rw [if_pos h]
    exact ⟨hok, rfl⟩
  · rw [if_neg h]
    cases bs with
    | nil => exact absurd (by simp) h
    | cons b0 br =>
        obtain ⟨hsz, hntt, hint⟩ := hok
        have hszb : cs = blocksSize (b0 :: br) := hsz
        refine ⟨chainOk_blocks _ _ _ (by simp) ?_ (noTwoTinyB_single _)
          rfl, rfl⟩
        rw [blocksSize_singleton, foldl_appendBytes_size]
        show cs = 0 + blocksSize (b0 :: br)
        omega

/-- `Chain::Clear` restores a valid empty chain. -/
theorem clearCh_ok (c : Chain) :
    ChainOk c.clearCh ∧ c.clearCh.csize = 0 := by
  obtain ⟨cs, sd, bs⟩ := c
  cases bs with
  | nil =>
      simp only [Chain.clearCh]
      exact ⟨chainOk_short _ _ (by omega) (by omega), trivial⟩
  | cons f r =>
      simp only [Chain.clearCh]
      by_cases h : (f.tryClear).2 = true
      · rw [if_pos h]
        refine ⟨chainOk_blocks _ _ _ (by simp) ?_ (noTwoTinyB_single _)
          rfl, rfl⟩
        rw [blocksSize_singleton, tryClear_snd_size f h]
      · rw [if_neg h]
        exact ⟨chainOk_short _ _ (by omega) (by omega), rfl⟩

/-- Copying a chain (sharing every block) preserves the invariant, the
size, and the content. -/
theorem shareAll_ok (c : Chain) (hok : ChainOk c) :
    ChainOk c.shareAll ∧ c.shareAll.csize = c.csize ∧
      c.shareAll.content = c.content := by
  obtain ⟨cs, sd, bs⟩ := c
  unfold Chain.shareAll
  cases bs with
  | nil =>
      obtain ⟨h1, h2⟩ := hok
      exact ⟨⟨h1, h2⟩, rfl, rfl⟩
  | cons b0 br =>
      obtain ⟨hsz, hntt, hint⟩ := hok
      have hszb : cs = blocksSize (b0 :: br) := hsz
      refine ⟨chainOk_blocks _ _ _ (by simp) ?_ ?_ ?_, rfl, ?_⟩
      · rw [setSharedMap_blocksSize]
        exact hszb
      · rw [setSharedMap_ntt]
        exact hntt
      · rw [setSharedMap_interiorOkB]
        exact hint
      · rw [content_blocks _ _ _ (by simp),
          content_blocks _ _ _ (by simp), setSharedMap_flatten]

/-- The `Chain(absl::string_view)` constructor builds a valid chain
holding exactly the source bytes. -/
theorem fromBytes_ok (src : Bytes) :
    ChainOk (Chain.fromBytes src) ∧
      (Chain.fromBytes src).csize = src.length ∧
      (Chain.fromBytes src).content = src := by
  simp only [Chain.fromBytes]
  by_cases h : src.length ≤ kMaxShortDataSize
  · rw [if_pos h]
    refine ⟨chainOk_short _ _ h (by omega), rfl, ?_⟩
    show src.take src.length = src
    exact List.take_length src
  · rw [if_neg h]
    have hcaple : min src.length kDefaultMaxBlockSize ≤ src.length :=
      Nat.min_le_left _ _
    have hL : min (min src.length kDefaultMaxBlockSize) src.length ≤
        src.length := Nat.min_le_right _ _
    have hok0 : ChainOk ⟨min (min src.length kDefaultMaxBlockSize)
        src.length, [],
        [RawBlock.internal 0
          (src.take (min (min src.length kDefaultMaxBlockSize)
            src.length))
          (min src.length kDefaultMaxBlockSize -
            min (min src.length kDefaultMaxBlockSize) src.length)
          false]⟩ := by
      refine chainOk_blocks _ _ _ (by simp) ?_ (noTwoTinyB_single _) rfl
      rw [blocksSize_singleton]
      show min (min src.length kDefaultMaxBlockSize) src.length =
        (src.take (min (min src.length kDefaultMaxBlockSize)
          src.length)).length
      rw [List.length_take]
      omega
    have hs := appendSV_ok
      ⟨min (min src.length kDefaultMaxBlockSize) src.length, [],
        [RawBlock.internal 0
          (src.take (min (min src.length kDefaultMaxBlockSize)
            src.length))
          (min src.length kDefaultMaxBlockSize -
            min (min src.length kDefaultMaxBlockSize) src.length)
          false]⟩
      (src.drop (min (min src.length kDefaultMaxBlockSize) src.length))
      { sizeHint := some src.length } hok0
    refine ⟨hs.1, ?_, ?_⟩
    · rw [hs.2.1]
      show min (min src.length kDefaultMaxBlockSize) src.length +
        (src.drop (min (min src.length kDefaultMaxBlockSize)
          src.length)).length = src.length
      rw [List.length_drop]
      omega
    · rw [hs.2.2, content_blocks _ _ _ (by simp)]
      simp [RawBlock.data]

end Riegeli
namespace Riegeli

/-- C1: every `Chain` reachable through any sequence of public
operations (construction, append, prepend, append_buffer,
prepend_buffer, remove_prefix, remove_suffix, flatten, copy, move,
clear) satisfies `Chain::VerifyInvariants`: with no blocks attached the
size is at most `kMaxShortDataSize`; with blocks attached the size is
the sum of the block sizes, no two adjacent blocks are both tiny, and
no interior block is empty or wasteful. -/
theorem chain_invariants_reachable (c : Chain) (h : Reachable c) :
    c.okb = true := by
  rw [okb_iff_chainOk]
  induction h with
  | emptyCtor => exact chainOk_short 0 [] (by omega) (by omega)
  | stringCtor src => exact (fromBytes_ok src).1
  | appendString c src options _ ih => exact (appendSV_ok c src options ih).1
  | prependString c src options _ ih =>
      exact (prependSV_ok c src options ih).1
  | appendChainR c src share options _ hsok ih =>
      exact (appendChainOp_ok c src share options ih
        ((okb_iff_chainOk src).mp hsok)).1
  | prependChainR c src share options _ hsok ih =>
      exact (prependChainOp_ok c src share options ih
        ((okb_iff_chainOk src).mp hsok)).1
  | appendBlock c d options _ ih =>
      exact (appendRawBlockCh_ok c (.external d false) options ih).1
  | prependBlock c d options _ ih =>
      exact (prependRawBlockCh_ok c (.external d false) options ih).1
  | appendBufferR c minL recL maxL options fill _ hmm hcap ih =>
      exact (appendBufferCh_ok c minL recL maxL options fill ih hmm hcap).1
  | prependBufferR c minL recL maxL options fill _ hmm hcap ih =>
      exact (prependBufferCh_ok c minL recL maxL options fill ih hmm
        hcap).1
  | removeSuffixR c n options res _ hsome ih =>
      exact (removeSuffixCh_ok c n options res ih hsome).1
  | removePrefixR c n options res _ hsome ih =>
      exact (removePrefixCh_ok c n options res ih hsome).1
  | flattenR c _ ih => exact (flattenCh_ok c ih).1
  | clearR c _ ih => exact (clearCh_ok c).1
  | shareR c _ ih => exact (shareAll_ok c ih).1

theorem chain_invariants_reachable_witness :
    Reachable (⟨0, [], []⟩ : Chain) ∧
      (⟨0, [], []⟩ : Chain).okb = true :=
  ⟨Reachable.emptyCtor,
    chain_invariants_reachable ⟨0, [], []⟩ Reachable.emptyCtor⟩

/-- C2: for valid chains `a` and `b`, `a.Append(b)` (either ownership
instantiation) yields a chain whose string conversion is the
concatenation of the string conversions of `a` and `b`, across every
branch of the boundary-join algorithm and regardless of short-data
mode of either operand. -/
theorem append_chain_toStr (a b : Chain) (share : Bool) (opts : Options)
    (ha : a.okb = true) (hb : b.okb = true) :
    (a.appendChainOp b share opts).toStr = a.toStr ++ b.toStr := by
  have h := appendChainOp_ok a b share opts ((okb_iff_chainOk a).mp ha)
    ((okb_iff_chainOk b).mp hb)
  simpa [Chain.toStr] using h.2.2

theorem append_chain_toStr_witness :
    (⟨1, [7], []⟩ : Chain).okb = true ∧
    (⟨2, [5, 6], []⟩ : Chain).okb = true ∧
    ((⟨1, [7], []⟩ : Chain).appendChainOp ⟨2, [5, 6], []⟩ true {}).toStr =
      (⟨1, [7], []⟩ : Chain).toStr ++ (⟨2, [5, 6], []⟩ : Chain).toStr :=
  ⟨by decide, by decide,
    append_chain_toStr ⟨1, [7], []⟩ ⟨2, [5, 6], []⟩ true {}
      (by decide) (by decide)⟩

/-- C6 (amended): `RemovePrefix`/`RemoveSuffix` with `length > size()`
do not report an `OutOfRange` status: they abort the process through
the fatal `RIEGELI_CHECK_LE(length, size())` (modelled as `none`); on
`length ≤ size()` they return normally and the chain is left in a valid
state. -/
theorem remove_beyond_size_aborts (c : Chain) (n : Nat) (opts : Options)
    (hok : ChainOk c) :
    (c.csize < n →
      c.removeSuffixCh n opts = none ∧ c.removePrefixCh n opts = none) ∧
    (∀ res, c.removeSuffixCh n opts = some res → ChainOk res) ∧
    (∀ res, c.removePrefixCh n opts = some res → ChainOk res) := by
  refine ⟨fun hn => ⟨?_, ?_⟩, fun res hr => (removeSuffixCh_ok c n opts
    res hok hr).1, fun res hr => (removePrefixCh_ok c n opts res hok
    hr).1⟩
  · unfold Chain.removeSuffixCh
    rw [if_neg (by omega), if_pos hn]
  · unfold Chain.removePrefixCh
    rw [if_neg (by omega), if_pos hn]

theorem remove_beyond_size_aborts_witness :
    ChainOk (⟨0, [], []⟩ : Chain) ∧
    (((⟨0, [], []⟩ : Chain).csize < 1 →
      (⟨0, [], []⟩ : Chain).removeSuffixCh 1 {} = none ∧
      (⟨0, [], []⟩ : Chain).removePrefixCh 1 {} = none) ∧
    (∀ res, (⟨0, [], []⟩ : Chain).removeSuffixCh 1 {} = some res →
      ChainOk res) ∧
    (∀ res, (⟨0, [], []⟩ : Chain).removePrefixCh 1 {} = some res →
      ChainOk res)) :=
  ⟨⟨Nat.zero_le _, Nat.zero_le _⟩,
    remove_beyond_size_aborts ⟨0, [], []⟩ 1 {}
      ⟨Nat.zero_le _, Nat.zero_le _⟩⟩

/-- The original wording of the removal contract is false: removing one
byte from an empty chain does not produce a status value at all — the
operation dies in `RIEGELI_CHECK_LE` (modelled as `none`), so no
`OutOfRange` status is ever returned. -/
theorem remove_beyond_message_counterexample :
    (⟨0, [], []⟩ : Chain).removeSuffixCh 1 {} = none ∧
    (⟨0, [], []⟩ : Chain).removePrefixCh 1 {} = none :=
  ⟨rfl, rfl⟩

end Riegeli
